import Mathlib

/-!
Verification of the tree_db repository: the B+-tree index engine of
src/bplustree.py (duplicated verbatim in src/tree_db.py), the validating
table manager of src/database_manager.py, and the persistence layer of
src/tree_db.py.

Python's mutable node graph is modelled as an arena: a list of nodes in
which child references and next-leaf references are list indices, exactly
mirroring object identity in the source.  Python while loops become
fuel-bounded recursions, and code paths that would raise an unmodelled
exception (attribute errors on malformed nodes, cycles in the leaf chain)
return none.
-/

namespace TreeDb

/-- Python list.insert: inserts at position i, clamping to the end as Python does. -/
def pyInsert {α : Type} (l : List α) (i : Nat) (x : α) : List α :=
  l.take i ++ x :: l.drop i

/-- Python assignment to a list cell; IndexError out of range, hence Option. -/
def pySet {α : Type} (l : List α) (i : Nat) (x : α) : Option (List α) :=
  if i < l.length then some (l.set i x) else none

/-- Python list.index: first position of x, none (ValueError) when absent. -/
def pyIndex {α : Type} [DecidableEq α] : List α → α → Option Nat
  | [], _ => none
  | y :: ys, x => if y = x then some 0 else (pyIndex ys x).map (· + 1)

/-- bisect.bisect_right on an ascending list: number of leading elements ≤ x. -/
def bisect_right : List Int → Int → Nat
  | [], _ => 0
  | y :: ys, x => if x < y then 0 else bisect_right ys x + 1

/-- bisect.bisect_left on an ascending list: number of leading elements < x. -/
def bisect_left : List Int → Int → Nat
  | [], _ => 0
  | y :: ys, x => if x ≤ y then 0 else bisect_left ys x + 1

/-- An entry of a node's children_or_values list: a child reference (arena
index) in internal nodes, a stored value in leaves. -/
inductive CV (V : Type) where
  | child (i : Nat)
  | val (v : V)
deriving DecidableEq, Repr

/-- BPlusTreeNode from src/bplustree.py; child and next_leaf references are
arena indices. -/
structure BPlusTreeNode (V : Type) where
  order : Nat
  is_leaf : Bool
  keys : List Int
  children_or_values : List (CV V)
  next_leaf : Option Nat
deriving DecidableEq, Repr

/-- BPlusTree from src/bplustree.py: the node arena plus the root index. -/
structure BPlusTree (V : Type) where
  order : Nat
  nodes : List (BPlusTreeNode V)
  root : Nat
deriving DecidableEq, Repr

/-- BPlusTree.__init__: orders below 3 raise ValueError; otherwise a single
empty leaf root. -/
def BPlusTree.new (V : Type) (order : Nat) : Option (BPlusTree V) :=
  if order < 3 then none
  else some ⟨order, [⟨order, true, [], [], none⟩], 0⟩

/-- Descent loop shared by BPlusTree.insert and BPlusTree._find_leaf: walk
from a node to the leaf responsible for key, returning the leaf index
together with the last internal node seen (the parent; none when the root
itself is the leaf).  Fuel bounds the while loop; a malformed arena gives
none (a Python crash). -/
def findLeafP {V : Type} (t : BPlusTree V) (key : Int) :
    Nat → Option Nat → Nat → Option (Option Nat × Nat)
  | 0, _, _ => none
  | fuel + 1, parent, ni =>
    match t.nodes[ni]? with
    | none => none
    | some n =>
      if n.is_leaf then some (parent, ni)
      else
        match n.children_or_values[bisect_right n.keys key]? with
        | some (CV.child c) => findLeafP t key fuel (some ni) c
        | _ => none

/-- BPlusTree._insert_in_parent.  Note the source's incomplete overflow
branch: when the parent becomes full it does nothing (the literal pass)
instead of splitting the internal node. -/
def _insert_in_parent {V : Type} (t : BPlusTree V) (parent : Option Nat)
    (key : Int) (left_child right_child : Nat) : Option (BPlusTree V) :=
  match parent with
  | none =>
    some { t with
      nodes := t.nodes ++
        [⟨t.order, false, [key], [.child left_child, .child right_child], none⟩],
      root := t.nodes.length }
  | some pi =>
    match t.nodes[pi]? with
    | none => none
    | some p =>
      let idx := bisect_right p.keys key
      let p' : BPlusTreeNode V :=
        { p with keys := pyInsert p.keys idx key,
                 children_or_values :=
                   pyInsert p.children_or_values (idx + 1) (.child right_child) }
      some { t with nodes := t.nodes.set pi p' }

/-- BPlusTree._split_leaf: splits a full leaf at mid = order / 2, relinks the
leaf chain, and promotes (copies) the new right leaf's first key into the
parent. -/
def _split_leaf {V : Type} (t : BPlusTree V) (li : Nat) (parent : Option Nat) :
    Option (BPlusTree V) :=
  match t.nodes[li]? with
  | none => none
  | some leaf =>
    let mid := t.order / 2
    let ni := t.nodes.length
    let new_leaf : BPlusTreeNode V :=
      ⟨t.order, true, leaf.keys.drop mid, leaf.children_or_values.drop mid, leaf.next_leaf⟩
    let leafL : BPlusTreeNode V :=
      { leaf with keys := leaf.keys.take mid,
                  children_or_values := leaf.children_or_values.take mid,
                  next_leaf := some ni }
    match new_leaf.keys.head? with
    | none => none
    | some k =>
      _insert_in_parent { t with nodes := t.nodes.set li leafL ++ [new_leaf] } parent k li ni

/-- BPlusTree.insert: upsert at the destination leaf, splitting the leaf when
it reaches order keys. -/
def BPlusTree.insert {V : Type} (t : BPlusTree V) (key : Int) (value : V) :
    Option (BPlusTree V) :=
  match findLeafP t key (t.nodes.length + 1) none t.root with
  | none => none
  | some (parent, li) =>
    match t.nodes[li]? with
    | none => none
    | some node =>
      match pyIndex node.keys key with
      | some idx =>
        match pySet node.children_or_values idx (.val value) with
        | none => none
        | some cv =>
          some { t with nodes := t.nodes.set li { node with children_or_values := cv } }
      | none =>
        let idx := bisect_left node.keys key
        let node' : BPlusTreeNode V :=
          { node with keys := pyInsert node.keys idx key,
                      children_or_values := pyInsert node.children_or_values idx (.val value) }
        let t' : BPlusTree V := { t with nodes := t.nodes.set li node' }
        if node'.keys.length = node'.order then _split_leaf t' li parent
        else some t'

/-- BPlusTree._find_leaf: the same descent as the insert loop, without the
parent bookkeeping. -/
def _find_leaf {V : Type} (t : BPlusTree V) (key : Int) : Option Nat :=
  (findLeafP t key (t.nodes.length + 1) none t.root).map (·.2)

/-- BPlusTree.search: the value stored at key; inner none when the key is
absent (Python returns None). -/
def BPlusTree.search {V : Type} (t : BPlusTree V) (key : Int) : Option (Option V) :=
  match _find_leaf t key with
  | none => none
  | some li =>
    match t.nodes[li]? with
    | none => none
    | some leaf =>
      match pyIndex leaf.keys key with
      | none => some none
      | some idx =>
        match leaf.children_or_values[idx]? with
        | some (.val v) => some (some v)
        | _ => none

/-- Helper of get_all: a leaf's children_or_values must all be stored values;
meeting a child reference there means the arena is malformed. -/
def allVals {V : Type} : List (CV V) → Option (List V)
  | [] => some []
  | .val v :: rest => (allVals rest).map (v :: ·)
  | .child _ :: _ => none

/-- Leftmost-leaf descent inside BPlusTree.get_all. -/
def descendFirst {V : Type} (t : BPlusTree V) : Nat → Nat → Option Nat
  | 0, _ => none
  | fuel + 1, ni =>
    match t.nodes[ni]? with
    | none => none
    | some n =>
      if n.is_leaf then some ni
      else
        match n.children_or_values[0]? with
        | some (CV.child c) => descendFirst t fuel c
        | _ => none

/-- Leaf-chain walk of BPlusTree.get_all; the fuel rules out an infinite walk
along a cyclic chain (a Python hang). -/
def chainWalk {V : Type} (t : BPlusTree V) : Nat → Option Nat → Option (List V)
  | _, none => some []
  | 0, some _ => none
  | fuel + 1, some i =>
    match t.nodes[i]? with
    | none => none
    | some n =>
      match allVals n.children_or_values with
      | none => none
      | some vs => (chainWalk t fuel n.next_leaf).map (vs ++ ·)

/-- BPlusTree.get_all: every stored value, walking the leaf chain from the
leftmost leaf. -/
def BPlusTree.get_all {V : Type} (t : BPlusTree V) : Option (List V) :=
  match t.nodes[t.root]? with
  | none => none
  | some r =>
    if r.keys = [] ∧ r.is_leaf = false then some []
    else
      match descendFirst t (t.nodes.length + 1) t.root with
      | none => none
      | some li => chainWalk t (t.nodes.length + 1) (some li)

/-- Folds a sequence of inserts into a fresh tree of the given order. -/
def buildTree {V : Type} (order : Nat) (l : List (Int × V)) : Option (BPlusTree V) :=
  l.foldl (fun acc p => acc.bind (fun t => t.insert p.1 p.2)) (BPlusTree.new V order)

/-- The stored values among a children_or_values list. -/
def cvVals {V : Type} (l : List (CV V)) : List V :=
  l.filterMap (fun e => match e with | .val v => some v | _ => none)

/-- The key-value pairs held by a leaf node. -/
def leafPairs {V : Type} (n : BPlusTreeNode V) : List (Int × V) :=
  n.keys.zip (cvVals n.children_or_values)

/-- Keys of the node stored at arena index i. -/
def keysAt {V : Type} (t : BPlusTree V) (i : Nat) : List Int :=
  match t.nodes[i]? with
  | some n => n.keys
  | none => []

/-- Pairs of the leaf stored at arena index i. -/
def pairsAt {V : Type} (t : BPlusTree V) (i : Nat) : List (Int × V) :=
  match t.nodes[i]? with
  | some n => leafPairs n
  | none => []

/-- Next-leaf link of the node stored at arena index i. -/
def nextAt {V : Type} (t : BPlusTree V) (i : Nat) : Option Nat :=
  match t.nodes[i]? with
  | some n => n.next_leaf
  | none => none

/-- Abstract view of the tree: its key-value pairs in left-to-right leaf
order (root leaf alone, or the root's children in order). -/
def contents {V : Type} (t : BPlusTree V) : List (Int × V) :=
  match t.nodes[t.root]? with
  | none => []
  | some r =>
    if r.is_leaf then leafPairs r
    else (r.children_or_values.map (fun e =>
      match e with
      | CV.child i => pairsAt t i
      | CV.val _ => [])).flatten

/-- Insertion into a key-sorted association list, overwriting an equal key:
the abstract effect of BPlusTree.insert on contents. -/
def assocUpsert {V : Type} : List (Int × V) → Int → V → List (Int × V)
  | [], k, v => [(k, v)]
  | (a, b) :: rest, k, v =>
    if k < a then (k, v) :: (a, b) :: rest
    else if k = a then (k, v) :: rest
    else (a, b) :: assocUpsert rest k v

/-- Shape conditions on a leaf node of a tree of order d. -/
def leafShape {V : Type} (d : Nat) (n : BPlusTreeNode V) : Prop :=
  n.is_leaf = true ∧ n.order = d ∧ List.Sorted (· < ·) n.keys ∧ n.keys.length < d ∧
  ∃ vs : List V, n.children_or_values = vs.map CV.val ∧ vs.length = n.keys.length

/-- The leaf-chain condition: consecutive children are linked by next_leaf
and the last child ends the chain. -/
def chainOK {V : Type} (t : BPlusTree V) (cs : List Nat) : Prop :=
  List.Chain' (fun a b => nextAt t a = some b) cs ∧
  (match cs.getLast? with
   | some a => nextAt t a = none
   | none => True)

/-- Routing of the root keys over the children's key lists, descending by
upper bound (bisect_right): all keys strictly under the separator live to
its left, the separator lower-bounds everything to its right. -/
def routed : List Int → List (List Int) → Prop
  | [], ll => ll.length = 1
  | k :: ks, ll =>
    match ll with
    | [] => False
    | l :: ls => (∀ x ∈ l, x < k) ∧ (∀ x ∈ ls.flatten, k ≤ x) ∧ routed ks ls

/-- Invariant of every tree reachable through BPlusTree.insert: either a
single leaf root, or an internal root whose children are well-shaped,
chained, routed leaves.  Because _insert_in_parent never splits internal
nodes, reachable trees never grow beyond these two levels. -/
def treeInv {V : Type} (t : BPlusTree V) : Prop :=
  3 ≤ t.order ∧
  ∃ r, t.nodes[t.root]? = some r ∧
    ((r.is_leaf = true ∧ r.next_leaf = none ∧ leafShape t.order r) ∨
     (r.is_leaf = false ∧ r.order = t.order ∧ r.keys ≠ [] ∧
      List.Sorted (· < ·) r.keys ∧
      ∃ cs : List Nat,
        r.children_or_values = cs.map CV.child ∧
        cs.length = r.keys.length + 1 ∧
        t.root ∉ cs ∧ cs.Nodup ∧
        (∀ i ∈ cs, ∃ n, t.nodes[i]? = some n ∧ leafShape t.order n) ∧
        chainOK t cs ∧
        routed r.keys (cs.map (keysAt t))))

example :
    ((buildTree 3 ([(1, 1), (2, 2), (3, 3), (4, 4), (5, 5), (6, 6)] : List (Int × Int))).bind
      (fun t => (t.nodes[t.root]?).map (·.keys))) = some [2, 3, 4, 5] := by decide

example :
    ((buildTree 3 ([(4, 14), (1, 11), (6, 16), (2, 12)] : List (Int × Int))).map contents) =
      some [(1, 11), (2, 12), (4, 14), (6, 16)] := by decide

theorem pyInsert_length {α : Type} (l : List α) (i : Nat) (x : α) (h : i ≤ l.length) :
    (pyInsert l i x).length = l.length + 1 := by
  simp [pyInsert]
  omega

theorem pyInsert_map {α β : Type} (f : α → β) (l : List α) (i : Nat) (x : α) :
    (pyInsert l i x).map f = pyInsert (l.map f) i (f x) := by
  simp [pyInsert, List.map_take, List.map_drop]

theorem pyInsert_zero {α : Type} (l : List α) (x : α) : pyInsert l 0 x = x :: l := rfl

theorem pyInsert_succ_cons {α : Type} (a : α) (l : List α) (j : Nat) (x : α) :
    pyInsert (a :: l) (j + 1) x = a :: pyInsert l j x := by
  simp [pyInsert]

theorem zip_cons {α β : Type} (a : α) (b : β) (l₁ : List α) (l₂ : List β) :
    (a :: l₁).zip (b :: l₂) = (a, b) :: l₁.zip l₂ := rfl

theorem bisect_right_le_length (l : List Int) (x : Int) : bisect_right l x ≤ l.length := by
  induction l with
  | nil => simp [bisect_right]
  | cons y ys ih =>
    simp only [bisect_right, List.length_cons]
    split
    · omega
    · omega

theorem bisect_left_le_length (l : List Int) (x : Int) : bisect_left l x ≤ l.length := by
  induction l with
  | nil => simp [bisect_left]
  | cons y ys ih =>
    simp only [bisect_left, List.length_cons]
    split
    · omega
    · omega

theorem mem_take_bisect_right (l : List Int) (x : Int) :
    ∀ a ∈ l.take (bisect_right l x), a ≤ x := by
  induction l with
  | nil => simp
  | cons y ys ih =>
    simp only [bisect_right]
    split
    · simp
    · intro a ha
      rw [List.take_succ_cons] at ha
      rcases List.mem_cons.mp ha with h | h
      · omega
      · exact ih a h

theorem mem_drop_bisect_right (l : List Int) (x : Int) (hs : List.Sorted (· < ·) l) :
    ∀ a ∈ l.drop (bisect_right l x), x < a := by
  induction l with
  | nil => simp
  | cons y ys ih =>
    rcases List.sorted_cons.mp hs with ⟨hy, hs'⟩
    simp only [bisect_right]
    split
    · intro a ha
      rw [List.drop_zero] at ha
      rcases List.mem_cons.mp ha with h | h
      · omega
      · have := hy a h
        omega
    · intro a ha
      rw [List.drop_succ_cons] at ha
      exact ih hs' a ha

theorem mem_take_bisect_left (l : List Int) (x : Int) :
    ∀ a ∈ l.take (bisect_left l x), a < x := by
  induction l with
  | nil => simp
  | cons y ys ih =>
    simp only [bisect_left]
    split
    · simp
    · intro a ha
      rw [List.take_succ_cons] at ha
      rcases List.mem_cons.mp ha with h | h
      · omega
      · exact ih a h

theorem mem_drop_bisect_left (l : List Int) (x : Int) (hs : List.Sorted (· < ·) l) :
    ∀ a ∈ l.drop (bisect_left l x), x ≤ a := by
  induction l with
  | nil => simp
  | cons y ys ih =>
    rcases List.sorted_cons.mp hs with ⟨hy, hs'⟩
    simp only [bisect_left]
    split
    · intro a ha
      rw [List.drop_zero] at ha
      rcases List.mem_cons.mp ha with h | h
      · omega
      · have := hy a h
        omega
    · intro a ha
      rw [List.drop_succ_cons] at ha
      exact ih hs' a ha

theorem bisect_right_eq (l : List Int) (x : Int) (i : Nat) (hle : i ≤ l.length)
    (h1 : ∀ a ∈ l.take i, a ≤ x) (h2 : ∀ a ∈ l.drop i, x < a) :
    bisect_right l x = i := by
  induction l generalizing i with
  | nil => simp at hle; simp [bisect_right, hle]
  | cons y ys ih =>
    cases i with
    | zero =>
      have hy : x < y := h2 y (by simp)
      simp [bisect_right, hy]
    | succ j =>
      have hy : y ≤ x := h1 y (by simp)
      have : ¬ x < y := by omega
      simp only [bisect_right, this, if_false]
      have := ih j (by simpa using hle)
        (fun a ha => h1 a (by simpa [List.take_succ_cons] using Or.inr ha))
        (fun a ha => h2 a (by simpa [List.drop_succ_cons] using ha))
      omega

theorem pyIndex_eq_none {α : Type} [DecidableEq α] (l : List α) (x : α) :
    pyIndex l x = none ↔ x ∉ l := by
  induction l with
  | nil => simp [pyIndex]
  | cons y ys ih =>
    simp only [pyIndex]
    split
    · simp_all
    · rename_i hne
      rw [Option.map_eq_none', ih, List.mem_cons]
      constructor
      · intro h hc
        rcases hc with hc | hc
        · exact hne hc.symm
        · exact h hc
      · intro h hc
        exact h (Or.inr hc)

theorem pyIndex_some {α : Type} [DecidableEq α] {l : List α} {x : α} {i : Nat}
    (h : pyIndex l x = some i) : i < l.length ∧ l[i]? = some x := by
  induction l generalizing i with
  | nil => simp [pyIndex] at h
  | cons y ys ih =>
    simp only [pyIndex] at h
    split at h
    · rename_i he
      cases h
      simp [he]
    · rcases Option.map_eq_some'.mp h with ⟨j, hj, rfl⟩
      rcases ih hj with ⟨h1, h2⟩
      refine ⟨by simpa using h1, by simpa using h2⟩

theorem allVals_map_val {V : Type} (vs : List V) : allVals (vs.map CV.val) = some vs := by
  induction vs with
  | nil => rfl
  | cons v vs ih => simp [allVals, ih]

theorem sorted_pyInsert (l : List Int) (i : Nat) (x : Int)
    (hs : List.Sorted (· < ·) l)
    (h1 : ∀ a ∈ l.take i, a < x) (h2 : ∀ a ∈ l.drop i, x < a) :
    List.Sorted (· < ·) (pyInsert l i x) := by
  have hts : (l.take i).Sorted (· < ·) := hs.sublist (List.take_sublist i l)
  have hds : (l.drop i).Sorted (· < ·) := hs.sublist (List.drop_sublist i l)
  unfold pyInsert
  rw [List.Sorted, List.pairwise_append]
  refine ⟨hts, ?_, ?_⟩
  · rw [List.pairwise_cons]
    exact ⟨h2, hds⟩
  · intro a ha b hb
    rcases List.mem_cons.mp hb with rfl | hb
    · exact h1 a ha
    · have hax := h1 a ha
      have hxb := h2 b hb
      omega

theorem sorted_take_lt_drop (l : List Int) (hs : List.Sorted (· < ·) l) (i : Nat) :
    ∀ a ∈ l.take i, ∀ b ∈ l.drop i, a < b := by
  have h := hs
  rw [List.Sorted] at h
  conv at h => rw [← l.take_append_drop i]
  exact (List.pairwise_append.mp h).2.2

theorem sorted_head_le (l : List Int) (hs : List.Sorted (· < ·) l) (h : Int)
    (hh : l.head? = some h) : ∀ b ∈ l, h ≤ b := by
  cases l with
  | nil => simp at hh
  | cons y ys =>
    cases hh
    rcases List.sorted_cons.mp hs with ⟨hy, _⟩
    intro b hb
    rcases List.mem_cons.mp hb with rfl | hb
    · omega
    · have := hy b hb
      omega

theorem zip_map_snd {V : Type} (ks : List Int) (vs : List V) (h : ks.length = vs.length) :
    (ks.zip vs).map Prod.snd = vs :=
  List.map_snd_zip ks vs (le_of_eq h.symm)

theorem zip_map_fst {V : Type} (ks : List Int) (vs : List V) (h : ks.length = vs.length) :
    (ks.zip vs).map Prod.fst = ks :=
  List.map_fst_zip ks vs (le_of_eq h)

theorem zip_pyInsert {V : Type} (ks : List Int) (vs : List V) (i : Nat) (k : Int) (v : V)
    (hlen : ks.length = vs.length) :
    (pyInsert ks i k).zip (pyInsert vs i v) = pyInsert (ks.zip vs) i (k, v) := by
  induction ks generalizing vs i with
  | nil =>
    cases vs with
    | nil => simp [pyInsert]
    | cons b bs => simp at hlen
  | cons a as ih =>
    cases vs with
    | nil => simp at hlen
    | cons b bs =>
      cases i with
      | zero => rfl
      | succ j =>
        rw [pyInsert_succ_cons, pyInsert_succ_cons, zip_cons, zip_cons, pyInsert_succ_cons,
          ih bs j (by simpa using hlen)]

theorem zip_set_snd {V : Type} (ks : List Int) (vs : List V) (i : Nat) (v : V) (k : Int)
    (hk : ks[i]? = some k) :
    ks.zip (vs.set i v) = (ks.zip vs).set i (k, v) := by
  induction ks generalizing vs i with
  | nil => simp at hk
  | cons a as ih =>
    cases vs with
    | nil => simp
    | cons b bs =>
      cases i with
      | zero =>
        simp only [List.getElem?_cons_zero, Option.some_inj] at hk
        subst hk
        rfl
      | succ j =>
        rw [List.getElem?_cons_succ] at hk
        rw [List.set_cons_succ, zip_cons, zip_cons, List.set_cons_succ, ih bs j hk]

theorem assocUpsert_present {V : Type} (ks : List Int) (vs : List V) (k : Int) (v : V)
    (idx : Nat) (hs : List.Sorted (· < ·) ks) (hlen : ks.length = vs.length)
    (hidx : pyIndex ks k = some idx) :
    assocUpsert (ks.zip vs) k v = ks.zip (vs.set idx v) := by
  induction ks generalizing vs idx with
  | nil => simp [pyIndex] at hidx
  | cons a as ih =>
    cases vs with
    | nil => simp at hlen
    | cons b bs =>
      simp only [pyIndex] at hidx
      split at hidx
      · rename_i he
        cases hidx
        subst he
        rw [zip_cons, List.set_cons_zero, zip_cons]
        simp [assocUpsert]
      · rename_i hne
        rcases Option.map_eq_some'.mp hidx with ⟨j, hj, rfl⟩
        have hmem : k ∈ as := by
          rcases pyIndex_some hj with ⟨h1, h2⟩
          exact List.getElem?_mem h2
        have hak : a < k := (List.sorted_cons.mp hs).1 k hmem
        rw [zip_cons, List.set_cons_succ, zip_cons]
        simp only [assocUpsert]
        rw [if_neg (by omega), if_neg (by omega)]
        rw [ih bs j (List.sorted_cons.mp hs).2 (by simpa using hlen) hj]

theorem assocUpsert_absent {V : Type} (ks : List Int) (vs : List V) (k : Int) (v : V)
    (hs : List.Sorted (· < ·) ks) (hlen : ks.length = vs.length) (hk : k ∉ ks) :
    assocUpsert (ks.zip vs) k v =
      (pyInsert ks (bisect_left ks k) k).zip (pyInsert vs (bisect_left ks k) v) := by
  induction ks generalizing vs with
  | nil =>
    cases vs with
    | nil => simp [assocUpsert, pyInsert, bisect_left]
    | cons b bs => simp at hlen
  | cons a as ih =>
    cases vs with
    | nil => simp at hlen
    | cons b bs =>
      have hka : k ≠ a := by
        intro h
        exact hk (h ▸ List.mem_cons_self a as)
      rw [zip_cons]
      simp only [assocUpsert, bisect_left]
      by_cases hlt : k < a
      · rw [if_pos hlt, if_pos (by omega)]
        rfl
      · rw [if_neg hlt, if_neg hka, if_neg (by omega), pyInsert_succ_cons, pyInsert_succ_cons,
          zip_cons,
          ih bs (List.sorted_cons.mp hs).2 (by simpa using hlen)
            (fun h => hk (List.mem_cons_of_mem a h))]

theorem assocUpsert_append_right {V : Type} (P B : List (Int × V)) (k : Int) (v : V)
    (h : ∀ p ∈ P, p.1 < k) :
    assocUpsert (P ++ B) k v = P ++ assocUpsert B k v := by
  induction P with
  | nil => simp
  | cons p ps ih =>
    obtain ⟨a, b⟩ := p
    have ha : a < k := h (a, b) (List.mem_cons_self _ _)
    simp only [List.cons_append, assocUpsert]
    rw [if_neg (by omega), if_neg (by omega)]
    show (a, b) :: assocUpsert (ps ++ B) k v = (a, b) :: (ps ++ assocUpsert B k v)
    rw [ih (fun q hq => h q (List.mem_cons_of_mem _ hq))]

theorem assocUpsert_append_left {V : Type} (P S : List (Int × V)) (k : Int) (v : V)
    (h : ∀ p ∈ S, k < p.1) :
    assocUpsert (P ++ S) k v = assocUpsert P k v ++ S := by
  induction P with
  | nil =>
    cases S with
    | nil => simp [assocUpsert]
    | cons s ss =>
      obtain ⟨a, b⟩ := s
      have ha : k < a := h (a, b) (List.mem_cons_self _ _)
      simp only [List.nil_append, assocUpsert, if_pos ha]
      rfl
  | cons p ps ih =>
    obtain ⟨a, b⟩ := p
    simp only [List.cons_append, assocUpsert]
    by_cases h1 : k < a
    · rw [if_pos h1, if_pos h1]
      simp
    · rw [if_neg h1, if_neg h1]
      by_cases h2 : k = a
      · rw [if_pos h2, if_pos h2]
        simp
      · rw [if_neg h2, if_neg h2]
        show (a, b) :: assocUpsert (ps ++ S) k v = ((a, b) :: assocUpsert ps k v) ++ S
        rw [List.cons_append, ih]

theorem assocUpsert_perm {V : Type} (l : List (Int × V)) (k : Int) (v : V)
    (h : k ∉ l.map Prod.fst) :
    (assocUpsert l k v).Perm ((k, v) :: l) := by
  induction l with
  | nil => simp [assocUpsert]
  | cons p ps ih =>
    obtain ⟨a, b⟩ := p
    simp only [List.map_cons, List.mem_cons] at h
    push_neg at h
    obtain ⟨hka, h2⟩ := h
    simp only [assocUpsert]
    by_cases h1 : k < a
    · rw [if_pos h1]
    · rw [if_neg h1, if_neg hka]
      exact ((ih h2).cons (a, b)).trans (List.Perm.swap (k, v) (a, b) ps)

theorem mem_assocUpsert {V : Type} {l : List (Int × V)} {k : Int} {v : V} {p : Int × V}
    (h : p ∈ assocUpsert l k v) : p = (k, v) ∨ p ∈ l := by
  induction l with
  | nil => simpa [assocUpsert] using h
  | cons q qs ih =>
    obtain ⟨a, b⟩ := q
    simp only [assocUpsert] at h
    split at h
    · rcases List.mem_cons.mp h with h | h
      · exact Or.inl h
      · exact Or.inr h
    · split at h
      · rcases List.mem_cons.mp h with h | h
        · exact Or.inl h
        · exact Or.inr (List.mem_cons_of_mem _ h)
      · rcases List.mem_cons.mp h with h | h
        · exact Or.inr (h ▸ List.mem_cons_self _ _)
        · rcases ih h with h | h
          · exact Or.inl h
          · exact Or.inr (List.mem_cons_of_mem _ h)

theorem assocUpsert_sorted {V : Type} (l : List (Int × V)) (k : Int) (v : V)
    (h : List.Sorted (· < ·) (l.map Prod.fst)) :
    List.Sorted (· < ·) ((assocUpsert l k v).map Prod.fst) := by
  induction l with
  | nil => simp [assocUpsert]
  | cons p ps ih =>
    obtain ⟨a, b⟩ := p
    simp only [List.map_cons] at h
    rcases List.sorted_cons.mp h with ⟨ha, hs⟩
    simp only [assocUpsert]
    by_cases h1 : k < a
    · rw [if_pos h1]
      rw [List.map_cons, List.sorted_cons]
      constructor
      · intro x hx
        rw [List.map_cons, List.mem_cons] at hx
        rcases hx with rfl | hx
        · exact h1
        · have := ha x hx
          omega
      · rw [List.map_cons, List.sorted_cons]
        exact ⟨ha, hs⟩
    · rw [if_neg h1]
      by_cases h2 : k = a
      · rw [if_pos h2]
        subst h2
        simp only [List.map_cons, List.sorted_cons]
        exact ⟨ha, hs⟩
      · rw [if_neg h2]
        simp only [List.map_cons, List.sorted_cons]
        refine ⟨?_, ih hs⟩
        intro x hx
        rcases List.mem_map.mp hx with ⟨q, hq, rfl⟩
        rcases mem_assocUpsert hq with rfl | hq
        · omega
        · exact ha q.1 (List.mem_map_of_mem Prod.fst hq)

example :
    ((buildTree 3 ([(4, 40), (1, 10), (6, 60), (2, 20), (5, 50), (3, 30), (7, 70)] :
        List (Int × Int))).bind BPlusTree.get_all) = some [10, 20, 30, 40, 50, 60, 70] := by
  decide


theorem cvVals_map_val {V : Type} (vs : List V) : cvVals (vs.map CV.val) = vs := by
  induction vs with
  | nil => rfl
  | cons v vs ih => simp [cvVals] at ih ⊢; exact ih

theorem mem_getD_flatten {α : Type} (ls : List (List α)) (j : Nat) (x : α)
    (h : x ∈ ls.getD j []) : x ∈ ls.flatten := by
  by_cases hj : j < ls.length
  · rw [List.getD_eq_getElem ls [] hj] at h
    exact List.mem_flatten.mpr ⟨ls[j], List.getElem_mem hj, h⟩
  · rw [List.getD_eq_default] at h
    · simp at h
    · omega

theorem mem_set_flatten {α : Type} (ls : List (List α)) (j : Nat) (l' : List α) (x : α)
    (h : x ∈ (ls.set j l').flatten) : x ∈ ls.flatten ∨ x ∈ l' := by
  rcases List.mem_flatten.mp h with ⟨g, hg, hx⟩
  rcases List.mem_or_eq_of_mem_set hg with hg' | rfl
  · exact Or.inl (List.mem_flatten.mpr ⟨g, hg', hx⟩)
  · exact Or.inr hx

theorem mem_take_flatten {α : Type} (ls : List (List α)) (j : Nat) (x : α)
    (h : x ∈ (ls.take j).flatten) : x ∈ ls.flatten := by
  rcases List.mem_flatten.mp h with ⟨g, hg, hx⟩
  exact List.mem_flatten.mpr ⟨g, List.mem_of_mem_take hg, hx⟩

theorem mem_drop_flatten {α : Type} (ls : List (List α)) (j : Nat) (x : α)
    (h : x ∈ (ls.drop j).flatten) : x ∈ ls.flatten := by
  rcases List.mem_flatten.mp h with ⟨g, hg, hx⟩
  exact List.mem_flatten.mpr ⟨g, List.mem_of_mem_drop hg, hx⟩

theorem routed_length (ks : List Int) (lls : List (List Int)) (hr : routed ks lls) :
    lls.length = ks.length + 1 := by
  induction ks generalizing lls with
  | nil => simpa [routed] using hr
  | cons a as ih =>
    match lls, hr with
    | l :: ls, ⟨_, _, h3⟩ => simpa using ih ls h3

theorem routed_take_lt (ks : List Int) (lls : List (List Int)) (k : Int)
    (hr : routed ks lls) :
    ∀ x ∈ (lls.take (bisect_right ks k)).flatten, x < k := by
  induction ks generalizing lls with
  | nil => simp [bisect_right]
  | cons a as ih =>
    match lls, hr with
    | l :: ls, ⟨h1, h2, h3⟩ =>
      simp only [bisect_right]
      split
      · simp
      · rename_i hak
        intro x hx
        rw [List.take_succ_cons, List.flatten_cons] at hx
        rcases List.mem_append.mp hx with hx | hx
        · have := h1 x hx
          omega
        · exact ih ls h3 x hx

theorem routed_drop_gt (ks : List Int) (lls : List (List Int)) (k : Int)
    (hr : routed ks lls) :
    ∀ x ∈ (lls.drop (bisect_right ks k + 1)).flatten, k < x := by
  induction ks generalizing lls with
  | nil =>
    obtain ⟨l, rfl⟩ := List.length_eq_one.mp hr
    simp [bisect_right]
  | cons a as ih =>
    match lls, hr with
    | l :: ls, ⟨h1, h2, h3⟩ =>
      simp only [bisect_right]
      split
      · rename_i hka
        intro x hx
        rw [List.drop_succ_cons, List.drop_zero] at hx
        have := h2 x hx
        omega
      · intro x hx
        rw [List.drop_succ_cons] at hx
        exact ih ls h3 x hx

theorem routed_set (ks : List Int) (lls : List (List Int)) (k : Int) (l' : List Int)
    (hr : routed ks lls)
    (hsub : ∀ x ∈ l', x ∈ lls.getD (bisect_right ks k) [] ∨ x = k) :
    routed ks (lls.set (bisect_right ks k) l') := by
  induction ks generalizing lls with
  | nil =>
    obtain ⟨l, rfl⟩ := List.length_eq_one.mp hr
    simp [routed, bisect_right]
  | cons a as ih =>
    match lls, hr with
    | l :: ls, ⟨h1, h2, h3⟩ =>
      simp only [bisect_right] at hsub ⊢
      split
      · rename_i hka
        simp only [bisect_right, if_pos hka] at hsub
        rw [List.set_cons_zero]
        refine ⟨?_, h2, h3⟩
        intro x hx
        rcases hsub x hx with hx' | rfl
        · exact h1 x (by simpa using hx')
        · exact hka
      · rename_i hka
        simp only [bisect_right, if_neg hka] at hsub
        rw [List.set_cons_succ]
        refine ⟨h1, ?_, ih ls h3 (by simpa using hsub)⟩
        intro x hx
        rcases mem_set_flatten ls _ l' x hx with hx' | hx'
        · exact h2 x hx'
        · rcases hsub x hx' with hx'' | rfl
          · exact h2 x (mem_getD_flatten ls _ x (by simpa using hx''))
          · omega

theorem routed_take_le (ks : List Int) (lls : List (List Int)) (k x : Int)
    (hr : routed ks lls)
    (hx : x ∈ lls.getD (bisect_right ks k) [] ∨ x = k) :
    ∀ a ∈ ks.take (bisect_right ks k), a ≤ x := by
  induction ks generalizing lls with
  | nil => simp [bisect_right]
  | cons a as ih =>
    match lls, hr with
    | l :: ls, ⟨h1, h2, h3⟩ =>
      by_cases hka : k < a
      · simp [bisect_right, if_pos hka]
      · simp only [bisect_right, if_neg hka] at hx ⊢
        intro y hy
        rw [List.take_succ_cons] at hy
        rcases List.mem_cons.mp hy with rfl | hy
        · rcases hx with hx' | rfl
          · exact h2 x (mem_getD_flatten ls _ x (by simpa using hx'))
          · omega
        · exact ih ls h3 (by simpa using hx) y hy

theorem routed_drop_ge (ks : List Int) (lls : List (List Int)) (k x : Int)
    (hr : routed ks lls) (hsort : List.Sorted (· < ·) ks)
    (hx : x ∈ lls.getD (bisect_right ks k) [] ∨ x = k) :
    ∀ a ∈ ks.drop (bisect_right ks k), x < a := by
  induction ks generalizing lls with
  | nil => simp
  | cons a as ih =>
    match lls, hr with
    | l :: ls, ⟨h1, h2, h3⟩ =>
      rcases List.sorted_cons.mp hsort with ⟨ha, hs'⟩
      by_cases hka : k < a
      · simp only [bisect_right, if_pos hka] at hx ⊢
        intro y hy
        rw [List.drop_zero] at hy
        have hxa : x < a := by
          rcases hx with hx' | rfl
          · exact h1 x (by simpa using hx')
          · exact hka
        rcases List.mem_cons.mp hy with rfl | hy
        · exact hxa
        · have := ha y hy
          omega
      · simp only [bisect_right, if_neg hka] at hx ⊢
        intro y hy
        rw [List.drop_succ_cons] at hy
        exact ih ls h3 hs' (by simpa using hx) y hy

theorem routed_split (ks : List Int) (lls : List (List Int)) (k k' : Int)
    (l₁ l₂ : List Int) (hr : routed ks lls)
    (hsub : ∀ x ∈ l₁ ++ l₂, x ∈ lls.getD (bisect_right ks k) [] ∨ x = k)
    (h1 : ∀ x ∈ l₁, x < k') (h2 : ∀ x ∈ l₂, k' ≤ x) (hk' : k' ∈ l₂) :
    routed (pyInsert ks (bisect_right ks k) k')
      (lls.take (bisect_right ks k) ++ l₁ :: l₂ :: lls.drop (bisect_right ks k + 1)) := by
  induction ks generalizing lls with
  | nil =>
    obtain ⟨l, rfl⟩ := List.length_eq_one.mp hr
    simp only [bisect_right, pyInsert_zero, List.take_zero, List.drop_succ_cons,
      List.drop_zero, List.nil_append]
    refine ⟨h1, ?_, rfl⟩
    intro x hx
    simp only [List.flatten_cons, List.flatten_nil, List.append_nil] at hx
    exact h2 x hx
  | cons a as ih =>
    match lls, hr with
    | l :: ls, ⟨ha1, ha2, ha3⟩ =>
      by_cases hka : k < a
      · simp only [bisect_right, if_pos hka] at hsub ⊢
        simp only [pyInsert_zero, List.take_zero, List.drop_succ_cons, List.drop_zero,
          List.nil_append]
        have hsubl : ∀ x ∈ l₁ ++ l₂, x ∈ l ∨ x = k := by simpa using hsub
        refine ⟨h1, ?_, ?_, ha2, ha3⟩
        · intro x hx
          rw [List.flatten_cons] at hx
          have hk'a : k' < a := by
            rcases hsubl k' (List.mem_append.mpr (Or.inr hk')) with hm | rfl
            · exact ha1 k' hm
            · exact hka
          rcases List.mem_append.mp hx with hx | hx
          · exact h2 x hx
          · have := ha2 x hx
            omega
        · intro x hx
          rcases hsubl x (List.mem_append.mpr (Or.inr hx)) with hm | rfl
          · exact ha1 x hm
          · exact hka
      · simp only [bisect_right, if_neg hka] at hsub ⊢
        rw [pyInsert_succ_cons, List.take_succ_cons, List.drop_succ_cons, List.cons_append]
        refine ⟨ha1, ?_, ih ls ha3 (by simpa using hsub) ⟩
        intro x hx
        rw [List.flatten_append, List.flatten_cons, List.flatten_cons] at hx
        rcases List.mem_append.mp hx with hx | hx
        · exact ha2 x (mem_take_flatten ls _ x hx)
        · rcases List.mem_append.mp hx with hx | hx
          · rcases hsub x (List.mem_append.mpr (Or.inl hx)) with hm | rfl
            · exact ha2 x (mem_getD_flatten ls _ x (by simpa using hm))
            · omega
          · rcases List.mem_append.mp hx with hx | hx
            · rcases hsub x (List.mem_append.mpr (Or.inr hx)) with hm | rfl
              · exact ha2 x (mem_getD_flatten ls _ x (by simpa using hm))
              · omega
            · exact ha2 x (mem_drop_flatten ls _ x hx)

theorem routed_flatten_sorted (ks : List Int) (lls : List (List Int))
    (hr : routed ks lls) (hl : ∀ l ∈ lls, List.Sorted (· < ·) l) :
    List.Sorted (· < ·) lls.flatten := by
  induction ks generalizing lls with
  | nil =>
    obtain ⟨l, rfl⟩ := List.length_eq_one.mp hr
    simpa using hl l (by simp)
  | cons a as ih =>
    match lls, hr with
    | l :: ls, ⟨h1, h2, h3⟩ =>
      rw [List.flatten_cons, List.Sorted, List.pairwise_append]
      refine ⟨hl l (by simp), ih ls h3 (fun g hg => hl g (List.mem_cons_of_mem _ hg)), ?_⟩
      intro x hx y hy
      have hxa := h1 x hx
      have hay := h2 y hy
      omega

theorem nodup_length_le (cs : List Nat) (L : Nat) (hnd : cs.Nodup)
    (hlt : ∀ i ∈ cs, i < L) : cs.length ≤ L := by
  have hsub : cs ⊆ List.range L := fun i hi => List.mem_range.mpr (hlt i hi)
  have := (List.subperm_of_subset hnd hsub).length_le
  simpa using this

theorem zip_take {α β : Type} (l₁ : List α) (l₂ : List β) (n : Nat) :
    (l₁.zip l₂).take n = (l₁.take n).zip (l₂.take n) := by
  induction l₁ generalizing l₂ n with
  | nil => simp
  | cons a as ih =>
    cases l₂ with
    | nil => simp
    | cons b bs =>
      cases n with
      | zero => simp
      | succ m =>
        rw [zip_cons, List.take_succ_cons, List.take_succ_cons, List.take_succ_cons,
          zip_cons, ih]

theorem zip_drop {α β : Type} (l₁ : List α) (l₂ : List β) (n : Nat) :
    (l₁.zip l₂).drop n = (l₁.drop n).zip (l₂.drop n) := by
  induction l₁ generalizing l₂ n with
  | nil => simp
  | cons a as ih =>
    cases l₂ with
    | nil => simp
    | cons b bs =>
      cases n with
      | zero => simp
      | succ m =>
        rw [zip_cons, List.drop_succ_cons, List.drop_succ_cons, List.drop_succ_cons, ih]

theorem getElem?_some_lt {α : Type} {l : List α} {i : Nat} {x : α} (h : l[i]? = some x) :
    i < l.length :=
  (List.getElem?_eq_some.mp h).1

theorem findLeafP_root_leaf {V : Type} (t : BPlusTree V) (key : Int) (r : BPlusTreeNode V)
    (hr : t.nodes[t.root]? = some r) (hleaf : r.is_leaf = true) (fuel : Nat) (p : Option Nat) :
    findLeafP t key (fuel + 1) p t.root = some (p, t.root) := by
  simp [findLeafP, hr, hleaf]

theorem findLeafP_two_level {V : Type} (t : BPlusTree V) (key : Int) (r n : BPlusTreeNode V)
    (cs : List Nat) (li : Nat)
    (hr : t.nodes[t.root]? = some r) (hleaf : r.is_leaf = false)
    (hcv : r.children_or_values = cs.map CV.child)
    (hli : cs[bisect_right r.keys key]? = some li)
    (hn : t.nodes[li]? = some n) (hnl : n.is_leaf = true) (fuel : Nat) (p : Option Nat) :
    findLeafP t key (fuel + 2) p t.root = some (some t.root, li) := by
  have hmap : r.children_or_values[bisect_right r.keys key]? = some (CV.child li) := by
    rw [hcv, List.getElem?_map, hli]
    rfl
  show findLeafP t key (fuel + 1 + 1) p t.root = some (some t.root, li)
  simp only [findLeafP, hr, hleaf]
  rw [hmap]
  simp [findLeafP, hn, hnl]

theorem contents_root_leaf {V : Type} (t : BPlusTree V) (r : BPlusTreeNode V) (vs : List V)
    (hr : t.nodes[t.root]? = some r) (hleaf : r.is_leaf = true)
    (hcv : r.children_or_values = vs.map CV.val) :
    contents t = r.keys.zip vs := by
  unfold contents
  rw [hr]
  simp [hleaf, leafPairs, hcv, cvVals_map_val]

theorem contents_internal_root {V : Type} (t : BPlusTree V) (r : BPlusTreeNode V)
    (cs : List Nat) (hr : t.nodes[t.root]? = some r) (hleaf : r.is_leaf = false)
    (hcv : r.children_or_values = cs.map CV.child) :
    contents t = (cs.map (pairsAt t)).flatten := by
  unfold contents
  rw [hr]
  simp only [hleaf, Bool.false_eq_true, if_false]
  rw [hcv, List.map_map]
  rfl

/-- The left half kept by the split leaf in _split_leaf. -/
def splitLeafNodeL {V : Type} (leaf : BPlusTreeNode V) (mid ni : Nat) : BPlusTreeNode V :=
  { leaf with keys := leaf.keys.take mid,
              children_or_values := leaf.children_or_values.take mid,
              next_leaf := some ni }

/-- The new right leaf allocated by _split_leaf. -/
def splitLeafNodeR {V : Type} (d : Nat) (leaf : BPlusTreeNode V) (mid : Nat) :
    BPlusTreeNode V :=
  ⟨d, true, leaf.keys.drop mid, leaf.children_or_values.drop mid, leaf.next_leaf⟩

/-- The new internal root allocated by _insert_in_parent when no parent exists. -/
def rootNode (V : Type) (d : Nat) (k' : Int) (lc rc : Nat) : BPlusTreeNode V :=
  ⟨d, false, [k'], [CV.child lc, CV.child rc], none⟩

theorem split_leaf_root_eq {V : Type} (t2 : BPlusTree V) (li : Nat) (leaf : BPlusTreeNode V)
    (k' : Int) (hlook : t2.nodes[li]? = some leaf)
    (hhead : (leaf.keys.drop (t2.order / 2)).head? = some k') :
    _split_leaf t2 li none = some
      { t2 with
        nodes := (t2.nodes.set li (splitLeafNodeL leaf (t2.order / 2) t2.nodes.length) ++
            [splitLeafNodeR t2.order leaf (t2.order / 2)]) ++
          [rootNode V t2.order k' li t2.nodes.length],
        root := t2.nodes.length + 1 } := by
  simp only [_split_leaf, hlook, hhead, _insert_in_parent, splitLeafNodeL, splitLeafNodeR,
    rootNode]
  simp [List.length_set]

theorem insert_single_leaf {V : Type} (t : BPlusTree V) (k : Int) (v : V)
    (hd : 3 ≤ t.order) (r : BPlusTreeNode V)
    (hr : t.nodes[t.root]? = some r) (hleaf : r.is_leaf = true) (hnext : r.next_leaf = none)
    (hshape : leafShape t.order r) :
    ∃ t', t.insert k v = some t' ∧ treeInv t' ∧
      contents t' = assocUpsert (contents t) k v ∧ t'.order = t.order := by
  obtain ⟨_, hord, hsort, hlen, vs, hcv, hvslen⟩ := hshape
  have hrlt : t.root < t.nodes.length := getElem?_some_lt hr
  have hfind : findLeafP t k (t.nodes.length + 1) none t.root = some (none, t.root) :=
    findLeafP_root_leaf t k r hr hleaf _ _
  have hcont : contents t = r.keys.zip vs := contents_root_leaf t r vs hr hleaf hcv
  have hcvlen : r.children_or_values.length = r.keys.length := by
    rw [hcv, List.length_map, hvslen]
  cases hpy : pyIndex r.keys k with
  | some idx =>
    rcases pyIndex_some hpy with ⟨hidxlt, hidxget⟩
    have hset : pySet r.children_or_values idx (CV.val v) =
        some (r.children_or_values.set idx (CV.val v)) := by
      unfold pySet
      rw [if_pos (by omega)]
    set r2 : BPlusTreeNode V :=
      { r with children_or_values := r.children_or_values.set idx (CV.val v) } with hr2
    set t2 : BPlusTree V := { t with nodes := t.nodes.set t.root r2 } with ht2
    have hn2 : t2.nodes[t2.root]? = some r2 := by
      show (t.nodes.set t.root r2)[t.root]? = some r2
      simp [List.getElem?_set, hrlt]
    refine ⟨t2, ?_, ?_, ?_, rfl⟩
    · simp only [BPlusTree.insert, hfind, hr, hpy, hset, ht2, hr2]
    · refine ⟨hd, r2, hn2, Or.inl ⟨hleaf, hnext, hleaf, hord, hsort, hlen,
        vs.set idx v, ?_, by simp [hvslen]⟩⟩
      show r.children_or_values.set idx (CV.val v) = _
      rw [hcv, List.set_map]
    · rw [hcont]
      have h1 : contents t2 = r.keys.zip (vs.set idx v) := by
        apply contents_root_leaf t2 r2 (vs.set idx v) hn2 hleaf
        show r.children_or_values.set idx (CV.val v) = _
        rw [hcv, List.set_map]
      rw [h1, assocUpsert_present r.keys vs k v idx hsort (by omega) hpy,
        zip_set_snd r.keys vs idx v k hidxget]
  | none =>
    have hknotmem : k ∉ r.keys := (pyIndex_eq_none _ _).mp hpy
    have hidxle : bisect_left r.keys k ≤ r.keys.length := bisect_left_le_length _ _
    have hcvpy : pyInsert r.children_or_values (bisect_left r.keys k) (CV.val v) =
        (pyInsert vs (bisect_left r.keys k) v).map CV.val := by
      rw [hcv, ← pyInsert_map]
    have hks'len : (pyInsert r.keys (bisect_left r.keys k) k).length = r.keys.length + 1 :=
      pyInsert_length _ _ _ hidxle
    have hvs'len : (pyInsert vs (bisect_left r.keys k) v).length = vs.length + 1 :=
      pyInsert_length _ _ _ (by omega)
    have hks'sorted : List.Sorted (· < ·) (pyInsert r.keys (bisect_left r.keys k) k) := by
      apply sorted_pyInsert _ _ _ hsort (mem_take_bisect_left _ _)
      intro a ha
      have h1 := mem_drop_bisect_left r.keys k hsort a ha
      have h2 : a ∈ r.keys := List.mem_of_mem_drop ha
      have h3 : a ≠ k := fun he => hknotmem (he ▸ h2)
      omega
    have hZ : assocUpsert (r.keys.zip vs) k v =
        (pyInsert r.keys (bisect_left r.keys k) k).zip
          (pyInsert vs (bisect_left r.keys k) v) :=
      assocUpsert_absent r.keys vs k v hsort (by omega) hknotmem
    by_cases hfull : r.keys.length + 1 = t.order
    · -- the leaf fills: it splits and a new internal root is created
      have hmidlt : t.order / 2 < (pyInsert r.keys (bisect_left r.keys k) k).length := by
        rw [hks'len]
        omega
      have hmidpos : 1 ≤ t.order / 2 := by omega
      have hk'get : (pyInsert r.keys (bisect_left r.keys k) k)[t.order / 2]? =
          some ((pyInsert r.keys (bisect_left r.keys k) k).get ⟨t.order / 2, hmidlt⟩) :=
        List.getElem?_eq_getElem hmidlt
      set ks' := pyInsert r.keys (bisect_left r.keys k) k with hks'
      set vs' := pyInsert vs (bisect_left r.keys k) v with hvs'
      set k' := ks'.get ⟨t.order / 2, hmidlt⟩ with hk'
      set node' : BPlusTreeNode V :=
        { r with keys := ks',
                 children_or_values := pyInsert r.children_or_values
                   (bisect_left r.keys k) (CV.val v) } with hnode'
      set L := t.nodes.length with hL
      set leafL : BPlusTreeNode V :=
        { node' with keys := ks'.take (t.order / 2),
                     children_or_values := node'.children_or_values.take (t.order / 2),
                     next_leaf := some L } with hleafL
      set new_leaf : BPlusTreeNode V :=
        ⟨t.order, true, ks'.drop (t.order / 2),
          node'.children_or_values.drop (t.order / 2), node'.next_leaf⟩ with hnew
      set newRoot : BPlusTreeNode V :=
        ⟨t.order, false, [k'], [CV.child t.root, CV.child L], none⟩ with hnewRoot
      set t3 : BPlusTree V :=
        { t with nodes := (t.nodes.set t.root leafL ++ [new_leaf]) ++ [newRoot],
                 root := L + 1 } with ht3
      have hk'mem : k' ∈ ks'.drop (t.order / 2) := by
        have h0 : (ks'.drop (t.order / 2))[0]? = some k' := by
          rw [List.getElem?_drop]
          simpa using hk'get
        exact List.getElem?_mem h0
      have hk'head : (ks'.drop (t.order / 2)).head? = some k' := by
        rw [List.head?_drop]
        exact hk'get
      have hlook : (t.nodes.set t.root node')[t.root]? = some node' := by
        simp [List.getElem?_set, hrlt]
      have hsl : _split_leaf { t with nodes := t.nodes.set t.root node' } t.root none =
          some t3 := by
        rw [split_leaf_root_eq { t with nodes := t.nodes.set t.root node' } t.root node' k'
          hlook hk'head, ht3, hleafL, hnew, hnewRoot]
        simp [List.set_set, List.length_set, splitLeafNodeL, splitLeafNodeR, rootNode]
      have hins : t.insert k v = some t3 := by
        simp only [BPlusTree.insert, hfind, hr, hpy]
        rw [if_pos (by rw [hks'len, hord]; omega)]
        exact hsl
      have hvs'lenfull : vs'.length = t.order := by
        rw [hvs'len, hvslen]
        omega
      have hks'lenfull : ks'.length = t.order := by
        rw [hks'len]
        omega
      have hcvtake : cvVals (node'.children_or_values.take (t.order / 2)) =
          vs'.take (t.order / 2) := by
        show cvVals ((pyInsert r.children_or_values (bisect_left r.keys k) (CV.val v)).take _) =
          _
        rw [hcvpy, ← List.map_take, cvVals_map_val]
      have hcvdrop : cvVals (node'.children_or_values.drop (t.order / 2)) =
          vs'.drop (t.order / 2) := by
        show cvVals ((pyInsert r.children_or_values (bisect_left r.keys k) (CV.val v)).drop _) =
          _
        rw [hcvpy, ← List.map_drop, cvVals_map_val]
      have hn3root : t3.nodes[t.root]? = some leafL := by
        show ((t.nodes.set t.root leafL ++ [new_leaf]) ++ [newRoot])[t.root]? = some leafL
        rw [List.getElem?_append, if_pos (by simp [List.length_set]; omega),
          List.getElem?_append, if_pos (by simp [List.length_set]; omega)]
        simp [List.getElem?_set, hrlt]
      have hn3L : t3.nodes[L]? = some new_leaf := by
        show ((t.nodes.set t.root leafL ++ [new_leaf]) ++ [newRoot])[L]? = some new_leaf
        rw [List.getElem?_append, if_pos (by simp [List.length_set])]
        have hLe : L = (t.nodes.set t.root leafL).length := by simp [List.length_set]
        rw [hLe, List.getElem?_concat_length]
      have hn3top : t3.nodes[L + 1]? = some newRoot := by
        show ((t.nodes.set t.root leafL ++ [new_leaf]) ++ [newRoot])[L + 1]? = some newRoot
        have : L + 1 = (t.nodes.set t.root leafL ++ [new_leaf]).length := by
          simp [List.length_set]
        rw [this, List.getElem?_concat_length]
      refine ⟨t3, hins, ?_, ?_, rfl⟩
      · refine ⟨hd, newRoot, hn3top, Or.inr ⟨rfl, rfl, by rw [hnewRoot]; simp,
          by rw [hnewRoot]; simp, [t.root, L],
          by rw [hnewRoot, List.map_cons, List.map_cons, List.map_nil],
          by rw [hnewRoot]; simp, ?_, ?_, ?_, ?_, ?_⟩⟩
        · simp
          omega
        · simp
          omega
        · intro i hi
          rcases List.mem_cons.mp hi with rfl | hi
          · refine ⟨leafL, hn3root, hleaf, hord, hks'sorted.sublist (List.take_sublist _ _),
              ?_, vs'.take (t.order / 2), ?_, ?_⟩
            · show (ks'.take (t.order / 2)).length < t.order
              rw [List.length_take, hks'lenfull]
              omega
            · show (pyInsert r.children_or_values (bisect_left r.keys k) (CV.val v)).take _ = _
              rw [hcvpy, List.map_take]
            · simp [List.length_take, hks'lenfull, hvs'lenfull]
          · rcases List.mem_singleton.mp hi with rfl
            refine ⟨new_leaf, hn3L, rfl, rfl, hks'sorted.sublist (List.drop_sublist _ _),
              ?_, vs'.drop (t.order / 2), ?_, ?_⟩
            · show (ks'.drop (t.order / 2)).length < t.order
              rw [List.length_drop, hks'lenfull]
              omega
            · show (pyInsert r.children_or_values (bisect_left r.keys k) (CV.val v)).drop _ = _
              rw [hcvpy, List.map_drop]
            · simp [List.length_drop, hks'lenfull, hvs'lenfull]
        · constructor
          · refine List.chain'_cons.mpr ⟨?_, List.chain'_singleton _⟩
            unfold nextAt
            rw [hn3root]
          · show nextAt t3 L = none
            unfold nextAt
            rw [hn3L]
            show node'.next_leaf = none
            exact hnext
        · show routed [k'] [keysAt t3 t.root, keysAt t3 L]
          have h1 : keysAt t3 t.root = ks'.take (t.order / 2) := by
            unfold keysAt
            rw [hn3root]
          have h2 : keysAt t3 L = ks'.drop (t.order / 2) := by
            unfold keysAt
            rw [hn3L]
          rw [h1, h2]
          refine ⟨?_, ?_, rfl⟩
          · intro x hx
            exact sorted_take_lt_drop ks' hks'sorted (t.order / 2) x hx k' hk'mem
          · intro x hx
            simp only [List.flatten_cons, List.flatten_nil, List.append_nil] at hx
            exact sorted_head_le _ (hks'sorted.sublist (List.drop_sublist _ _)) k' hk'head x hx
      · have hc3 : contents t3 = leafPairs leafL ++ leafPairs new_leaf := by
          rw [contents_internal_root t3 newRoot [t.root, L]
            (show t3.nodes[t3.root]? = some newRoot from hn3top)
            (by rw [hnewRoot]) (by rw [hnewRoot]; simp)]
          simp only [List.map_cons, List.map_nil, List.flatten_cons, List.flatten_nil,
            List.append_nil]
          unfold pairsAt
          rw [hn3root, hn3L]
        rw [hc3, hcont, hZ]
        show (ks'.take (t.order / 2)).zip (cvVals leafL.children_or_values) ++
          (ks'.drop (t.order / 2)).zip (cvVals new_leaf.children_or_values) = ks'.zip vs'
        rw [show cvVals leafL.children_or_values = vs'.take (t.order / 2) from hcvtake,
          show cvVals new_leaf.children_or_values = vs'.drop (t.order / 2) from hcvdrop,
          ← zip_take, ← zip_drop, List.take_append_drop]
    · set r2 : BPlusTreeNode V :=
        { r with keys := pyInsert r.keys (bisect_left r.keys k) k,
                 children_or_values :=
                   pyInsert r.children_or_values (bisect_left r.keys k) (CV.val v) } with hr2
      set t2 : BPlusTree V := { t with nodes := t.nodes.set t.root r2 } with ht2
      have hn2 : t2.nodes[t2.root]? = some r2 := by
        show (t.nodes.set t.root r2)[t.root]? = some r2
        simp [List.getElem?_set, hrlt]
      refine ⟨t2, ?_, ?_, ?_, rfl⟩
      · simp only [BPlusTree.insert, hfind, hr, hpy]
        rw [if_neg (by rw [hks'len, hord]; omega)]
      · refine ⟨hd, r2, hn2, Or.inl ⟨hleaf, hnext, hleaf, hord, hks'sorted, ?_,
          pyInsert vs (bisect_left r.keys k) v, hcvpy, ?_⟩⟩
        · show (pyInsert r.keys (bisect_left r.keys k) k).length < t.order
          rw [hks'len]
          omega
        · show (pyInsert vs (bisect_left r.keys k) v).length =
            (pyInsert r.keys (bisect_left r.keys k) k).length
          rw [hvs'len, hks'len, hvslen]
      · have h1 : contents t2 =
            (pyInsert r.keys (bisect_left r.keys k) k).zip
              (pyInsert vs (bisect_left r.keys k) v) :=
          contents_root_leaf t2 r2 _ hn2 hleaf hcvpy
        rw [h1, hcont, hZ]

theorem mem_pyInsert {α : Type} {l : List α} {i : Nat} {x y : α}
    (h : y ∈ pyInsert l i x) : y ∈ l ∨ y = x := by
  unfold pyInsert at h
  rcases List.mem_append.mp h with h | h
  · exact Or.inl (List.mem_of_mem_take h)
  · rcases List.mem_cons.mp h with rfl | h
    · exact Or.inr rfl
    · exact Or.inl (List.mem_of_mem_drop h)

theorem pyInsert_perm {α : Type} (l : List α) (i : Nat) (x : α) :
    (pyInsert l i x).Perm (x :: l) := by
  have h := @List.perm_middle α x (l.take i) (l.drop i)
  rw [List.take_append_drop] at h
  exact h

theorem pyInsert_decomp {α : Type} (l₁ l₂ : List α) (x : α) :
    pyInsert (l₁ ++ l₂) l₁.length x = l₁ ++ x :: l₂ := by
  unfold pyInsert
  rw [List.take_left, List.drop_left]

theorem set_append_cons {α : Type} (l₁ : List α) (a : α) (l₂ : List α) (b : α) :
    (l₁ ++ a :: l₂).set l₁.length b = l₁ ++ b :: l₂ := by
  induction l₁ with
  | nil => simp
  | cons c rest ih => simp [List.set_cons_succ, ih]

theorem chain'_next_congr {V : Type} (t t' : BPlusTree V) (cs : List Nat)
    (h : ∀ a ∈ cs, nextAt t' a = nextAt t a)
    (hc : List.Chain' (fun a b => nextAt t a = some b) cs) :
    List.Chain' (fun a b => nextAt t' a = some b) cs := by
  induction cs with
  | nil => simp
  | cons c cs ih =>
    cases cs with
    | nil => simp
    | cons c2 cs2 =>
      rw [List.chain'_cons] at hc ⊢
      refine ⟨?_, ih (fun a ha => h a (List.mem_cons_of_mem _ ha)) hc.2⟩
      rw [h c (List.mem_cons_self _ _)]
      exact hc.1

theorem chainOK_congr {V : Type} (t t' : BPlusTree V) (cs : List Nat)
    (h : ∀ a ∈ cs, nextAt t' a = nextAt t a) (hc : chainOK t cs) : chainOK t' cs := by
  obtain ⟨h1, h2⟩ := hc
  refine ⟨chain'_next_congr t t' cs h h1, ?_⟩
  cases hl : cs.getLast? with
  | none => trivial
  | some a =>
    rw [hl] at h2
    show nextAt t' a = none
    rw [h a (List.mem_of_mem_getLast? hl)]
    exact h2

theorem pairsAt_fst_mem {V : Type} (t : BPlusTree V) (c : Nat) (p : Int × V)
    (hp : p ∈ pairsAt t c) : p.1 ∈ keysAt t c := by
  unfold pairsAt keysAt at *
  cases h : t.nodes[c]? with
  | none =>
    rw [h] at hp
    simp at hp
  | some n =>
    rw [h] at hp
    obtain ⟨a, b⟩ := p
    unfold leafPairs at hp
    exact (List.mem_zip hp).1

theorem prefix_pairs_lt {V : Type} (t : BPlusTree V) (ks : List Int) (cs : List Nat)
    (k : Int) (hrouted : routed ks (cs.map (keysAt t))) :
    ∀ p ∈ ((cs.take (bisect_right ks k)).map (pairsAt t)).flatten, p.1 < k := by
  intro p hp
  rcases List.mem_flatten.mp hp with ⟨g, hg, hpg⟩
  rcases List.mem_map.mp hg with ⟨c, hc, rfl⟩
  have h1 : p.1 ∈ keysAt t c := pairsAt_fst_mem t c p hpg
  apply routed_take_lt ks (cs.map (keysAt t)) k hrouted
  rw [← List.map_take]
  exact List.mem_flatten.mpr ⟨keysAt t c, List.mem_map_of_mem _ hc, h1⟩

theorem suffix_pairs_gt {V : Type} (t : BPlusTree V) (ks : List Int) (cs : List Nat)
    (k : Int) (hrouted : routed ks (cs.map (keysAt t))) :
    ∀ p ∈ ((cs.drop (bisect_right ks k + 1)).map (pairsAt t)).flatten, k < p.1 := by
  intro p hp
  rcases List.mem_flatten.mp hp with ⟨g, hg, hpg⟩
  rcases List.mem_map.mp hg with ⟨c, hc, rfl⟩
  have h1 : p.1 ∈ keysAt t c := pairsAt_fst_mem t c p hpg
  apply routed_drop_gt ks (cs.map (keysAt t)) k hrouted
  rw [← List.map_drop]
  exact List.mem_flatten.mpr ⟨keysAt t c, List.mem_map_of_mem _ hc, h1⟩

theorem flatten_map_decomp {α β : Type} (f : α → List β) (T : List α) (c : α) (D : List α) :
    ((T ++ c :: D).map f).flatten = (T.map f).flatten ++ (f c ++ (D.map f).flatten) := by
  rw [List.map_append, List.flatten_append, List.map_cons, List.flatten_cons]

/-- Bundled view of a two-level tree: an internal root over a row of leaves.
These are exactly the internal-root conditions of treeInv. -/
structure TwoView {V : Type} (t : BPlusTree V) (r : BPlusTreeNode V) (cs : List Nat) : Prop
    where
  root_eq : t.nodes[t.root]? = some r
  not_leaf : r.is_leaf = false
  ord : r.order = t.order
  keys_ne : r.keys ≠ []
  sorted : List.Sorted (· < ·) r.keys
  cv_eq : r.children_or_values = cs.map CV.child
  len_eq : cs.length = r.keys.length + 1
  root_notmem : t.root ∉ cs
  nodup : cs.Nodup
  leaves : ∀ i ∈ cs, ∃ n, t.nodes[i]? = some n ∧ leafShape t.order n
  chain : chainOK t cs
  route : routed r.keys (cs.map (keysAt t))

theorem treeInv_two {V : Type} {t : BPlusTree V} {r : BPlusTreeNode V} {cs : List Nat}
    (hd : 3 ≤ t.order) (hv : TwoView t r cs) : treeInv t :=
  ⟨hd, r, hv.root_eq, Or.inr ⟨hv.not_leaf, hv.ord, hv.keys_ne, hv.sorted, cs, hv.cv_eq,
    hv.len_eq, hv.root_notmem, hv.nodup, hv.leaves, hv.chain, hv.route⟩⟩

/-- The updated parent produced by _insert_in_parent when a parent exists. -/
def insertInParentNode {V : Type} (p : BPlusTreeNode V) (k' : Int) (rc : Nat) :
    BPlusTreeNode V :=
  { p with keys := pyInsert p.keys (bisect_right p.keys k') k',
           children_or_values :=
             pyInsert p.children_or_values (bisect_right p.keys k' + 1) (CV.child rc) }

theorem split_leaf_parent_eq {V : Type} (t2 : BPlusTree V) (li pi : Nat)
    (leaf p : BPlusTreeNode V) (k' : Int)
    (hlook : t2.nodes[li]? = some leaf)
    (hhead : (leaf.keys.drop (t2.order / 2)).head? = some k')
    (hplook : (t2.nodes.set li (splitLeafNodeL leaf (t2.order / 2) t2.nodes.length) ++
        [splitLeafNodeR t2.order leaf (t2.order / 2)])[pi]? = some p) :
    _split_leaf t2 li (some pi) = some
      { t2 with
        nodes := (t2.nodes.set li (splitLeafNodeL leaf (t2.order / 2) t2.nodes.length) ++
            [splitLeafNodeR t2.order leaf (t2.order / 2)]).set pi
          (insertInParentNode p k' t2.nodes.length) } := by
  have hplook2 := hplook
  simp only [splitLeafNodeL, splitLeafNodeR] at hplook2
  simp only [_split_leaf, hlook, hhead, _insert_in_parent, hplook2, insertInParentNode,
    splitLeafNodeL, splitLeafNodeR]

theorem chainOK_split {V : Type} (t t4 : BPlusTree V) (T D : List Nat) (li L : Nat)
    (hold : chainOK t (T ++ li :: D))
    (hTD : ∀ c, c ∈ T ∨ c ∈ D → nextAt t4 c = nextAt t c)
    (hli2 : nextAt t4 li = some L)
    (hL2 : nextAt t4 L = nextAt t li) :
    chainOK t4 (T ++ li :: L :: D) := by
  obtain ⟨h1, h2⟩ := hold
  constructor
  · rw [List.chain'_append] at h1 ⊢
    obtain ⟨hT, hliD, hcross⟩ := h1
    refine ⟨chain'_next_congr t t4 T (fun a ha => hTD a (Or.inl ha)) hT, ?_, ?_⟩
    · rw [List.chain'_cons]
      refine ⟨hli2, ?_⟩
      cases D with
      | nil => simp
      | cons d0 D' =>
        rw [List.chain'_cons] at hliD ⊢
        refine ⟨?_, chain'_next_congr t t4 _
          (fun a ha => hTD a (Or.inr ha)) hliD.2⟩
        rw [hL2]
        exact hliD.1
    · intro x hx y hy
      rw [List.head?_cons, Option.mem_def, Option.some_inj] at hy
      subst hy
      have := hcross x hx li (by simp)
      rw [hTD x (Or.inl (List.mem_of_mem_getLast? hx))]
      exact this
  · cases D with
    | nil =>
      have hlast : (T ++ [li, L]).getLast? = some L := by
        rw [List.getLast?_append]
        rfl
      rw [show (T ++ [li] : List Nat).getLast? = some li from List.getLast?_concat T] at h2
      rw [hlast]
      show nextAt t4 L = none
      rw [hL2]
      exact h2
    | cons d0 D' =>
      have hne : (d0 :: D' : List Nat) ≠ [] := by simp
      have e1 : (T ++ li :: L :: d0 :: D').getLast? = (d0 :: D').getLast? := by
        rw [show T ++ li :: L :: d0 :: D' = (T ++ [li, L]) ++ d0 :: D' by simp,
          List.getLast?_append_of_ne_nil _ hne]
      have e2 : (T ++ li :: d0 :: D').getLast? = (d0 :: D').getLast? := by
        rw [show T ++ li :: d0 :: D' = (T ++ [li]) ++ d0 :: D' by simp,
          List.getLast?_append_of_ne_nil _ hne]
      rw [e2] at h2
      rw [e1]
      cases hg : (d0 :: D').getLast? with
      | none => trivial
      | some a =>
        rw [hg] at h2
        show nextAt t4 a = none
        rw [hTD a (Or.inr (List.mem_of_mem_getLast? hg))]
        exact h2

theorem insert_two_level {V : Type} (t : BPlusTree V) (k : Int) (v : V)
    (hd : 3 ≤ t.order) (r : BPlusTreeNode V) (cs : List Nat) (hv : TwoView t r cs) :
    ∃ t', t.insert k v = some t' ∧ treeInv t' ∧
      contents t' = assocUpsert (contents t) k v ∧ t'.order = t.order := by
  obtain ⟨hr, hleaf, hord, hkne, hsort, hcv, hcslen, hroot, hnd, hmem, hchain, hrouted⟩ := hv
  have hrlt : t.root < t.nodes.length := getElem?_some_lt hr
  have hile : bisect_right r.keys k ≤ r.keys.length := bisect_right_le_length r.keys k
  have hblt : bisect_right r.keys k < cs.length := by omega
  have hli : cs[bisect_right r.keys k]? = some (cs.get ⟨bisect_right r.keys k, hblt⟩) :=
    List.getElem?_eq_getElem hblt
  set i := bisect_right r.keys k with hi
  set li := cs.get ⟨i, hblt⟩ with hlidef
  have hlimem : li ∈ cs := List.getElem_mem hblt
  obtain ⟨n, hn, hnleaf, hnord, hnsort, hnlen, vs, hncv, hnvslen⟩ := hmem li hlimem
  have hlin : li < t.nodes.length := getElem?_some_lt hn
  have hlir : li ≠ t.root := fun he => hroot (he ▸ hlimem)
  have hfuel : t.nodes.length + 1 = (t.nodes.length - 1) + 2 := by omega
  have hfind : findLeafP t k (t.nodes.length + 1) none t.root = some (some t.root, li) := by
    rw [hfuel]
    exact findLeafP_two_level t k r n cs li hr hleaf hcv hli hn hnleaf _ _
  set T := cs.take i with hT
  set D := cs.drop (i + 1) with hD
  have hdecomp : cs = T ++ li :: D := by
    have h1 := List.take_append_drop i cs
    have h2 := List.getElem_cons_drop cs i hblt
    rw [← h2] at h1
    exact h1.symm
  have hTlen : T.length = i := by
    rw [hT, List.length_take]
    omega
  have hnd2 : (T ++ li :: D).Nodup := hdecomp ▸ hnd
  have hliT : li ∉ T := by
    intro hmemT
    exact (List.nodup_append.mp hnd2).2.2 hmemT (List.mem_cons_self _ _)
  have hliD : li ∉ D := (List.nodup_cons.mp (List.nodup_append.mp hnd2).2.1).1
  have hpli : pairsAt t li = n.keys.zip vs := by
    unfold pairsAt
    rw [hn]
    show leafPairs n = _
    unfold leafPairs
    rw [hncv, cvVals_map_val]
  have hcontents : contents t =
      (T.map (pairsAt t)).flatten ++ (n.keys.zip vs ++ (D.map (pairsAt t)).flatten) := by
    rw [contents_internal_root t r cs hr hleaf hcv, hdecomp, flatten_map_decomp, hpli]
  have hprefix : ∀ p ∈ (T.map (pairsAt t)).flatten, p.1 < k :=
    prefix_pairs_lt t r.keys cs k hrouted
  have hsuffix : ∀ p ∈ (D.map (pairsAt t)).flatten, k < p.1 :=
    suffix_pairs_gt t r.keys cs k hrouted
  have hgetD : (cs.map (keysAt t)).getD i [] = n.keys := by
    rw [List.getD_eq_getElem?_getD, List.getElem?_map, hli]
    show keysAt t li = n.keys
    unfold keysAt
    rw [hn]
  have hncvlen : n.children_or_values.length = n.keys.length := by
    rw [hncv, List.length_map, hnvslen]
  cases hpy : pyIndex n.keys k with
  | some idx =>
    rcases pyIndex_some hpy with ⟨hidxlt, hidxget⟩
    have hset : pySet n.children_or_values idx (CV.val v) =
        some (n.children_or_values.set idx (CV.val v)) := by
      unfold pySet
      rw [if_pos (by omega)]
    set n2 : BPlusTreeNode V :=
      { n with children_or_values := n.children_or_values.set idx (CV.val v) } with hn2
    set t2 : BPlusTree V := { t with nodes := t.nodes.set li n2 } with ht2
    have hn2look : t2.nodes[li]? = some n2 := by
      show (t.nodes.set li n2)[li]? = some n2
      simp [List.getElem?_set, hlin]
    have hother : ∀ c, c ≠ li → t2.nodes[c]? = t.nodes[c]? := by
      intro c hc
      show (t.nodes.set li n2)[c]? = _
      exact List.getElem?_set_ne (fun h => hc h.symm)
    have hroot2 : t2.nodes[t2.root]? = some r := by
      rw [show t2.root = t.root from rfl, hother t.root (fun h => hlir h.symm)]
      exact hr
    refine ⟨t2, ?_, ?_, ?_, rfl⟩
    · simp only [BPlusTree.insert, hfind, hn, hpy, hset, ht2, hn2]
    · refine treeInv_two hd ⟨hroot2, hleaf, hord, hkne, hsort, hcv, hcslen, hroot, hnd,
        ?_, ?_, ?_⟩
      · intro c hc
        by_cases hcli : c = li
        · subst hcli
          refine ⟨n2, hn2look, hnleaf, hnord, hnsort, hnlen, vs.set idx v, ?_, by
            simp [hnvslen]⟩
          show n.children_or_values.set idx (CV.val v) = _
          rw [hncv, List.set_map]
        · obtain ⟨m, hm, hms⟩ := hmem c hc
          exact ⟨m, by rw [hother c hcli]; exact hm, hms⟩
      · apply chainOK_congr t t2 cs ?_ hchain
        intro a ha
        by_cases hali : a = li
        · subst hali
          unfold nextAt
          rw [hn2look, hn]
        · unfold nextAt
          rw [hother a hali]
      · have hsame : cs.map (keysAt t2) = cs.map (keysAt t) := by
          apply List.map_congr_left
          intro a ha
          by_cases hali : a = li
          · subst hali
            unfold keysAt
            rw [hn2look, hn]
          · unfold keysAt
            rw [hother a hali]
        rw [hsame]
        exact hrouted
    · have hTmap : T.map (pairsAt t2) = T.map (pairsAt t) := by
        apply List.map_congr_left
        intro c hc
        unfold pairsAt
        rw [hother c (fun h => hliT (h ▸ hc))]
      have hDmap : D.map (pairsAt t2) = D.map (pairsAt t) := by
        apply List.map_congr_left
        intro c hc
        unfold pairsAt
        rw [hother c (fun h => hliD (h ▸ hc))]
      have hpli2 : pairsAt t2 li = n.keys.zip (vs.set idx v) := by
        unfold pairsAt
        rw [hn2look]
        show leafPairs n2 = _
        unfold leafPairs
        show n.keys.zip (cvVals (n.children_or_values.set idx (CV.val v))) = _
        rw [hncv, List.set_map, cvVals_map_val]
      have hc2 : contents t2 =
          (T.map (pairsAt t2)).flatten ++ (pairsAt t2 li ++ (D.map (pairsAt t2)).flatten) := by
        rw [contents_internal_root t2 r cs hroot2 hleaf hcv, hdecomp, flatten_map_decomp]
      rw [hc2, hTmap, hDmap, hpli2, hcontents,
        assocUpsert_append_right _ _ k v hprefix,
        assocUpsert_append_left _ _ k v hsuffix,
        assocUpsert_present n.keys vs k v idx hnsort (by omega) hpy,
        zip_set_snd n.keys vs idx v k hidxget]
  | none =>
    have hknot : k ∉ n.keys := (pyIndex_eq_none _ _).mp hpy
    have hidx2le : bisect_left n.keys k ≤ n.keys.length := bisect_left_le_length _ _
    set idx2 := bisect_left n.keys k with hidx2
    set ks2 := pyInsert n.keys idx2 k with hks2
    set vs2 := pyInsert vs idx2 v with hvs2
    have hncvpy : pyInsert n.children_or_values idx2 (CV.val v) = vs2.map CV.val := by
      rw [hncv, ← pyInsert_map]
    have hks2len : ks2.length = n.keys.length + 1 := pyInsert_length _ _ _ hidx2le
    have hvs2len : vs2.length = vs.length + 1 := pyInsert_length _ _ _ (by omega)
    have hks2sorted : List.Sorted (· < ·) ks2 := by
      apply sorted_pyInsert _ _ _ hnsort (mem_take_bisect_left _ _)
      intro a ha
      have h1 := mem_drop_bisect_left n.keys k hnsort a ha
      have h2 : a ∈ n.keys := List.mem_of_mem_drop ha
      have h3 : a ≠ k := fun he => hknot (he ▸ h2)
      omega
    have hks2sub : ∀ x ∈ ks2, x ∈ n.keys ∨ x = k := fun x hx => mem_pyInsert hx
    have hZ2 : assocUpsert (n.keys.zip vs) k v = ks2.zip vs2 :=
      assocUpsert_absent n.keys vs k v hnsort (by omega) hknot
    set n3 : BPlusTreeNode V :=
      { n with keys := ks2,
               children_or_values := pyInsert n.children_or_values idx2 (CV.val v) } with hn3
    set tF : BPlusTree V := { t with nodes := t.nodes.set li n3 } with htF
    have hn3look : tF.nodes[li]? = some n3 := by
      show (t.nodes.set li n3)[li]? = some n3
      simp [List.getElem?_set, hlin]
    have hotherF : ∀ c, c ≠ li → tF.nodes[c]? = t.nodes[c]? := by
      intro c hc
      show (t.nodes.set li n3)[c]? = _
      exact List.getElem?_set_ne (fun h => hc h.symm)
    have hTmapF : T.map (pairsAt tF) = T.map (pairsAt t) := by
      apply List.map_congr_left
      intro c hc
      unfold pairsAt
      rw [hotherF c (fun h => hliT (h ▸ hc))]
    have hDmapF : D.map (pairsAt tF) = D.map (pairsAt t) := by
      apply List.map_congr_left
      intro c hc
      unfold pairsAt
      rw [hotherF c (fun h => hliD (h ▸ hc))]
    have hTkeysF : T.map (keysAt tF) = T.map (keysAt t) := by
      apply List.map_congr_left
      intro c hc
      unfold keysAt
      rw [hotherF c (fun h => hliT (h ▸ hc))]
    have hDkeysF : D.map (keysAt tF) = D.map (keysAt t) := by
      apply List.map_congr_left
      intro c hc
      unfold keysAt
      rw [hotherF c (fun h => hliD (h ▸ hc))]
    by_cases hfull2 : n.keys.length + 1 = t.order
    · -- the reached leaf fills: split it and push the separator into the root
      have hmid2 : t.order / 2 < ks2.length := by
        rw [hks2len]
        omega
      have hmidpos : 1 ≤ t.order / 2 := by omega
      set k' := ks2.get ⟨t.order / 2, hmid2⟩ with hk'def
      have hk'get : ks2[t.order / 2]? = some k' := List.getElem?_eq_getElem hmid2
      have hk'head : (ks2.drop (t.order / 2)).head? = some k' := by
        rw [List.head?_drop]
        exact hk'get
      have hk'mem : k' ∈ ks2.drop (t.order / 2) := by
        have h0 : (ks2.drop (t.order / 2))[0]? = some k' := by
          rw [List.getElem?_drop]
          simpa using hk'get
        exact List.getElem?_mem h0
      have hk'ks2 : k' ∈ ks2 := List.mem_of_mem_drop hk'mem
      have hks2ne : ks2 ≠ [] := by
        intro he
        rw [he] at hks2len
        simp at hks2len
      obtain ⟨h0, hh0⟩ : ∃ h0, ks2.head? = some h0 := by
        cases hh : ks2.head? with
        | none => exact absurd (List.head?_eq_none_iff.mp hh) hks2ne
        | some a => exact ⟨a, rfl⟩
      have hh0mem : h0 ∈ ks2 := by
        rw [List.head?_eq_getElem?] at hh0
        exact List.getElem?_mem hh0
      have hh0take : h0 ∈ ks2.take (t.order / 2) := by
        have : (ks2.take (t.order / 2))[0]? = some h0 := by
          rw [List.getElem?_take, if_pos (by omega), ← List.head?_eq_getElem?]
          exact hh0
        exact List.getElem?_mem this
      have hh0k' : h0 < k' := sorted_take_lt_drop ks2 hks2sorted (t.order / 2) h0 hh0take
        k' hk'mem
      have htake_lt : ∀ a ∈ r.keys.take i, a < k' := by
        intro a ha
        have h1 : a ≤ h0 := routed_take_le r.keys (cs.map (keysAt t)) k h0 hrouted
          (by rw [hgetD]; exact hks2sub h0 hh0mem) a ha
        omega
      have hdrop_gt : ∀ a ∈ r.keys.drop i, k' < a :=
        routed_drop_ge r.keys (cs.map (keysAt t)) k k' hrouted hsort
          (by rw [hgetD]; exact hks2sub k' hk'ks2)
      have hidxp : bisect_right r.keys k' = i :=
        bisect_right_eq r.keys k' i hile (fun a ha => le_of_lt (htake_lt a ha)) hdrop_gt
      have hLnot : t.nodes.length ∉ cs := by
        intro hmemL
        obtain ⟨m, hm, _⟩ := hmem _ hmemL
        have := getElem?_some_lt hm
        omega
      have hcslt : ∀ c ∈ cs, c < t.nodes.length := by
        intro c hc
        obtain ⟨m, hm, _⟩ := hmem c hc
        exact getElem?_some_lt hm
      set L := t.nodes.length with hL
      set leafL3 : BPlusTreeNode V := splitLeafNodeL n3 (t.order / 2) L with hleafL3
      set newR3 : BPlusTreeNode V := splitLeafNodeR t.order n3 (t.order / 2) with hnewR3
      set r' : BPlusTreeNode V := insertInParentNode r k' L with hr'
      set t4 : BPlusTree V :=
        { t with nodes := (t.nodes.set li leafL3 ++ [newR3]).set t.root r' } with ht4
      have hplookA : (tF.nodes.set li (splitLeafNodeL n3 (tF.order / 2) tF.nodes.length) ++
          [splitLeafNodeR tF.order n3 (tF.order / 2)])[t.root]? = some r := by
        show (((t.nodes.set li n3).set li (splitLeafNodeL n3 (t.order / 2)
          (t.nodes.set li n3).length)) ++ [splitLeafNodeR t.order n3 (t.order / 2)])[t.root]?
          = some r
        rw [List.set_set, List.length_set]
        rw [List.getElem?_append, if_pos (by simp [List.length_set]; omega),
          List.getElem?_set_ne hlir]
        exact hr
      have hsl : _split_leaf tF li (some t.root) = some t4 := by
        rw [split_leaf_parent_eq tF li t.root n3 r k' hn3look
          (by show (ks2.drop (t.order / 2)).head? = some k'; exact hk'head) hplookA]
        rw [ht4]
        simp only [htF]
        rw [List.set_set]
        simp [List.length_set]
      set cs' := pyInsert cs (i + 1) L with hcs'
      have hTliLen : (T ++ [li]).length = i + 1 := by simp [hTlen]
      have hcs'decomp : cs' = T ++ li :: L :: D := by
        rw [hcs', hdecomp, show (T ++ li :: D) = ((T ++ [li]) ++ D) by simp,
          ← hTliLen, pyInsert_decomp]
        simp
      have hAlen : (t.nodes.set li leafL3 ++ [newR3]).length = L + 1 := by
        simp [List.length_set]
      have h4root : t4.nodes[t.root]? = some r' := by
        show ((t.nodes.set li leafL3 ++ [newR3]).set t.root r')[t.root]? = some r'
        rw [List.getElem?_set, if_pos rfl, if_pos (by rw [hAlen]; omega)]
      have h4other : ∀ c, c ≠ t.root → c ≠ li → c < L → t4.nodes[c]? = t.nodes[c]? := by
        intro c h1 h2 h3
        show ((t.nodes.set li leafL3 ++ [newR3]).set t.root r')[c]? = _
        rw [List.getElem?_set_ne (fun h => h1 h.symm),
          List.getElem?_append, if_pos (by simp [List.length_set]; omega),
          List.getElem?_set_ne (fun h => h2 h.symm)]
      have h4li : t4.nodes[li]? = some leafL3 := by
        show ((t.nodes.set li leafL3 ++ [newR3]).set t.root r')[li]? = some leafL3
        rw [List.getElem?_set_ne (fun h => hlir h.symm),
          List.getElem?_append, if_pos (by simp [List.length_set]; omega),
          List.getElem?_set, if_pos rfl, if_pos (by omega)]
      have h4L : t4.nodes[L]? = some newR3 := by
        show ((t.nodes.set li leafL3 ++ [newR3]).set t.root r')[L]? = some newR3
        rw [List.getElem?_set_ne (by omega)]
        have hcl := List.getElem?_concat_length (t.nodes.set li leafL3) newR3
        rw [List.length_set] at hcl
        exact hcl
      have hcv4 : r'.children_or_values = cs'.map CV.child := by
        show pyInsert r.children_or_values (bisect_right r.keys k' + 1) (CV.child L) = _
        rw [hidxp, hcv, hcs', ← pyInsert_map]
      have hr'keys : r'.keys = pyInsert r.keys i k' := by
        show pyInsert r.keys (bisect_right r.keys k') k' = _
        rw [hidxp]
      have hkeys4li : keysAt t4 li = ks2.take (t.order / 2) := by
        unfold keysAt
        rw [h4li]
        rfl
      have hkeys4L : keysAt t4 L = ks2.drop (t.order / 2) := by
        unfold keysAt
        rw [h4L]
        rfl
      have hTsafe : ∀ c ∈ T, t4.nodes[c]? = t.nodes[c]? := by
        intro c hc
        have hcs : c ∈ cs := by rw [hdecomp]; exact List.mem_append.mpr (Or.inl hc)
        exact h4other c (fun h => hroot (h ▸ hcs)) (fun h => hliT (h ▸ hc)) (hcslt c hcs)
      have hDsafe : ∀ c ∈ D, t4.nodes[c]? = t.nodes[c]? := by
        intro c hc
        have hcs : c ∈ cs := by
          rw [hdecomp]
          exact List.mem_append.mpr (Or.inr (List.mem_cons_of_mem _ hc))
        exact h4other c (fun h => hroot (h ▸ hcs)) (fun h => hliD (h ▸ hc)) (hcslt c hcs)
      refine ⟨t4, ?_, ?_, ?_, rfl⟩
      · simp only [BPlusTree.insert, hfind, hn, hpy]
        rw [if_pos (by rw [pyInsert_length _ _ _ hidx2le, hnord]; exact hfull2)]
        exact hsl
      · refine treeInv_two hd ⟨h4root, hleaf, hord, ?_, ?_, hcv4, ?_, ?_, ?_, ?_, ?_, ?_⟩
        · show pyInsert r.keys (bisect_right r.keys k') k' ≠ []
          simp [pyInsert]
        · show List.Sorted (· < ·) (pyInsert r.keys (bisect_right r.keys k') k')
          rw [hidxp]
          exact sorted_pyInsert r.keys i k' hsort htake_lt hdrop_gt
        · show (pyInsert cs (i + 1) L).length =
            (pyInsert r.keys (bisect_right r.keys k') k').length + 1
          rw [hidxp, pyInsert_length _ _ _ (by omega), pyInsert_length _ _ _ hile]
          omega
        · intro hmem4
          rcases mem_pyInsert (show (t.root : Nat) ∈ pyInsert cs (i + 1) L from hmem4) with
            h | h
          · exact hroot h
          · omega
        · show (pyInsert cs (i + 1) L).Nodup
          exact ((pyInsert_perm cs (i + 1) L).nodup_iff).mpr
            (List.nodup_cons.mpr ⟨hLnot, hnd⟩)
        · intro c hc
          rcases List.mem_append.mp (hcs'decomp ▸ hc) with hcT | hcrest
          · obtain ⟨m, hm, hms⟩ := hmem c (by
              rw [hdecomp]; exact List.mem_append.mpr (Or.inl hcT))
            exact ⟨m, by rw [hTsafe c hcT]; exact hm, hms⟩
          · rcases List.mem_cons.mp hcrest with rfl | hcrest2
            · refine ⟨leafL3, h4li, hnleaf, hnord, hks2sorted.sublist (List.take_sublist _ _),
                ?_, vs2.take (t.order / 2), ?_, ?_⟩
              · show (ks2.take (t.order / 2)).length < t.order
                rw [List.length_take]
                omega
              · show (pyInsert n.children_or_values idx2 (CV.val v)).take (t.order / 2) = _
                rw [hncvpy, List.map_take]
              · show (vs2.take (t.order / 2)).length = (ks2.take (t.order / 2)).length
                rw [List.length_take, List.length_take]
                omega
            · rcases List.mem_cons.mp hcrest2 with rfl | hcD
              · refine ⟨newR3, h4L, rfl, rfl, hks2sorted.sublist (List.drop_sublist _ _),
                  ?_, vs2.drop (t.order / 2), ?_, ?_⟩
                · show (ks2.drop (t.order / 2)).length < t.order
                  rw [List.length_drop]
                  omega
                · show (pyInsert n.children_or_values idx2 (CV.val v)).drop (t.order / 2) = _
                  rw [hncvpy, List.map_drop]
                · show (vs2.drop (t.order / 2)).length = (ks2.drop (t.order / 2)).length
                  rw [List.length_drop, List.length_drop]
                  omega
              · obtain ⟨m, hm, hms⟩ := hmem c (by
                  rw [hdecomp]
                  exact List.mem_append.mpr (Or.inr (List.mem_cons_of_mem _ hcD)))
                exact ⟨m, by rw [hDsafe c hcD]; exact hm, hms⟩
        · rw [show chainOK t4 cs' = chainOK t4 (T ++ li :: L :: D) from by rw [hcs'decomp]]
          apply chainOK_split t t4 T D li L (hdecomp ▸ hchain)
          · intro c hcm
            rcases hcm with hcm | hcm
            · unfold nextAt
              rw [hTsafe c hcm]
            · unfold nextAt
              rw [hDsafe c hcm]
          · unfold nextAt
            rw [h4li]
            rfl
          · unfold nextAt
            rw [h4L, hn]
            rfl
        · show routed r'.keys (cs'.map (keysAt t4))
          have hmap4 : cs'.map (keysAt t4) =
              (cs.map (keysAt t)).take i ++ (ks2.take (t.order / 2)) ::
                (ks2.drop (t.order / 2)) :: (cs.map (keysAt t)).drop (i + 1) := by
            rw [hcs'decomp, List.map_append, List.map_cons, List.map_cons, hkeys4li, hkeys4L]
            have e1 : T.map (keysAt t4) = (cs.map (keysAt t)).take i := by
              have ec : T.map (keysAt t4) = T.map (keysAt t) := by
                apply List.map_congr_left
                intro c hc
                unfold keysAt
                rw [hTsafe c hc]
              rw [ec, hT, List.map_take]
            have e2 : D.map (keysAt t4) = (cs.map (keysAt t)).drop (i + 1) := by
              have ec : D.map (keysAt t4) = D.map (keysAt t) := by
                apply List.map_congr_left
                intro c hc
                unfold keysAt
                rw [hDsafe c hc]
              rw [ec, hD, List.map_drop]
            rw [e1, e2]
          rw [hr'keys, hmap4]
          have hi' : i = bisect_right r.keys k := hi
          rw [hi']
          apply routed_split r.keys (cs.map (keysAt t)) k k' (ks2.take (t.order / 2))
            (ks2.drop (t.order / 2)) hrouted ?_ ?_ ?_ hk'mem
          · intro x hx
            rw [List.take_append_drop] at hx
            rw [← hi', hgetD]
            exact hks2sub x hx
          · intro x hx
            exact sorted_take_lt_drop ks2 hks2sorted _ x hx k' hk'mem
          · intro x hx
            exact sorted_head_le _ (hks2sorted.sublist (List.drop_sublist _ _)) k' hk'head x hx
      · have hpairs_li : pairsAt t4 li = (ks2.zip vs2).take (t.order / 2) := by
          unfold pairsAt
          rw [h4li]
          show leafPairs leafL3 = _
          unfold leafPairs
          show (ks2.take (t.order / 2)).zip
            (cvVals ((pyInsert n.children_or_values idx2 (CV.val v)).take (t.order / 2))) = _
          rw [hncvpy, ← List.map_take, cvVals_map_val, ← zip_take]
        have hpairs_L : pairsAt t4 L = (ks2.zip vs2).drop (t.order / 2) := by
          unfold pairsAt
          rw [h4L]
          show leafPairs newR3 = _
          unfold leafPairs
          show (ks2.drop (t.order / 2)).zip
            (cvVals ((pyInsert n.children_or_values idx2 (CV.val v)).drop (t.order / 2))) = _
          rw [hncvpy, ← List.map_drop, cvVals_map_val, ← zip_drop]
        have hTmap4 : T.map (pairsAt t4) = T.map (pairsAt t) := by
          apply List.map_congr_left
          intro c hc
          unfold pairsAt
          rw [hTsafe c hc]
        have hDmap4 : D.map (pairsAt t4) = D.map (pairsAt t) := by
          apply List.map_congr_left
          intro c hc
          unfold pairsAt
          rw [hDsafe c hc]
        have hc4 : contents t4 = (T.map (pairsAt t)).flatten ++
            ((ks2.zip vs2).take (t.order / 2) ++ ((ks2.zip vs2).drop (t.order / 2) ++
              (D.map (pairsAt t)).flatten)) := by
          rw [contents_internal_root t4 r' cs' h4root hleaf hcv4, hcs'decomp,
            flatten_map_decomp, List.map_cons, List.flatten_cons, hTmap4, hDmap4,
            hpairs_li, hpairs_L]
        rw [hc4, hcontents,
          assocUpsert_append_right _ _ k v hprefix,
          assocUpsert_append_left _ _ k v hsuffix, hZ2,
          show (ks2.zip vs2).take (t.order / 2) ++ ((ks2.zip vs2).drop (t.order / 2) ++
              (D.map (pairsAt t)).flatten) = ks2.zip vs2 ++ (D.map (pairsAt t)).flatten from by
            rw [← List.append_assoc, List.take_append_drop]]
    · -- room remains in the leaf: plain sorted insertion, no split
      refine ⟨tF, ?_, ?_, ?_, rfl⟩
      · simp only [BPlusTree.insert, hfind, hn, hpy]
        rw [if_neg (by rw [pyInsert_length _ _ _ hidx2le, hnord]; omega), htF, hn3]
      · have hrootF : tF.nodes[tF.root]? = some r := by
          rw [show tF.root = t.root from rfl, hotherF t.root (fun h => hlir h.symm)]
          exact hr
        refine treeInv_two hd ⟨hrootF, hleaf, hord, hkne, hsort, hcv, hcslen, hroot, hnd,
          ?_, ?_, ?_⟩
        · intro c hc
          by_cases hcli : c = li
          · subst hcli
            refine ⟨n3, hn3look, hnleaf, hnord, hks2sorted, ?_, vs2, hncvpy, ?_⟩
            · show ks2.length < t.order
              omega
            · show vs2.length = ks2.length
              omega
          · obtain ⟨m, hm, hms⟩ := hmem c hc
            exact ⟨m, by rw [hotherF c hcli]; exact hm, hms⟩
        · apply chainOK_congr t tF cs ?_ hchain
          intro a ha
          by_cases hali : a = li
          · subst hali
            unfold nextAt
            rw [hn3look, hn]
          · unfold nextAt
            rw [hotherF a hali]
        · have hkeysli : keysAt tF li = ks2 := by
            unfold keysAt
            rw [hn3look]
          have hmapkeys : cs.map (keysAt tF) = (cs.map (keysAt t)).set i ks2 := by
            rw [hdecomp, List.map_append, List.map_cons, List.map_append, List.map_cons,
              hTkeysF, hDkeysF, hkeysli]
            have hlenm : (T.map (keysAt t)).length = i := by
              rw [List.length_map, hTlen]
            rw [← hlenm, set_append_cons]
          rw [hmapkeys]
          exact routed_set r.keys (cs.map (keysAt t)) k ks2 hrouted
            (by rw [hgetD]; exact hks2sub)
      · have hpliF : pairsAt tF li = ks2.zip vs2 := by
          unfold pairsAt
          rw [hn3look]
          show leafPairs n3 = _
          unfold leafPairs
          show ks2.zip (cvVals (pyInsert n.children_or_values idx2 (CV.val v))) = _
          rw [hncvpy, cvVals_map_val]
        have hrootF : tF.nodes[tF.root]? = some r := by
          rw [show tF.root = t.root from rfl, hotherF t.root (fun h => hlir h.symm)]
          exact hr
        have hcF : contents tF =
            (T.map (pairsAt tF)).flatten ++ (pairsAt tF li ++ (D.map (pairsAt tF)).flatten) := by
          rw [contents_internal_root tF r cs hrootF hleaf hcv, hdecomp, flatten_map_decomp]
        rw [hcF, hTmapF, hDmapF, hpliF, hcontents,
          assocUpsert_append_right _ _ k v hprefix,
          assocUpsert_append_left _ _ k v hsuffix, hZ2]

/-- Either invariant case of BPlusTree.insert: the call succeeds, the
invariant is preserved, and contents change by assocUpsert. -/
theorem insert_inv {V : Type} (t : BPlusTree V) (k : Int) (v : V) (hinv : treeInv t) :
    ∃ t', t.insert k v = some t' ∧ treeInv t' ∧
      contents t' = assocUpsert (contents t) k v ∧ t'.order = t.order := by
  obtain ⟨hd, r, hr, hcase⟩ := hinv
  rcases hcase with ⟨hleaf, hnext, hshape⟩ |
    ⟨hleaf, hord, hkne, hsort, cs, hcv, hlen, hrm, hnd, hmem, hchain, hroute⟩
  · exact insert_single_leaf t k v hd r hr hleaf hnext hshape
  · exact insert_two_level t k v hd r cs
      ⟨hr, hleaf, hord, hkne, hsort, hcv, hlen, hrm, hnd, hmem, hchain, hroute⟩

/-- A fresh tree (order at least 3) satisfies the invariant and is empty. -/
theorem new_inv (V : Type) (d : Nat) (hd : 3 ≤ d) :
    ∃ t, BPlusTree.new V d = some t ∧ treeInv t ∧ contents t = [] ∧ t.order = d := by
  refine ⟨⟨d, [⟨d, true, [], [], none⟩], 0⟩, ?_, ?_, rfl, rfl⟩
  · unfold BPlusTree.new
    rw [if_neg (by omega)]
  · exact ⟨hd, ⟨d, true, [], [], none⟩, rfl,
      Or.inl ⟨rfl, rfl, ⟨rfl, rfl, List.sorted_nil,
        by show ([] : List Int).length < d; simp only [List.length_nil]; omega,
        [], rfl, rfl⟩⟩⟩

theorem chainWalk_none {V : Type} (t : BPlusTree V) (fuel : Nat) :
    chainWalk t fuel none = some [] := by
  cases fuel <;> rfl

/-- The stored values of the node at arena index i. -/
def valsAt {V : Type} (t : BPlusTree V) (i : Nat) : List V :=
  match t.nodes[i]? with
  | some n => cvVals n.children_or_values
  | none => []

/-- chainWalk along a well-formed chain of value-only nodes collects their
values in chain order. -/
theorem chainWalk_chain {V : Type} (t : BPlusTree V) :
    ∀ (cs : List Nat) (fuel : Nat), cs.length ≤ fuel →
    (∀ c ∈ cs, ∃ (n : BPlusTreeNode V) (vs : List V),
      t.nodes[c]? = some n ∧ n.children_or_values = vs.map CV.val) →
    chainOK t cs →
    chainWalk t fuel cs.head? = some ((cs.map (valsAt t)).flatten) := by
  intro cs
  induction cs with
  | nil =>
    intro fuel _ _ _
    show chainWalk t fuel none = some []
    exact chainWalk_none t fuel
  | cons c rest ih =>
    intro fuel hfuel hmem hok
    obtain ⟨hchain, hlast⟩ := hok
    obtain ⟨n, vs, hn, hcv⟩ := hmem c (List.mem_cons_self _ _)
    cases fuel with
    | zero => exact absurd hfuel (by simp)
    | succ f =>
      show chainWalk t (f + 1) (some c) = _
      simp only [chainWalk, hn, hcv, allVals_map_val]
      have hvalsc : valsAt t c = vs := by
        unfold valsAt
        rw [hn]
        show cvVals n.children_or_values = vs
        rw [hcv, cvVals_map_val]
      cases rest with
      | nil =>
        have h1 : nextAt t c = none := by simpa using hlast
        have hnl : n.next_leaf = none := by
          unfold nextAt at h1
          rw [hn] at h1
          exact h1
        rw [hnl, chainWalk_none]
        show some (vs ++ []) = _
        rw [List.map_cons, List.map_nil, List.flatten_cons, List.flatten_nil, hvalsc]
      | cons c2 rest2 =>
        have hc2 : nextAt t c = some c2 := (List.chain'_cons.mp hchain).1
        have hnl : n.next_leaf = some c2 := by
          unfold nextAt at hc2
          rw [hn] at hc2
          exact hc2
        have hrec := ih f (by simp at hfuel ⊢; omega)
          (fun a ha => hmem a (List.mem_cons_of_mem _ ha))
          ⟨(List.chain'_cons.mp hchain).2, by rw [← List.getLast?_cons_cons]; exact hlast⟩
        have hh : (c2 :: rest2).head? = some c2 := rfl
        rw [hh] at hrec
        rw [hnl, hrec, Option.map_some']
        simp only [List.map_cons, List.flatten_cons, hvalsc]

theorem descendFirst_leaf {V : Type} (t : BPlusTree V) (f i : Nat) (n : BPlusTreeNode V)
    (hn : t.nodes[i]? = some n) (hl : n.is_leaf = true) :
    descendFirst t (f + 1) i = some i := by
  simp [descendFirst, hn, hl]

theorem descendFirst_internal {V : Type} (t : BPlusTree V) (f i : Nat) (n : BPlusTreeNode V)
    (c : Nat) (hn : t.nodes[i]? = some n) (hl : n.is_leaf = false)
    (hc : n.children_or_values[0]? = some (CV.child c)) :
    descendFirst t (f + 1) i = descendFirst t f c := by
  simp only [descendFirst, hn, hl, Bool.false_eq_true, if_false]
  rw [hc]

/-- get_all on an invariant tree returns exactly the values of contents, in
order. -/
theorem get_all_spec {V : Type} (t : BPlusTree V) (hinv : treeInv t) :
    t.get_all = some ((contents t).map Prod.snd) := by
  obtain ⟨hd, r, hr, hcase⟩ := hinv
  have hrlt : t.root < t.nodes.length := getElem?_some_lt hr
  rcases hcase with ⟨hleaf, hnext, hshape⟩ |
    ⟨hleaf, hord, hkne, hsort, cs, hcv, hlen, hrm, hnd, hmem, hchain, hroute⟩
  · obtain ⟨_, _, hsort, hlenk, vs, hcvv, hvslen⟩ := hshape
    have hcont : contents t = r.keys.zip vs := contents_root_leaf t r vs hr hleaf hcvv
    unfold BPlusTree.get_all
    rw [hr]
    show (if r.keys = [] ∧ r.is_leaf = false then some []
          else match descendFirst t (t.nodes.length + 1) t.root with
            | none => none
            | some li => chainWalk t (t.nodes.length + 1) (some li)) = _
    rw [if_neg (by simp [hleaf])]
    obtain ⟨m, hm⟩ : ∃ m, t.nodes.length = m + 1 := ⟨t.nodes.length - 1, by omega⟩
    rw [hm, descendFirst_leaf t (m + 1) t.root r hr hleaf]
    show chainWalk t (m + 1 + 1) (some t.root) = _
    have hwalk := chainWalk_chain t [t.root] (m + 1 + 1) (by simp)
      (fun a ha => by
        rw [List.mem_singleton] at ha
        subst ha
        exact ⟨r, vs, hr, hcvv⟩)
      ⟨List.chain'_singleton _, by
        show nextAt t t.root = none
        unfold nextAt
        rw [hr]
        show r.next_leaf = none
        exact hnext⟩
    have hh : ([t.root] : List Nat).head? = some t.root := rfl
    rw [hh] at hwalk
    rw [hwalk, hcont, zip_map_snd r.keys vs hvslen.symm]
    show some (valsAt t t.root ++ []) = some vs
    rw [List.append_nil]
    unfold valsAt
    rw [hr]
    show some (cvVals r.children_or_values) = some vs
    rw [hcvv, cvVals_map_val]
  · have hcont : contents t = (cs.map (pairsAt t)).flatten :=
      contents_internal_root t r cs hr hleaf hcv
    obtain ⟨c0, cs', rfl⟩ : ∃ c0 cs', cs = c0 :: cs' := by
      cases cs with
      | nil => simp at hlen
      | cons a l => exact ⟨a, l, rfl⟩
    obtain ⟨n0, hn0, hshape0⟩ := hmem c0 (List.mem_cons_self _ _)
    have hc0lt : c0 < t.nodes.length := getElem?_some_lt hn0
    unfold BPlusTree.get_all
    rw [hr]
    show (if r.keys = [] ∧ r.is_leaf = false then some []
          else match descendFirst t (t.nodes.length + 1) t.root with
            | none => none
            | some li => chainWalk t (t.nodes.length + 1) (some li)) = _
    rw [if_neg (by intro hcontra; exact hkne hcontra.1)]
    obtain ⟨m, hm⟩ : ∃ m, t.nodes.length = m + 1 := ⟨t.nodes.length - 1, by omega⟩
    have hc00 : r.children_or_values[0]? = some (CV.child c0) := by
      rw [hcv, List.map_cons, List.getElem?_cons_zero]
    rw [hm, descendFirst_internal t (m + 1) t.root r c0 hr hleaf hc00,
      descendFirst_leaf t m c0 n0 hn0 hshape0.1]
    show chainWalk t (m + 1 + 1) (some c0) = _
    have hwalk := chainWalk_chain t (c0 :: cs') (m + 1 + 1)
      (by
        have := nodup_length_le (c0 :: cs') t.nodes.length hnd
          (fun a ha => getElem?_some_lt (hmem a ha).choose_spec.1)
        omega)
      (fun a ha => by
        obtain ⟨na, hna, hsa⟩ := hmem a ha
        obtain ⟨_, _, _, _, vsa, hcva, _⟩ := hsa
        exact ⟨na, vsa, hna, hcva⟩)
      hchain
    have hh : ((c0 :: cs') : List Nat).head? = some c0 := rfl
    rw [hh] at hwalk
    rw [hwalk, hcont, List.map_flatten, List.map_map]
    have hpt : ∀ a ∈ c0 :: cs',
        (List.map Prod.snd ∘ pairsAt t) a = valsAt t a := by
      intro a ha
      obtain ⟨na, hna, hsa⟩ := hmem a ha
      obtain ⟨_, _, _, _, vsa, hcva, hlena⟩ := hsa
      show (pairsAt t a).map Prod.snd = valsAt t a
      unfold pairsAt valsAt
      rw [hna]
      show (leafPairs na).map Prod.snd = cvVals na.children_or_values
      unfold leafPairs
      rw [hcva, cvVals_map_val, zip_map_snd na.keys vsa hlena.symm]
    rw [List.map_congr_left hpt]

/-- The keys of contents are strictly ascending on any invariant tree. -/
theorem contents_keys_sorted {V : Type} (t : BPlusTree V) (hinv : treeInv t) :
    List.Sorted (· < ·) ((contents t).map Prod.fst) := by
  obtain ⟨hd, r, hr, hcase⟩ := hinv
  rcases hcase with ⟨hleaf, hnext, hshape⟩ |
    ⟨hleaf, hord, hkne, hsort, cs, hcv, hlen, hrm, hnd, hmem, hchain, hroute⟩
  · obtain ⟨_, _, hsort, _, vs, hcvv, hvslen⟩ := hshape
    rw [contents_root_leaf t r vs hr hleaf hcvv, zip_map_fst r.keys vs hvslen.symm]
    exact hsort
  · rw [contents_internal_root t r cs hr hleaf hcv, List.map_flatten, List.map_map]
    have hpt : ∀ a ∈ cs, (List.map Prod.fst ∘ pairsAt t) a = keysAt t a := by
      intro a ha
      obtain ⟨na, hna, hsa⟩ := hmem a ha
      obtain ⟨_, _, _, _, vsa, hcva, hlena⟩ := hsa
      show (pairsAt t a).map Prod.fst = keysAt t a
      unfold pairsAt keysAt
      rw [hna]
      show (leafPairs na).map Prod.fst = na.keys
      unfold leafPairs
      rw [hcva, cvVals_map_val, zip_map_fst na.keys vsa hlena.symm]
    rw [List.map_congr_left hpt]
    refine routed_flatten_sorted r.keys (cs.map (keysAt t)) hroute ?_
    intro l hl
    obtain ⟨a, ha, rfl⟩ := List.mem_map.mp hl
    obtain ⟨na, hna, hsa⟩ := hmem a ha
    have hk : keysAt t a = na.keys := by
      unfold keysAt
      rw [hna]
    rw [hk]
    exact hsa.2.2.1

/-- Folding inserts over an invariant tree: the fold succeeds, preserves the
invariant, and acts as the assocUpsert fold on contents. -/
theorem foldl_insert_inv {V : Type} (l : List (Int × V)) :
    ∀ (t : BPlusTree V), treeInv t →
    ∃ t', l.foldl (fun acc p => acc.bind (fun u => u.insert p.1 p.2)) (some t) = some t' ∧
      treeInv t' ∧
      contents t' = l.foldl (fun acc p => assocUpsert acc p.1 p.2) (contents t) ∧
      t'.order = t.order := by
  induction l with
  | nil =>
    intro t h
    exact ⟨t, rfl, h, rfl, rfl⟩
  | cons p rest ih =>
    intro t h
    obtain ⟨t1, hins, hinv1, hc1, hord1⟩ := insert_inv t p.1 p.2 h
    obtain ⟨t', hfold, hinv', hc', hord'⟩ := ih t1 hinv1
    refine ⟨t', ?_, hinv', ?_, by rw [hord', hord1]⟩
    · simp only [List.foldl_cons, Option.some_bind, hins]
      exact hfold
    · simp only [List.foldl_cons]
      rw [hc', hc1]

/-- Building a tree from a list of inserts: the invariant holds throughout
and the contents are the assocUpsert fold of the list. -/
theorem buildTree_inv {V : Type} (d : Nat) (hd : 3 ≤ d) (l : List (Int × V)) :
    ∃ t, buildTree d l = some t ∧ treeInv t ∧
      contents t = l.foldl (fun acc p => assocUpsert acc p.1 p.2) [] ∧ t.order = d := by
  obtain ⟨t0, hnew, hinv0, hc0, hord0⟩ := new_inv V d hd
  obtain ⟨t, hfold, hinv, hc, hord⟩ := foldl_insert_inv l t0 hinv0
  refine ⟨t, ?_, hinv, ?_, by rw [hord, hord0]⟩
  · unfold buildTree
    rw [hnew]
    exact hfold
  · rw [hc, hc0]

/-- Folding assocUpsert over pairwise-distinct fresh keys just accumulates
them: the result is a permutation of the accumulator followed by the list. -/
theorem foldl_assocUpsert_perm {V : Type} (l : List (Int × V)) :
    ∀ acc : List (Int × V),
    (∀ q ∈ l, q.1 ∉ acc.map Prod.fst) →
    (l.map Prod.fst).Nodup →
    (l.foldl (fun a p => assocUpsert a p.1 p.2) acc).Perm (acc ++ l) := by
  induction l with
  | nil =>
    intro acc _ _
    simp
  | cons p rest ih =>
    intro acc hdisj hnd
    simp only [List.foldl_cons]
    have hnotin : p.1 ∉ acc.map Prod.fst := hdisj p (List.mem_cons_self _ _)
    have hperm1 : (assocUpsert acc p.1 p.2).Perm ((p.1, p.2) :: acc) :=
      assocUpsert_perm acc p.1 p.2 hnotin
    rw [List.map_cons, List.nodup_cons] at hnd
    have hdisj2 : ∀ q ∈ rest, q.1 ∉ (assocUpsert acc p.1 p.2).map Prod.fst := by
      intro q hq hmemq
      have hq1 : q.1 ∈ ((p.1, p.2) :: acc).map Prod.fst :=
        ((hperm1.map Prod.fst).mem_iff).mp hmemq
      rcases List.mem_cons.mp hq1 with h | h
      · exact hnd.1 (h ▸ List.mem_map_of_mem Prod.fst hq)
      · exact hdisj q (List.mem_cons_of_mem _ hq) h
    have hrec := ih (assocUpsert acc p.1 p.2) hdisj2 hnd.2
    refine hrec.trans ?_
    refine (hperm1.append_right rest).trans ?_
    show ((p.1, p.2) :: acc ++ rest).Perm (acc ++ p :: rest)
    exact (List.perm_middle.symm : ((p.1, p.2) :: (acc ++ rest)).Perm (acc ++ (p.1, p.2) :: rest))

theorem pyInsert_getElem_lt {α : Type} (l : List α) (i : Nat) (x : α) (j : Nat)
    (hj : j < i) (hi : i ≤ l.length) : (pyInsert l i x)[j]? = l[j]? := by
  unfold pyInsert
  rw [List.getElem?_append, if_pos (by rw [List.length_take]; omega), List.getElem?_take,
    if_pos hj]

theorem pyInsert_getElem_self {α : Type} (l : List α) (i : Nat) (x : α)
    (hi : i ≤ l.length) : (pyInsert l i x)[i]? = some x := by
  unfold pyInsert
  rw [List.getElem?_append, if_neg (by rw [List.length_take]; omega), List.length_take,
    Nat.min_eq_left hi, Nat.sub_self, List.getElem?_cons_zero]

/-- The updated leaf node produced by the overwrite branch of insert. -/
def upsertNode {V : Type} (node : BPlusTreeNode V) (idx : Nat) (v : V) : BPlusTreeNode V :=
  { node with children_or_values := node.children_or_values.set idx (CV.val v) }

theorem set_map_congr {α β : Type} (l : List α) (i : Nat) (b : α) (f : α → β)
    (a : α) (hl : l[i]? = some a) (hf : f b = f a) :
    (l.set i b).map f = l.map f := by
  have hilt : i < l.length := getElem?_some_lt hl
  apply List.ext_getElem?
  intro n
  rw [List.map_set]
  by_cases hn : n = i
  · subst hn
    rw [List.getElem?_set_self (by rw [List.length_map]; exact hilt), List.getElem?_map, hl,
      Option.map_some', hf]
  · rw [List.getElem?_set_ne (fun h => hn h.symm)]

/-- C1: inserting any sequence of records with pairwise-distinct keys into a
fresh tree of any order at least 3, in any insertion order, a subsequent
get_all succeeds and returns the values of exactly those records: the tree
contents are a permutation of the inserted pairs (each exactly once, none
lost), their keys are strictly ascending across the whole leaf chain, and
get_all lists the values in that ascending-key order. -/
theorem C1_get_all_sorted_complete {V : Type} (d : Nat) (l : List (Int × V))
    (hd : 3 ≤ d) (hnd : (l.map Prod.fst).Nodup) :
    ∃ t, buildTree d l = some t ∧
      t.get_all = some ((contents t).map Prod.snd) ∧
      (contents t).Perm l ∧
      List.Sorted (· < ·) ((contents t).map Prod.fst) := by
  obtain ⟨t, hbt, hinv, hc, hord⟩ := buildTree_inv d hd l
  refine ⟨t, hbt, get_all_spec t hinv, ?_, contents_keys_sorted t hinv⟩
  rw [hc]
  simpa using foldl_assocUpsert_perm l [] (by simp) hnd

theorem C1_witness :
    ∃ t, buildTree 3
        ([(5, 50), (1, 10), (3, 30), (2, 20), (6, 60), (4, 40), (7, 70)] :
          List (Int × Nat)) = some t ∧
      t.get_all = some ((contents t).map Prod.snd) ∧
      (contents t).Perm [(5, 50), (1, 10), (3, 30), (2, 20), (6, 60), (4, 40), (7, 70)] ∧
      List.Sorted (· < ·) ((contents t).map Prod.fst) :=
  C1_get_all_sorted_complete 3 _ (by decide) (by decide)

/-- C2: the spec claims every tree reachable by inserts keeps every internal
node at no more than order keys, the parent splitting recursively when a
promoted key fills it.  The code's _insert_in_parent does nothing (a literal
pass) on a full parent, so the claim is false: inserting keys 1..6 into a
fresh order-3 tree leaves the internal root holding 4 keys, more than its
order.  This theorem exhibits that reachable tree. -/
theorem C2_internal_node_overflow :
    ∃ (t : BPlusTree Nat) (r : BPlusTreeNode Nat),
      buildTree 3 ([(1, 1), (2, 2), (3, 3), (4, 4), (5, 5), (6, 6)] :
        List (Int × Nat)) = some t ∧
      t.nodes[t.root]? = some r ∧ r.is_leaf = false ∧ t.order < r.keys.length := by
  refine ⟨⟨3,
    [⟨3, true, [1], [CV.val 1], some 1⟩,
     ⟨3, true, [2], [CV.val 2], some 3⟩,
     ⟨3, false, [2, 3, 4, 5],
       [CV.child 0, CV.child 1, CV.child 3, CV.child 4, CV.child 5], none⟩,
     ⟨3, true, [3], [CV.val 3], some 4⟩,
     ⟨3, true, [4], [CV.val 4], some 5⟩,
     ⟨3, true, [5, 6], [CV.val 5, CV.val 6], none⟩], 2⟩,
    ⟨3, false, [2, 3, 4, 5],
      [CV.child 0, CV.child 1, CV.child 3, CV.child 4, CV.child 5], none⟩,
    by decide, by decide, by decide, by decide⟩

/-- C8: when a leaf becomes full it is split at mid = order / 2 (integer
division): the original leaf keeps the first mid keys and values and its
next pointer is redirected to the new leaf; the new right leaf (allocated at
the end of the arena) receives the keys and values from mid onward and
inherits the old next pointer; and the new leaf's first key is copied into
the parent, the new leaf's child pointer inserted immediately to the
separator's right, leaving (old leaf, new leaf) adjacent under it. -/
theorem C8_split_leaf_mechanics {V : Type} (t : BPlusTree V) (li pi : Nat)
    (leaf p : BPlusTreeNode V)
    (hli : t.nodes[li]? = some leaf) (hpi : t.nodes[pi]? = some p) (hne : pi ≠ li)
    (hord : 3 ≤ t.order) (hfull : leaf.keys.length = t.order) :
    ∃ t' k', _split_leaf t li (some pi) = some t' ∧
      (leaf.keys.drop (t.order / 2)).head? = some k' ∧
      t'.nodes[li]? = some { leaf with
        keys := leaf.keys.take (t.order / 2),
        children_or_values := leaf.children_or_values.take (t.order / 2),
        next_leaf := some t.nodes.length } ∧
      t'.nodes[t.nodes.length]? = some
        ⟨t.order, true, leaf.keys.drop (t.order / 2),
          leaf.children_or_values.drop (t.order / 2), leaf.next_leaf⟩ ∧
      t'.nodes[pi]? = some { p with
        keys := pyInsert p.keys (bisect_right p.keys k') k',
        children_or_values :=
          pyInsert p.children_or_values (bisect_right p.keys k' + 1)
            (CV.child t.nodes.length) } ∧
      t'.nodes.length = t.nodes.length + 1 := by
  have hplt : pi < t.nodes.length := getElem?_some_lt hpi
  have hllt : li < t.nodes.length := getElem?_some_lt hli
  have hmid : t.order / 2 < leaf.keys.length := by rw [hfull]; omega
  obtain ⟨k', hk'⟩ : ∃ k', leaf.keys[t.order / 2]? = some k' :=
    ⟨_, List.getElem?_eq_getElem hmid⟩
  have hhead : (leaf.keys.drop (t.order / 2)).head? = some k' := by
    rw [List.head?_drop]
    exact hk'
  have hplook : (t.nodes.set li (splitLeafNodeL leaf (t.order / 2) t.nodes.length) ++
      [splitLeafNodeR t.order leaf (t.order / 2)])[pi]? = some p := by
    rw [List.getElem?_append, if_pos (by rw [List.length_set]; exact hplt),
      List.getElem?_set_ne (fun h => hne h.symm)]
    exact hpi
  refine ⟨_, k', split_leaf_parent_eq t li pi leaf p k' hli hhead hplook, hhead,
    ?_, ?_, ?_, ?_⟩
  · show (((t.nodes.set li (splitLeafNodeL leaf (t.order / 2) t.nodes.length) ++
      [splitLeafNodeR t.order leaf (t.order / 2)]).set pi
        (insertInParentNode p k' t.nodes.length))[li]?) = _
    rw [List.getElem?_set_ne hne, List.getElem?_append,
      if_pos (by rw [List.length_set]; exact hllt), List.getElem?_set_self hllt]
    rfl
  · show (((t.nodes.set li (splitLeafNodeL leaf (t.order / 2) t.nodes.length) ++
      [splitLeafNodeR t.order leaf (t.order / 2)]).set pi
        (insertInParentNode p k' t.nodes.length))[t.nodes.length]?) = _
    rw [List.getElem?_set_ne (Nat.ne_of_lt hplt), List.getElem?_append,
      if_neg (by rw [List.length_set]; omega), List.length_set, Nat.sub_self,
      List.getElem?_cons_zero]
    rfl
  · show (((t.nodes.set li (splitLeafNodeL leaf (t.order / 2) t.nodes.length) ++
      [splitLeafNodeR t.order leaf (t.order / 2)]).set pi
        (insertInParentNode p k' t.nodes.length))[pi]?) = _
    rw [List.getElem?_set_self
      (by rw [List.length_append, List.length_set]; omega)]
    rfl
  · show ((t.nodes.set li (splitLeafNodeL leaf (t.order / 2) t.nodes.length) ++
      [splitLeafNodeR t.order leaf (t.order / 2)]).set pi
        (insertInParentNode p k' t.nodes.length)).length = t.nodes.length + 1
    rw [List.length_set, List.length_append, List.length_set]
    rfl

theorem C8_witness :
    ∃ t' k',
      _split_leaf (⟨3,
        [⟨3, true, [1, 2, 3], [CV.val 10, CV.val 20, CV.val 30], some 1⟩,
         ⟨3, true, [4], [CV.val 40], none⟩,
         ⟨3, false, [4], [CV.child 0, CV.child 1], none⟩], 2⟩ : BPlusTree Nat) 0
        (some 2) = some t' ∧
      (([1, 2, 3] : List Int).drop (3 / 2)).head? = some k' ∧
      t'.nodes[0]? = some ⟨3, true, ([1, 2, 3] : List Int).take (3 / 2),
        ([CV.val 10, CV.val 20, CV.val 30] : List (CV Nat)).take (3 / 2), some 3⟩ ∧
      t'.nodes[3]? = some ⟨3, true, ([1, 2, 3] : List Int).drop (3 / 2),
        ([CV.val 10, CV.val 20, CV.val 30] : List (CV Nat)).drop (3 / 2), some 1⟩ ∧
      t'.nodes[2]? = some ⟨3, false,
        pyInsert [4] (bisect_right [4] k') k',
        pyInsert [CV.child 0, CV.child 1] (bisect_right [4] k' + 1) (CV.child 3), none⟩ ∧
      t'.nodes.length = 4 :=
  C8_split_leaf_mechanics
    (⟨3, [⟨3, true, [1, 2, 3], [CV.val 10, CV.val 20, CV.val 30], some 1⟩,
          ⟨3, true, [4], [CV.val 40], none⟩,
          ⟨3, false, [4], [CV.child 0, CV.child 1], none⟩], 2⟩ : BPlusTree Nat)
    0 2 ⟨3, true, [1, 2, 3], [CV.val 10, CV.val 20, CV.val 30], some 1⟩
    ⟨3, false, [4], [CV.child 0, CV.child 1], none⟩
    (by decide) (by decide) (by decide) (by decide) (by decide)

/-- C9: tree-level insert of a key already present overwrites the stored
value in place at the destination leaf and returns immediately: the arena
keeps its length and root, every other node is untouched, the destination
node keeps its keys, leafness and next pointer (only its value cell at the
key's position changes), and in particular no split check runs — the
conclusion needs no bound on the leaf's occupancy, so it holds even for a
full leaf. -/
theorem C9_upsert_in_place {V : Type} (t : BPlusTree V) (k : Int) (v : V)
    (parent : Option Nat) (li : Nat) (node : BPlusTreeNode V) (idx : Nat)
    (hfind : findLeafP t k (t.nodes.length + 1) none t.root = some (parent, li))
    (hnode : t.nodes[li]? = some node)
    (hidx : pyIndex node.keys k = some idx)
    (hlt : idx < node.children_or_values.length) :
    ∃ t', t.insert k v = some t' ∧
      t'.order = t.order ∧ t'.root = t.root ∧
      t'.nodes.length = t.nodes.length ∧
      (∀ j, j ≠ li → t'.nodes[j]? = t.nodes[j]?) ∧
      t'.nodes[li]? = some { node with
        children_or_values := node.children_or_values.set idx (CV.val v) } ∧
      t'.nodes.map (fun n => n.keys) = t.nodes.map (fun n => n.keys) ∧
      t'.nodes.map (fun n => n.next_leaf) = t.nodes.map (fun n => n.next_leaf) ∧
      t'.nodes.map (fun n => n.is_leaf) = t.nodes.map (fun n => n.is_leaf) := by
  have hllt : li < t.nodes.length := getElem?_some_lt hnode
  have hset : pySet node.children_or_values idx (CV.val v) =
      some (node.children_or_values.set idx (CV.val v)) := by
    unfold pySet
    rw [if_pos hlt]
  refine ⟨{ t with nodes := t.nodes.set li (upsertNode node idx v) },
    ?_, rfl, rfl, by rw [List.length_set], ?_, ?_, ?_, ?_, ?_⟩
  · simp only [BPlusTree.insert, hfind, hnode, hidx, hset]
    rfl
  · intro j hj
    exact List.getElem?_set_ne (fun h => hj h.symm)
  · exact List.getElem?_set_self hllt
  · exact set_map_congr t.nodes li _ _ node hnode rfl
  · exact set_map_congr t.nodes li _ _ node hnode rfl
  · exact set_map_congr t.nodes li _ _ node hnode rfl

theorem C9_witness :
    ∃ t',
      BPlusTree.insert (⟨3, [⟨3, true, [1, 2, 3],
          [CV.val 10, CV.val 20, CV.val 30], none⟩], 0⟩ : BPlusTree Nat) 2 99 =
        some t' ∧
      t'.order = 3 ∧ t'.root = 0 ∧
      t'.nodes.length = 1 ∧
      (∀ j, j ≠ 0 → t'.nodes[j]? =
        ([⟨3, true, [1, 2, 3], [CV.val 10, CV.val 20, CV.val 30], none⟩] :
          List (BPlusTreeNode Nat))[j]?) ∧
      t'.nodes[0]? = some ⟨3, true, [1, 2, 3],
        ([CV.val 10, CV.val 20, CV.val 30] : List (CV Nat)).set 1 (CV.val 99), none⟩ ∧
      t'.nodes.map (fun n => n.keys) = [[1, 2, 3]] ∧
      t'.nodes.map (fun n => n.next_leaf) = [none] ∧
      t'.nodes.map (fun n => n.is_leaf) = [true] :=
  C9_upsert_in_place
    (⟨3, [⟨3, true, [1, 2, 3], [CV.val 10, CV.val 20, CV.val 30], none⟩], 0⟩ :
      BPlusTree Nat)
    2 99 none 0 ⟨3, true, [1, 2, 3], [CV.val 10, CV.val 20, CV.val 30], none⟩ 1
    (by decide) (by decide) (by decide) (by decide)

/-- A Python value stored in a record: the CLI and GUI build ints, floats,
strings and booleans.  Python's bool is a subclass of int (isinstance(True,
int) holds), which the isinstance translations below reproduce. -/
inductive Value where
  | int (i : Int)
  | float (q : Rat)
  | str (s : String)
  | bool (b : Bool)
deriving DecidableEq, Repr

/-- A record (Python dict column → value); an explicit None value is an
explicit null and is distinct from an absent column for the unknown-column
scan, though record.get conflates them. -/
abbrev Record : Type := List (String × Option Value)

/-- Python dict lookup d.get(k). -/
def dictGet {κ α : Type} [DecidableEq κ] : List (κ × α) → κ → Option α
  | [], _ => none
  | p :: rest, k => if p.1 = k then some p.2 else dictGet rest k

/-- Python dict assignment d[k] = v: overwrites in place, appends when new. -/
def dictSet {κ α : Type} [DecidableEq κ] : List (κ × α) → κ → α → List (κ × α)
  | [], k, v => [(k, v)]
  | p :: rest, k, v => if p.1 = k then (k, v) :: rest else p :: dictSet rest k v

/-- record.get(col): absent column and explicit null both give None. -/
def recGet (r : Record) (k : String) : Option Value :=
  match dictGet r k with
  | none => none
  | some v => v

/-- Column from database_manager.py / tree_db.py. -/
structure Column where
  name : String
  data_type : String
  nullable : Bool
deriving DecidableEq, Repr

/-- A foreign-key declaration {fk_col, ref_table, ref_col}. -/
structure ForeignKey where
  fk_col : String
  ref_table : String
  ref_col : String
deriving DecidableEq, Repr

/-- TableSchema: columns keyed by name (kept in declaration order), the
primary-key column name (may be undefined), declared foreign keys. -/
structure TableSchema where
  name : String
  columns : List Column
  pk_name : Option String
  foreign_keys : List ForeignKey
deriving DecidableEq, Repr

/-- database_manager.TableSchema.get_pk_name: raises when pk_name is falsy
(None or empty). -/
def getPkName (s : TableSchema) : Option String :=
  match s.pk_name with
  | none => none
  | some p => if p = "" then none else some p

/-- isinstance(v, int): true for ints and bools. -/
def isinstance_int : Value → Bool
  | .int _ => true
  | .bool _ => true
  | _ => false

/-- isinstance(v, (int, float)): true for ints, bools and floats. -/
def isinstance_float : Value → Bool
  | .int _ => true
  | .bool _ => true
  | .float _ => true
  | _ => false

/-- isinstance(v, str). -/
def isinstance_str : Value → Bool
  | .str _ => true
  | _ => false

/-- isinstance(v, bool). -/
def isinstance_bool : Value → Bool
  | .bool _ => true
  | _ => false

/-- Splits a character list at every dash, as "s".split('-') does. -/
def splitDash : List Char → List (List Char)
  | [] => [[]]
  | c :: rest =>
    let r := splitDash rest
    if c = '-' then [] :: r
    else
      match r with
      | g :: gs => (c :: g) :: gs
      | [] => [[c]]

/-- Numeric value of a digit string. -/
def digitsToNat (l : List Char) : Nat :=
  l.foldl (fun a c => a * 10 + (c.toNat - 48)) 0

def isLeapYear (y : Nat) : Bool :=
  (y % 4 == 0 && y % 100 != 0) || y % 400 == 0

def daysInMonth (y m : Nat) : Nat :=
  if m = 2 then (if isLeapYear y then 29 else 28)
  else if m = 4 ∨ m = 6 ∨ m = 9 ∨ m = 11 then 30
  else 31

/-- datetime.strptime(value, "%Y-%m-%d") viability: exactly three
dash-separated all-digit fields — a 4-digit year (at least 0001, as
datetime rejects year 0), a 1-2 digit month 1..12 and a 1-2 digit day
valid for that month (leap-aware), with nothing else in the string. -/
def validDate (s : String) : Bool :=
  match splitDash s.toList with
  | [yl, ml, dl] =>
    yl.length == 4 && yl.all Char.isDigit &&
    (ml.length == 1 || ml.length == 2) && ml.all Char.isDigit &&
    (dl.length == 1 || dl.length == 2) && dl.all Char.isDigit &&
    (let y := digitsToNat yl
     let m := digitsToNat ml
     let d := digitsToNat dl
     decide (1 ≤ y) && decide (1 ≤ m) && decide (m ≤ 12) &&
       decide (1 ≤ d) && decide (d ≤ daysInMonth y m))
  | _ => false

/-- Errors of the two managers (ValueError / TypeError / KeyError sites,
plus faults of the embedding itself: arenaFault stands for a crash of the
malformed-tree kind, unmodeledKey for a non-integer tree key, which the
embedding's Int-keyed arena does not represent). -/
inductive DMErr where
  | tableNotFound
  | tableExists
  | unknownColumn (c : String)
  | notNullable (c : String)
  | typeMismatch (c : String)
  | badDateFormat (c : String)
  | missingPrimaryKey
  | nullPrimaryKey
  | duplicatePrimaryKey
  | foreignKeyViolation
  | referencedRow (other : String)
  | notFoundForDelete
  | keyError
  | arenaFault
  | unmodeledKey
deriving DecidableEq, Repr

/-- col_schema.data_type.lower(), over the character list so that concrete
strings evaluate. -/
def lowerString (s : String) : String :=
  String.mk (s.toList.map Char.toLower)

/-- Validation of one column of database_manager.DatabaseManager.insert
(its step 2): nullability, then the isinstance chain, then the date parse. -/
def checkColumnValue (col : Column) (v? : Option Value) : Option DMErr :=
  match v? with
  | none => if col.nullable then none else some (.notNullable col.name)
  | some v =>
    let et := lowerString col.data_type
    if et = "int" then
      (if isinstance_int v then none else some (.typeMismatch col.name))
    else if et = "float" then
      (if isinstance_float v then none else some (.typeMismatch col.name))
    else if et = "string" then
      (if isinstance_str v then none else some (.typeMismatch col.name))
    else if et = "boolean" then
      (if isinstance_bool v then none else some (.typeMismatch col.name))
    else if et = "date" then
      match v with
      | .str s => if validDate s then none else some (.badDateFormat col.name)
      | _ => some (.typeMismatch col.name)
    else none

/-- Step 1 of insert: the first record column that the schema does not
declare. -/
def findUnknown (cols : List Column) (r : Record) : Option String :=
  (r.map Prod.fst).find? (fun c => (cols.find? (fun col => col.name == c)).isNone)

/-- Step 2 of insert over every declared column, in declaration order. -/
def validateColumns (cols : List Column) (r : Record) : Option DMErr :=
  match cols with
  | [] => none
  | c :: rest =>
    match checkColumnValue c (recGet r c.name) with
    | some e => some e
    | none => validateColumns rest r

/-- database_manager.py's mock BPlusTree: a dict primary key → record. -/
abbrev MockTree : Type := List (Value × Record)

/-- The mock manager's state: the schema catalog (self.tables) and one mock
tree per table (self.data). -/
structure DMState where
  tables : List (String × TableSchema)
  data : List (String × MockTree)
deriving DecidableEq, Repr

/-- The FK loop of database_manager.DatabaseManager.insert. -/
def dmCheckFKs (σ : DMState) : List ForeignKey → Record → Option DMErr
  | [], _ => none
  | fk :: rest, r =>
    match recGet r fk.fk_col with
    | none => dmCheckFKs σ rest r
    | some fkv =>
      match dictGet σ.data fk.ref_table with
      | none => some .foreignKeyViolation
      | some rt =>
        match dictGet rt fkv with
        | none => some .foreignKeyViolation
        | some _ => dmCheckFKs σ rest r

/-- database_manager.DatabaseManager.insert, statement by statement: every
check precedes the single mutation in the last line, and an error returns
the state as it stood when the exception was raised. -/
def dmInsert (σ : DMState) (table : String) (r : Record) : DMState × Option DMErr :=
  match dictGet σ.tables table with
  | none => (σ, some .tableNotFound)
  | some schema =>
    match findUnknown schema.columns r with
    | some c => (σ, some (.unknownColumn c))
    | none =>
      match validateColumns schema.columns r with
      | some e => (σ, some e)
      | none =>
        match getPkName schema with
        | none => (σ, some .missingPrimaryKey)
        | some pk =>
          match recGet r pk with
          | none => (σ, some .nullPrimaryKey)
          | some pkv =>
            match dictGet σ.data table with
            | none => (σ, some .keyError)
            | some tree =>
              if (dictGet tree pkv).isSome then (σ, some .duplicatePrimaryKey)
              else
                match dmCheckFKs σ schema.foreign_keys r with
                | some e => (σ, some e)
                | none =>
                  ({ σ with data := dictSet σ.data table (dictSet tree pkv r) }, none)

/-- The filter predicate of select: all(r.get(k) == v for k, v in wc). -/
def recordMatches (r : Record) (wc : List (String × Value)) : Bool :=
  wc.all (fun kv =>
    match recGet r kv.1 with
    | some x => x == kv.2
    | none => false)

/-- database_manager.DatabaseManager.select.  A falsy where clause (absent
or empty) returns get_all; a one-binding clause on the primary key goes
through search, wrapping the hit in a singleton unless the record is falsy
(an empty dict); anything else filters get_all. -/
def dmSelect (σ : DMState) (table : String) (w : Option (List (String × Value))) :
    Except DMErr (List Record) :=
  match dictGet σ.data table with
  | none => .error .tableNotFound
  | some tree =>
    match dictGet σ.tables table with
    | none => .error .keyError
    | some schema =>
      match getPkName schema with
      | none => .error .missingPrimaryKey
      | some pk =>
        match w with
        | none => .ok (tree.map Prod.snd)
        | some wc =>
          if wc.isEmpty then .ok (tree.map Prod.snd)
          else if wc.length = 1 ∧ (dictGet wc pk).isSome then
            match dictGet wc pk with
            | some v =>
              match dictGet tree v with
              | none => .ok []
              | some rec => .ok (if rec.isEmpty then [] else [rec])
            | none => .ok []
          else
            .ok ((tree.map Prod.snd).filter (fun r => recordMatches r wc))

/-- The per-table FK scan of delete: for each declared FK of another table
that references the table being deleted from, a one-binding select probes
for rows holding pk_value in the referencing column. -/
def dmFkCheckTable (σ : DMState) (other : String) (table : String) (pkv : Value) :
    List ForeignKey → Option DMErr
  | [] => none
  | fk :: rest =>
    if fk.ref_table = table then
      match dmSelect σ other (some [(fk.fk_col, pkv)]) with
      | .error e => some e
      | .ok rs =>
        if rs.isEmpty then dmFkCheckTable σ other table pkv rest
        else some (.referencedRow other)
    else dmFkCheckTable σ other table pkv rest

/-- The outer scan of delete over every other table's schema. -/
def dmFkScan (σ : DMState) (table : String) (pkv : Value) :
    List (String × TableSchema) → Option DMErr
  | [] => none
  | (other, osch) :: rest =>
    if other = table then dmFkScan σ table pkv rest
    else
      match dmFkCheckTable σ other table pkv osch.foreign_keys with
      | some e => some e
      | none => dmFkScan σ table pkv rest

/-- del d[k] on the mock tree's dict. -/
def mockDelete (t : MockTree) (k : Value) : MockTree :=
  t.filter (fun p => !(p.1 == k))

/-- database_manager.DatabaseManager.delete: referential scan first, then
removal of the key, not-found when absent. -/
def dmDelete (σ : DMState) (table : String) (pkv : Value) : DMState × Option DMErr :=
  match dictGet σ.tables table with
  | none => (σ, some .tableNotFound)
  | some _ =>
    match dmFkScan σ table pkv σ.tables with
    | some e => (σ, some e)
    | none =>
      match dictGet σ.data table with
      | none => (σ, some .keyError)
      | some tree =>
        if (dictGet tree pkv).isSome then
          ({ σ with data := dictSet σ.data table (mockDelete tree pkv) }, none)
        else (σ, some .notFoundForDelete)

/-- The type-acceptance relation exactly as the spec words it: int needs an
integral value, float integral-or-fractional numeric, string text, boolean
a boolean, date a string parseable as YYYY-MM-DD. -/
def specTypeOk : String → Value → Bool
  | "int", .int _ => true
  | "float", .int _ => true
  | "float", .float _ => true
  | "string", .str _ => true
  | "boolean", .bool _ => true
  | "date", .str s => validDate s
  | _, _ => false

example : validDate "2024-01-15" = true := by decide

example : validDate "2024-13-40" = false := by decide

example : validDate "2024-02-29" = true := by decide

example : validDate "2023-02-29" = false := by decide

example : validDate "2024-1-5" = true := by decide

example : validDate "24-01-05" = false := by decide

example : validDate "2024-01-15x" = false := by decide

example : checkColumnValue ⟨"a", "int", true⟩ (some (Value.bool true)) = none := by decide

example : specTypeOk "int" (Value.bool true) = false := by decide

/-- tree_db.py's manager state: the schema catalog and one real B+ tree per
table.  The embedding's arena keys are Int, so records are keyed by their
integer primary-key value (the CLI always builds integer primary keys);
tdInsert reports unmodeledKey for any other key type. -/
structure TDState where
  tables : List (String × TableSchema)
  data : List (String × BPlusTree Record)
deriving DecidableEq, Repr

/-- tree_db.DatabaseManager.create_table: duplicate names rejected, a fresh
order-50 tree installed next to the schema. -/
def tdCreateTable (σ : TDState) (schema : TableSchema) : TDState × Option DMErr :=
  if (dictGet σ.tables schema.name).isSome then (σ, some .tableExists)
  else
    match BPlusTree.new Record 50 with
    | none => (σ, some .arenaFault)
    | some t =>
      ({ tables := dictSet σ.tables schema.name schema,
         data := dictSet σ.data schema.name t }, none)

/-- The FK loop of tree_db.DatabaseManager.insert, probing referenced
tables through the real tree's search. -/
def tdCheckFKs (σ : TDState) : List ForeignKey → Record → Option DMErr
  | [], _ => none
  | fk :: rest, r =>
    match recGet r fk.fk_col with
    | none => tdCheckFKs σ rest r
    | some fkv =>
      match dictGet σ.data fk.ref_table with
      | none => some .foreignKeyViolation
      | some rt =>
        match fkv with
        | .int kk =>
          match rt.search kk with
          | none => some .arenaFault
          | some none => some .foreignKeyViolation
          | some (some _) => tdCheckFKs σ rest r
        | _ => some .unmodeledKey

/-- tree_db.DatabaseManager.insert: table lookup, null-PK check, duplicate
check through tree.search, FK checks, then the raw tree insert (the only
mutation).  tree_db's get_pk_name returns pk_name unchecked; a None pk_name
makes record.get find nothing, landing in the null-PK error. -/
def tdInsert (σ : TDState) (tbl : String) (r : Record) : TDState × Option DMErr :=
  match dictGet σ.tables tbl with
  | none => (σ, some .tableNotFound)
  | some schema =>
    match (match schema.pk_name with
           | none => none
           | some pk => recGet r pk) with
    | none => (σ, some .nullPrimaryKey)
    | some pkv =>
      match dictGet σ.data tbl with
      | none => (σ, some .keyError)
      | some tree =>
        match pkv with
        | .int k =>
          match tree.search k with
          | none => (σ, some .arenaFault)
          | some (some _) => (σ, some .duplicatePrimaryKey)
          | some none =>
            match tdCheckFKs σ schema.foreign_keys r with
            | some e => (σ, some e)
            | none =>
              match tree.insert k r with
              | none => (σ, some .arenaFault)
              | some tree2 => ({ σ with data := dictSet σ.data tbl tree2 }, none)
        | _ => (σ, some .unmodeledKey)

/-- tree_db.DatabaseManager.select: same shape as the mock manager's select,
over the real tree. -/
def tdSelect (σ : TDState) (tbl : String) (w : Option (List (String × Value))) :
    Except DMErr (List Record) :=
  match dictGet σ.data tbl with
  | none => .error .tableNotFound
  | some tree =>
    match dictGet σ.tables tbl with
    | none => .error .keyError
    | some schema =>
      match w with
      | none =>
        match tree.get_all with
        | none => .error .arenaFault
        | some rs => .ok rs
      | some wc =>
        if wc.isEmpty then
          match tree.get_all with
          | none => .error .arenaFault
          | some rs => .ok rs
        else if wc.length = 1 ∧
            (match schema.pk_name with
             | some pk => (dictGet wc pk).isSome
             | none => false) = true then
          match (match schema.pk_name with
                 | some pk => dictGet wc pk
                 | none => none) with
          | some (Value.int k) =>
            match tree.search k with
            | none => .error .arenaFault
            | some none => .ok []
            | some (some rec) => .ok (if rec.isEmpty then [] else [rec])
          | some _ => .error .unmodeledKey
          | none => .ok []
        else
          match tree.get_all with
          | none => .error .arenaFault
          | some rs => .ok (rs.filter (fun r => recordMatches r wc))

/-- What save_to_disk writes: metadata.json (the schema catalog) and one
record list per table, each the table's get_all. -/
structure TDSnapshot where
  metadata : List (String × TableSchema)
  files : List (String × List Record)
deriving DecidableEq, Repr

/-- The per-table data files: json.dump(tree.get_all()) for each table. -/
def saveTables : List (String × BPlusTree Record) → Option (List (String × List Record))
  | [] => some []
  | (n, t) :: rest =>
    match t.get_all with
    | none => none
    | some rs => (saveTables rest).map ((n, rs) :: ·)

/-- tree_db.DatabaseManager.save_to_disk (none models a crash while walking
a malformed tree). -/
def tdSave (σ : TDState) : Option TDSnapshot :=
  (saveTables σ.data).map (fun fs => ⟨σ.tables, fs⟩)

/-- The replay loop of load_from_disk: each saved record goes through the
raw tree insert keyed by record[pk_name]. -/
def replayFor : Option String → BPlusTree Record → List Record → Option (BPlusTree Record)
  | _, t, [] => some t
  | none, _, _ :: _ => none
  | some pk, t, r :: rest =>
    match recGet r pk with
    | some (Value.int k) =>
      match t.insert k r with
      | none => none
      | some t2 => replayFor (some pk) t2 rest
    | _ => none

/-- load_from_disk's loop over the saved metadata: recreate each schema with
a fresh order-50 tree and replay that table's file. -/
def tdLoadGo (files : List (String × List Record)) :
    List (String × TableSchema) → TDState → Option TDState
  | [], σ => some σ
  | (name, schema) :: rest, σ =>
    match BPlusTree.new Record 50 with
    | none => none
    | some t0 =>
      match replayFor schema.pk_name t0
          (match dictGet files name with
           | some rs => rs
           | none => []) with
      | none => none
      | some t1 =>
        tdLoadGo files rest
          { tables := dictSet σ.tables name schema,
            data := dictSet σ.data name t1 }

/-- tree_db.DatabaseManager.load_from_disk into a fresh manager. -/
def tdLoad (snap : TDSnapshot) : Option TDState :=
  tdLoadGo snap.files snap.metadata ⟨[], []⟩

/-- One console command against the store, as the stages of the claims use
them: create a table or insert a record.  The CLI loop catches every
exception and keeps the manager, so a failed operation leaves the state of
the pair. -/
inductive TDOp where
  | create (schema : TableSchema)
  | insert (tbl : String) (r : Record)
deriving DecidableEq, Repr

def tdApply (σ : TDState) (op : TDOp) : TDState :=
  match op with
  | .create s => (tdCreateTable σ s).1
  | .insert tbl r => (tdInsert σ tbl r).1

/-- The store built by a command sequence on a fresh manager. -/
def buildTD (ops : List TDOp) : TDState :=
  ops.foldl tdApply ⟨[], []⟩

/-- Lookup in the abstract association list of a tree's contents. -/
def assocLookup {V : Type} : List (Int × V) → Int → Option V
  | [], _ => none
  | (a, b) :: rest, k => if k = a then some b else assocLookup rest k

/-- Well-formedness of a tree_db manager state, as every reachable state
satisfies it: catalog and data hold the same table names in the same order,
names are unique, every tree satisfies the arena invariant at order 50, and
every stored record carries its own key in its table's primary-key column. -/
def tdInv (σ : TDState) : Prop :=
  σ.tables.map Prod.fst = σ.data.map Prod.fst ∧
  (σ.data.map Prod.fst).Nodup ∧
  ∀ n tree, dictGet σ.data n = some tree →
    treeInv tree ∧ tree.order = 50 ∧
    ∀ k r, (k, r) ∈ contents tree →
      ∃ s pk, dictGet σ.tables n = some s ∧ s.pk_name = some pk ∧
        recGet r pk = some (Value.int k)

theorem assocLookup_zip {V : Type} (ks : List Int) (vs : List V) (k : Int)
    (hlen : ks.length = vs.length) :
    assocLookup (ks.zip vs) k =
      match pyIndex ks k with
      | some idx => vs[idx]?
      | none => none := by
  induction ks generalizing vs with
  | nil => cases vs <;> rfl
  | cons a rest ih =>
    cases vs with
    | nil => simp at hlen
    | cons b bs =>
      rw [zip_cons]
      show (if k = a then some b else assocLookup (rest.zip bs) k) = _
      by_cases hka : k = a
      · rw [if_pos hka]
        show _ = (match pyIndex (a :: rest) k with
                  | some idx => (b :: bs)[idx]?
                  | none => none)
        unfold pyIndex
        rw [if_pos hka.symm]
        show some b = (b :: bs)[0]?
        rw [List.getElem?_cons_zero]
      · rw [if_neg hka]
        show _ = (match pyIndex (a :: rest) k with
                  | some idx => (b :: bs)[idx]?
                  | none => none)
        unfold pyIndex
        rw [if_neg (fun h => hka h.symm)]
        rw [ih bs (by simpa using hlen)]
        cases hp : pyIndex rest k with
        | none => rfl
        | some j =>
          show bs[j]? = (match Option.map (fun x => x + 1) (some j) with
            | some idx => (b :: bs)[idx]?
            | none => none)
          rw [Option.map_some']
          show bs[j]? = (b :: bs)[j + 1]?
          rw [List.getElem?_cons_succ]

theorem assocLookup_eq_none {V : Type} (l : List (Int × V)) (k : Int)
    (h : ∀ p ∈ l, p.1 ≠ k) : assocLookup l k = none := by
  induction l with
  | nil => rfl
  | cons p rest ih =>
    obtain ⟨a, b⟩ := p
    show (if k = a then some b else assocLookup rest k) = none
    rw [if_neg (fun he => h (a, b) (List.mem_cons_self _ _) he.symm)]
    exact ih (fun q hq => h q (List.mem_cons_of_mem _ hq))

theorem assocLookup_append_skip {V : Type} (A B : List (Int × V)) (k : Int)
    (h : ∀ p ∈ A, p.1 ≠ k) : assocLookup (A ++ B) k = assocLookup B k := by
  induction A with
  | nil => rfl
  | cons p rest ih =>
    obtain ⟨a, b⟩ := p
    show (if k = a then some b else assocLookup (rest ++ B) k) = _
    rw [if_neg (fun he => h (a, b) (List.mem_cons_self _ _) he.symm)]
    exact ih (fun q hq => h q (List.mem_cons_of_mem _ hq))

theorem assocLookup_append_stop {V : Type} (A B : List (Int × V)) (k : Int)
    (h : ∀ p ∈ B, p.1 ≠ k) : assocLookup (A ++ B) k = assocLookup A k := by
  induction A with
  | nil =>
    show assocLookup B k = none
    exact assocLookup_eq_none B k h
  | cons p rest ih =>
    obtain ⟨a, b⟩ := p
    show (if k = a then some b else assocLookup (rest ++ B) k) =
      (if k = a then some b else assocLookup rest k)
    by_cases hka : k = a
    · rw [if_pos hka, if_pos hka]
    · rw [if_neg hka, if_neg hka]
      exact ih

theorem assocLookup_isSome_iff {V : Type} (l : List (Int × V)) (k : Int) :
    (assocLookup l k).isSome = true ↔ k ∈ l.map Prod.fst := by
  induction l with
  | nil => simp [assocLookup]
  | cons p rest ih =>
    obtain ⟨a, b⟩ := p
    show (if k = a then some b else assocLookup rest k).isSome = true ↔ _
    by_cases hka : k = a
    · rw [if_pos hka]
      simp [hka]
    · rw [if_neg hka]
      rw [ih]
      simp [hka]

/-- Evaluation of search at the leaf the descent found. -/
theorem search_leaf_eval {V : Type} (t : BPlusTree V) (li : Nat) (n : BPlusTreeNode V)
    (vs : List V) (k : Int)
    (hfind : _find_leaf t k = some li)
    (hn : t.nodes[li]? = some n)
    (hncv : n.children_or_values = vs.map CV.val)
    (hlen : vs.length = n.keys.length) :
    t.search k = some (assocLookup (n.keys.zip vs) k) := by
  simp only [BPlusTree.search, hfind, hn]
  rw [assocLookup_zip n.keys vs k hlen.symm]
  cases hp : pyIndex n.keys k with
  | none => rfl
  | some idx =>
    obtain ⟨hlt, hkq⟩ := pyIndex_some hp
    obtain ⟨v, hv⟩ : ∃ v, vs[idx]? = some v := by
      have hvlt : idx < vs.length := by omega
      exact ⟨vs.get ⟨idx, hvlt⟩, List.getElem?_eq_getElem hvlt⟩
    rw [hncv]
    show (match (List.map CV.val vs)[idx]? with
          | some (CV.val v) => some (some v)
          | _ => none) = some vs[idx]?
    rw [List.getElem?_map, hv, Option.map_some']

/-- search on an invariant tree is association lookup in its contents. -/
theorem search_spec {V : Type} (t : BPlusTree V) (k : Int) (hinv : treeInv t) :
    t.search k = some (assocLookup (contents t) k) := by
  obtain ⟨hd, r, hr, hcase⟩ := hinv
  have hrlt : t.root < t.nodes.length := getElem?_some_lt hr
  rcases hcase with ⟨hleaf, hnext, hshape⟩ |
    ⟨hleaf, hord, hkne, hsort, cs, hcv, hcslen, hroot, hnd, hmem, hchain, hroute⟩
  · obtain ⟨_, _, hsort2, _, vs, hcvv, hvslen⟩ := hshape
    have hfind : _find_leaf t k = some t.root := by
      unfold _find_leaf
      rw [findLeafP_root_leaf t k r hr hleaf _ _]
      rfl
    rw [contents_root_leaf t r vs hr hleaf hcvv]
    exact search_leaf_eval t t.root r vs k hfind hr hcvv hvslen
  · have hile : bisect_right r.keys k ≤ r.keys.length := bisect_right_le_length r.keys k
    have hblt : bisect_right r.keys k < cs.length := by omega
    have hli : cs[bisect_right r.keys k]? = some (cs.get ⟨bisect_right r.keys k, hblt⟩) :=
      List.getElem?_eq_getElem hblt
    set i := bisect_right r.keys k with hi
    set li := cs.get ⟨i, hblt⟩ with hlidef
    have hlimem : li ∈ cs := List.getElem_mem hblt
    obtain ⟨n, hn, hnleaf, hnord, hnsort, hnlen, vs, hncv, hnvslen⟩ := hmem li hlimem
    have hfuel : t.nodes.length + 1 = (t.nodes.length - 1) + 2 := by omega
    have hfind : _find_leaf t k = some li := by
      unfold _find_leaf
      rw [hfuel, findLeafP_two_level t k r n cs li hr hleaf hcv hli hn hnleaf _ _]
      rfl
    set T := cs.take i with hT
    set D := cs.drop (i + 1) with hD
    have hdecomp : cs = T ++ li :: D := by
      have h1 := List.take_append_drop i cs
      have h2 := List.getElem_cons_drop cs i hblt
      rw [← h2] at h1
      exact h1.symm
    have hpli : pairsAt t li = n.keys.zip vs := by
      unfold pairsAt
      rw [hn]
      show leafPairs n = _
      unfold leafPairs
      rw [hncv, cvVals_map_val]
    have hcontents : contents t =
        (T.map (pairsAt t)).flatten ++ (n.keys.zip vs ++ (D.map (pairsAt t)).flatten) := by
      rw [contents_internal_root t r cs hr hleaf hcv, hdecomp, flatten_map_decomp, hpli]
    have hpre : ∀ p ∈ (T.map (pairsAt t)).flatten, p.1 < k :=
      prefix_pairs_lt t r.keys cs k hroute
    have hsuf : ∀ p ∈ (D.map (pairsAt t)).flatten, k < p.1 :=
      suffix_pairs_gt t r.keys cs k hroute
    rw [hcontents,
      assocLookup_append_skip _ _ k (fun p hp => by have := hpre p hp; omega),
      assocLookup_append_stop _ _ k (fun p hp => by have := hsuf p hp; omega)]
    exact search_leaf_eval t li n vs k hfind hn hncv hnvslen

theorem dictGet_mem {κ α : Type} [DecidableEq κ] {l : List (κ × α)} {k : κ} {v : α}
    (h : dictGet l k = some v) : (k, v) ∈ l := by
  induction l with
  | nil => simp [dictGet] at h
  | cons p rest ih =>
    unfold dictGet at h
    split at h
    · rename_i he
      obtain ⟨a, b⟩ := p
      have ha : a = k := he
      have hb : b = v := Option.some_inj.mp h
      subst ha
      subst hb
      exact List.mem_cons_self _ _
    · exact List.mem_cons_of_mem _ (ih h)

theorem dictGet_isSome_iff {κ α : Type} [DecidableEq κ] (l : List (κ × α)) (k : κ) :
    (dictGet l k).isSome = true ↔ k ∈ l.map Prod.fst := by
  induction l with
  | nil => simp [dictGet]
  | cons p rest ih =>
    unfold dictGet
    by_cases he : p.1 = k
    · rw [if_pos he]
      simp [he]
    · rw [if_neg he]
      rw [ih, List.map_cons, List.mem_cons]
      constructor
      · exact Or.inr
      · intro h2
        rcases h2 with h2 | h2
        · exact absurd h2.symm he
        · exact h2

theorem dictGet_of_mem_nodup {κ α : Type} [DecidableEq κ] {l : List (κ × α)}
    (hnd : (l.map Prod.fst).Nodup) {p : κ × α} (hp : p ∈ l) : dictGet l p.1 = some p.2 := by
  induction l with
  | nil => simp at hp
  | cons q rest ih =>
    rw [List.map_cons, List.nodup_cons] at hnd
    rcases List.mem_cons.mp hp with rfl | hp
    · unfold dictGet
      rw [if_pos rfl]
    · unfold dictGet
      rw [if_neg (fun he => hnd.1 (by rw [he]; exact List.mem_map_of_mem Prod.fst hp))]
      exact ih hnd.2 hp

theorem dictGet_set_self {κ α : Type} [DecidableEq κ] (l : List (κ × α)) (k : κ) (v : α) :
    dictGet (dictSet l k v) k = some v := by
  induction l with
  | nil =>
    show dictGet [(k, v)] k = some v
    unfold dictGet
    rw [if_pos rfl]
  | cons p rest ih =>
    unfold dictSet
    by_cases he : p.1 = k
    · rw [if_pos he]
      unfold dictGet
      rw [if_pos rfl]
    · rw [if_neg he]
      unfold dictGet
      rw [if_neg he]
      exact ih

theorem dictGet_set_ne {κ α : Type} [DecidableEq κ] (l : List (κ × α)) (k k2 : κ) (v : α)
    (h : k2 ≠ k) : dictGet (dictSet l k v) k2 = dictGet l k2 := by
  induction l with
  | nil =>
    show dictGet [(k, v)] k2 = none
    unfold dictGet
    rw [if_neg (fun he => h he.symm)]
    rfl
  | cons p rest ih =>
    unfold dictSet
    by_cases he : p.1 = k
    · rw [if_pos he]
      unfold dictGet
      rw [if_neg (fun h2 => h h2.symm), if_neg (fun h2 => h (he.symm.trans h2).symm)]
    · rw [if_neg he]
      unfold dictGet
      by_cases h3 : p.1 = k2
      · rw [if_pos h3, if_pos h3]
      · rw [if_neg h3, if_neg h3]
        exact ih

theorem dictSet_map_fst_mem {κ α : Type} [DecidableEq κ] (l : List (κ × α)) (k : κ) (v : α)
    (h : k ∈ l.map Prod.fst) : (dictSet l k v).map Prod.fst = l.map Prod.fst := by
  induction l with
  | nil => simp at h
  | cons p rest ih =>
    unfold dictSet
    by_cases he : p.1 = k
    · rw [if_pos he]
      rw [List.map_cons, List.map_cons, he]
    · rw [if_neg he]
      rw [List.map_cons, List.map_cons, ih]
      rw [List.map_cons, List.mem_cons] at h
      rcases h with h | h
      · exact absurd h.symm he
      · exact h

/-- C4: an insert that fails any validation check (unknown column,
nullability, type or date format, null or duplicate primary key, dangling
foreign key, or a missing table) leaves the manager exactly as it was:
every check precedes the single mutation, so the state component of the
result is the input state, and select answers over it are unchanged. -/
theorem C4_failed_insert_frame (σ : DMState) (tbl : String) (r : Record) (e : DMErr)
    (h : (dmInsert σ tbl r).2 = some e) :
    (dmInsert σ tbl r).1 = σ ∧
    ∀ (tbl2 : String) (w : Option (List (String × Value))),
      dmSelect (dmInsert σ tbl r).1 tbl2 w = dmSelect σ tbl2 w := by
  have h1 : (dmInsert σ tbl r).1 = σ := by
    unfold dmInsert at h ⊢
    repeat' split
    all_goals try rfl
    all_goals simp only [*] at h
    all_goals simp at h
  exact ⟨h1, fun tbl2 w => by rw [h1]⟩

/-- The example schema used by the witnesses: one table named t with an
integer primary key id. -/
def exSchema : TableSchema := ⟨"t", [⟨"id", "int", false⟩], some "id", []⟩

/-- A mock-manager state holding table t, still empty. -/
def exDM : DMState := ⟨[("t", exSchema)], [("t", [])]⟩

theorem C4_witness :
    (dmInsert exDM "t" [("id", some (Value.str "x"))]).1 = exDM ∧
    dmSelect (dmInsert exDM "t" [("id", some (Value.str "x"))]).1 "t" none =
      dmSelect exDM "t" none :=
  ⟨(C4_failed_insert_frame exDM "t" [("id", some (Value.str "x"))]
      (DMErr.typeMismatch "id") (by decide)).1,
   (C4_failed_insert_frame exDM "t" [("id", some (Value.str "x"))]
      (DMErr.typeMismatch "id") (by decide)).2 "t" none⟩

/-- C10: on an existing table, a select whose filter is exactly the primary
key with an absent key value answers the empty list rather than raising;
and the only way select raises its table-not-found error is that the table
really is absent from the store's data. -/
theorem C10_select_pk_miss (σ : DMState) (tbl pk : String) (schema : TableSchema)
    (tree : MockTree) (v : Value)
    (hdata : dictGet σ.data tbl = some tree)
    (htab : dictGet σ.tables tbl = some schema)
    (hpk : getPkName schema = some pk)
    (hmiss : dictGet tree v = none) :
    dmSelect σ tbl (some [(pk, v)]) = Except.ok [] ∧
    ∀ (σ2 : DMState) (tbl2 : String) (w : Option (List (String × Value))),
      dmSelect σ2 tbl2 w = Except.error DMErr.tableNotFound ↔ dictGet σ2.data tbl2 = none := by
  constructor
  · have hwc : dictGet [(pk, v)] pk = some v := by
      unfold dictGet
      rw [if_pos rfl]
    simp only [dmSelect, hdata, htab, hpk]
    rw [if_neg (by simp), if_pos ⟨rfl, by rw [hwc]; rfl⟩, hwc]
    show (match dictGet tree v with
          | none => Except.ok []
          | some rec => Except.ok (if rec.isEmpty then [] else [rec])) = Except.ok []
    rw [hmiss]
  · intro σ2 tbl2 w
    constructor
    · intro he
      cases hd2 : dictGet σ2.data tbl2 with
      | none => rfl
      | some tree2 =>
        exfalso
        simp only [dmSelect, hd2] at he
        repeat' split at he
        all_goals simp at he
    · intro hnone
      simp only [dmSelect, hnone]

/-- A one-record example store for the select witnesses. -/
def exDM2 : DMState :=
  ⟨[("t", exSchema)], [("t", [(Value.int 3, [("id", some (Value.int 3))])])]⟩

theorem C10_witness :
    dmSelect exDM2 "t" (some [("id", Value.int 7)]) = Except.ok [] ∧
    (dmSelect exDM2 "u" none = Except.error DMErr.tableNotFound ↔
      dictGet exDM2.data "u" = none) :=
  ⟨(C10_select_pk_miss exDM2 "t" "id" exSchema
      [(Value.int 3, [("id", some (Value.int 3))])] (Value.int 7)
      (by decide) (by decide) (by decide) (by decide)).1,
   (C10_select_pk_miss exDM2 "t" "id" exSchema
      [(Value.int 3, [("id", some (Value.int 3))])] (Value.int 7)
      (by decide) (by decide) (by decide) (by decide)).2 exDM2 "u" none⟩

theorem lowerString_int : lowerString "int" = "int" := by decide

theorem lowerString_float : lowerString "float" = "float" := by decide

theorem lowerString_string : lowerString "string" = "string" := by decide

theorem lowerString_boolean : lowerString "boolean" = "boolean" := by decide

theorem lowerString_date : lowerString "date" = "date" := by decide

/-- C6, corrected: for the five declared types, a present value passes the
insert's type validation exactly when the spec's exact-type relation accepts
it or the value is a boolean and the column is int or float — Python's bool
is a subclass of int, so isinstance lets booleans through the int and float
checks; everything else, including both date examples, is as the claim
states.  An absent or null value passes exactly when the column is
nullable. -/
theorem C6_type_validation (col : Column)
    (hct : col.data_type = "int" ∨ col.data_type = "float" ∨ col.data_type = "string" ∨
      col.data_type = "boolean" ∨ col.data_type = "date") :
    (∀ v, checkColumnValue col (some v) = none ↔
      (specTypeOk col.data_type v = true ∨
        (isinstance_bool v = true ∧
          (col.data_type = "int" ∨ col.data_type = "float")))) ∧
    (checkColumnValue col none = none ↔ col.nullable = true) := by
  constructor
  · intro v
    rcases hct with h | h | h | h | h <;>
      rw [show checkColumnValue col (some v) =
            checkColumnValue ⟨col.name, col.data_type, col.nullable⟩ (some v) from rfl] <;>
      rw [h] <;>
      cases v <;>
        simp [checkColumnValue, lowerString_int, lowerString_float, lowerString_string,
          lowerString_boolean, lowerString_date, isinstance_int, isinstance_float,
          isinstance_str, isinstance_bool, specTypeOk]
  · by_cases hn : col.nullable <;> simp [checkColumnValue, hn]

/-- C6 counterexample to the claim's "matches the declared data_type
exactly": the insert validation accepts True for an int column although its
concrete type is bool, because isinstance(True, int) holds in Python. -/
theorem C6_bool_passes_int :
    checkColumnValue ⟨"n", "int", true⟩ (some (Value.bool true)) = none ∧
    specTypeOk "int" (Value.bool true) = false ∧
    checkColumnValue ⟨"x", "float", true⟩ (some (Value.bool false)) = none ∧
    specTypeOk "float" (Value.bool false) = false := by
  refine ⟨by decide, by decide, by decide, by decide⟩

theorem C6_witness :
    (checkColumnValue ⟨"d", "date", true⟩ (some (Value.str "2024-01-15")) = none ↔
      (specTypeOk (Column.mk "d" "date" true).data_type (Value.str "2024-01-15") = true ∨
        (isinstance_bool (Value.str "2024-01-15") = true ∧
          ((Column.mk "d" "date" true).data_type = "int" ∨
            (Column.mk "d" "date" true).data_type = "float")))) ∧
    (checkColumnValue ⟨"d", "date", true⟩ none = none ↔
      (Column.mk "d" "date" true).nullable = true) :=
  ⟨(C6_type_validation ⟨"d", "date", true⟩
      (Or.inr (Or.inr (Or.inr (Or.inr rfl))))).1 (Value.str "2024-01-15"),
   (C6_type_validation ⟨"d", "date", true⟩
      (Or.inr (Or.inr (Or.inr (Or.inr rfl))))).2⟩

/-- C3: the table-store insert rejects a record whose primary-key value is
absent or null with the null-key integrity error, and one whose key is
already stored with the duplicate-key integrity error — both before any
tree mutation, so the state comes back unchanged and the stored record is
not overwritten; the duplicate check (via tree search) runs before the
tree's own overwrite-on-match insert could fire. -/
theorem C3_pk_rejection (σ : TDState) (tbl : String) (r : Record)
    (schema : TableSchema) (tree : BPlusTree Record)
    (hsch : dictGet σ.tables tbl = some schema)
    (hdata : dictGet σ.data tbl = some tree)
    (hinv : treeInv tree) :
    ((match schema.pk_name with
      | none => none
      | some pk => recGet r pk) = none →
      tdInsert σ tbl r = (σ, some DMErr.nullPrimaryKey)) ∧
    (∀ pk k old, schema.pk_name = some pk → recGet r pk = some (Value.int k) →
      assocLookup (contents tree) k = some old →
      tdInsert σ tbl r = (σ, some DMErr.duplicatePrimaryKey)) := by
  constructor
  · intro hnull
    simp only [tdInsert, hsch, hnull]
  · intro pk k old hpk hget hlook
    have hsearch : tree.search k = some (some old) := by
      rw [search_spec tree k hinv, hlook]
    simp only [tdInsert, hsch, hpk, hget, hdata, hsearch]

/-- The example real-tree store used by the C3 witness: table t holding the
single record {id: 1} under key 1. -/
def exTree : BPlusTree Record :=
  ⟨50, [⟨50, true, [1], [CV.val [("id", some (Value.int 1))]], none⟩], 0⟩

def exTD : TDState := ⟨[("t", exSchema)], [("t", exTree)]⟩

theorem exTree_inv : treeInv exTree :=
  ⟨by decide, ⟨50, true, [1], [CV.val [("id", some (Value.int 1))]], none⟩, by decide,
    Or.inl ⟨rfl, rfl, rfl, rfl, by decide, by decide,
      [[("id", some (Value.int 1))]], rfl, rfl⟩⟩

theorem C3_witness :
    tdInsert exTD "t" [("name", some (Value.str "x"))] = (exTD, some DMErr.nullPrimaryKey) ∧
    tdInsert exTD "t" [("id", some (Value.int 1)), ("name", some (Value.str "y"))] =
      (exTD, some DMErr.duplicatePrimaryKey) :=
  ⟨(C3_pk_rejection exTD "t" [("name", some (Value.str "x"))] exSchema exTree
      (by decide) (by decide) exTree_inv).1 (by decide),
   (C3_pk_rejection exTD "t" [("id", some (Value.int 1)), ("name", some (Value.str "y"))]
      exSchema exTree (by decide) (by decide) exTree_inv).2 "id" 1
      [("id", some (Value.int 1))] rfl (by decide) (by decide)⟩

/-- Key coherence of one stored pair: the record carries its own key in its
table's primary-key column. -/
def pkCoherent (σ : DMState) (n : String) (kr : Value × Record) : Bool :=
  match dictGet σ.tables n with
  | some s =>
    match getPkName s with
    | some pk => recGet kr.2 pk == some kr.1
    | none => false
  | none => false

/-- Well-formedness of a mock-manager state, true of every state the manager
builds: catalog and data list the same table names in the same order, names
are unique, every table has a primary key, and every stored record is a
nonempty dict keyed by its own primary-key value. -/
def dmWF (σ : DMState) : Prop :=
  σ.tables.map Prod.fst = σ.data.map Prod.fst ∧
  (σ.tables.map Prod.fst).Nodup ∧
  (∀ p ∈ σ.tables, (getPkName p.2).isSome = true) ∧
  ∀ nd ∈ σ.data, ∀ kr ∈ nd.2, kr.2 ≠ [] ∧ pkCoherent σ nd.1 kr = true

theorem pkCoherent_elim {σ : DMState} {n : String} {kr : Value × Record}
    {s : TableSchema} {pk : String}
    (h : pkCoherent σ n kr = true)
    (htab : dictGet σ.tables n = some s) (hpk : getPkName s = some pk) :
    recGet kr.2 pk = some kr.1 := by
  simp only [pkCoherent, htab, hpk, beq_iff_eq] at h
  exact h

theorem recordMatches_single (r : Record) (col : String) (v : Value) :
    recordMatches r [(col, v)] = true ↔ recGet r col = some v := by
  unfold recordMatches
  rw [List.all_cons, List.all_nil, Bool.and_true]
  cases hg : recGet r col with
  | none => simp
  | some x => simp [beq_iff_eq]

/-- What a one-binding select sees on a well-formed store: it always
succeeds, and the result is empty exactly when no stored record holds the
probed value in the probed column. -/
theorem dmSelect_probe (σ : DMState) (other : String) (tr : MockTree) (s : TableSchema)
    (pk : String)
    (hWF : dmWF σ)
    (hdata : dictGet σ.data other = some tr)
    (htab : dictGet σ.tables other = some s)
    (hpk : getPkName s = some pk) (col : String) (v : Value) :
    ∃ rs, dmSelect σ other (some [(col, v)]) = Except.ok rs ∧
      (rs = [] ↔ ∀ kr ∈ tr, recGet kr.2 col ≠ some v) := by
  have hcoh : ∀ kr ∈ tr, kr.2 ≠ [] ∧ recGet kr.2 pk = some kr.1 := by
    intro kr hkr
    have hmemd := dictGet_mem hdata
    have hh := hWF.2.2.2 (other, tr) hmemd kr hkr
    exact ⟨hh.1, pkCoherent_elim hh.2 htab hpk⟩
  by_cases hcp : col = pk
  · subst hcp
    have hwc : dictGet [(col, v)] col = some v := by
      unfold dictGet
      rw [if_pos rfl]
    cases hdt : dictGet tr v with
    | none =>
      refine ⟨[], ?_, ?_⟩
      · simp only [dmSelect, hdata, htab, hpk]
        rw [if_neg (by simp), if_pos ⟨rfl, by rw [hwc]; rfl⟩, hwc]
        show (match dictGet tr v with
              | none => Except.ok []
              | some rec => Except.ok (if rec.isEmpty then [] else [rec])) =
          Except.ok ([] : List Record)
        rw [hdt]
      · refine ⟨fun _ kr hkr hgv => ?_, fun _ => rfl⟩
        have h1 : some kr.1 = some v := ((hcoh kr hkr).2).symm.trans hgv
        have h2 : kr.1 = v := Option.some_inj.mp h1
        have h3 : (dictGet tr v).isSome = true := by
          rw [dictGet_isSome_iff, ← h2]
          exact List.mem_map_of_mem Prod.fst hkr
        rw [hdt] at h3
        simp at h3
    | some rec =>
      have hrecmem := dictGet_mem hdt
      have hrecne : rec ≠ [] := (hcoh (v, rec) hrecmem).1
      refine ⟨[rec], ?_, ?_⟩
      · simp only [dmSelect, hdata, htab, hpk]
        rw [if_neg (by simp), if_pos ⟨rfl, by rw [hwc]; rfl⟩, hwc]
        show (match dictGet tr v with
              | none => Except.ok []
              | some rec => Except.ok (if rec.isEmpty then [] else [rec])) =
          Except.ok [rec]
        rw [hdt]
        show Except.ok (if List.isEmpty rec = true then [] else [rec]) = Except.ok [rec]
        rw [if_neg (by simp [hrecne])]
      · constructor
        · intro h
          simp at h
        · intro hall
          exact absurd ((hcoh (v, rec) hrecmem).2) (hall (v, rec) hrecmem)
  · have hwcpk : dictGet [(col, v)] pk = none := by
      unfold dictGet
      rw [if_neg hcp]
      rfl
    refine ⟨(tr.map Prod.snd).filter (fun r => recordMatches r [(col, v)]), ?_, ?_⟩
    · simp only [dmSelect, hdata, htab, hpk]
      rw [if_neg (by simp),
        if_neg (fun hco => absurd hco.2 (by rw [hwcpk]; simp))]
    · rw [List.filter_eq_nil]
      constructor
      · intro hall kr hkr hgv
        exact hall kr.2 (List.mem_map_of_mem Prod.snd hkr)
          ((recordMatches_single kr.2 col v).mpr hgv)
      · intro hall a ha hm
        obtain ⟨kr, hkr, rfl⟩ := List.mem_map.mp ha
        exact hall kr hkr ((recordMatches_single kr.2 col v).mp hm)

/-- The referencing-row predicate of the claim, over a list of candidate
referencing tables. -/
def dmReferencedIn (σ : DMState) (table : String) (pkv : Value)
    (ts : List (String × TableSchema)) : Prop :=
  ∃ p ∈ ts, p.1 ≠ table ∧ ∃ fk ∈ p.2.foreign_keys, fk.ref_table = table ∧
    ∃ tr, dictGet σ.data p.1 = some tr ∧ ∃ kr ∈ tr, recGet kr.2 fk.fk_col = some pkv

/-- Some other table of the store holds a row whose declared referencing
column equals the key being deleted. -/
def dmReferenced (σ : DMState) (table : String) (pkv : Value) : Prop :=
  dmReferencedIn σ table pkv σ.tables

/-- The per-table FK loop of delete on a well-formed store: it either finds
nothing (exactly when no declared referencing column of this table holds
the key) or reports the referenced-row error for this table. -/
theorem dmFkCheckTable_spec (σ : DMState) (other table : String) (pkv : Value)
    (tr : MockTree) (s : TableSchema) (pk : String)
    (hWF : dmWF σ)
    (hdata : dictGet σ.data other = some tr)
    (htab : dictGet σ.tables other = some s)
    (hpk : getPkName s = some pk) :
    ∀ fks : List ForeignKey,
      (dmFkCheckTable σ other table pkv fks = none ↔
        ∀ fk ∈ fks, fk.ref_table = table →
          ∀ kr ∈ tr, recGet kr.2 fk.fk_col ≠ some pkv) ∧
      (dmFkCheckTable σ other table pkv fks = none ∨
        dmFkCheckTable σ other table pkv fks = some (DMErr.referencedRow other)) := by
  intro fks
  induction fks with
  | nil => exact ⟨by simp [dmFkCheckTable], Or.inl rfl⟩
  | cons fk rest ih =>
    have hstep : dmFkCheckTable σ other table pkv (fk :: rest) =
        (if fk.ref_table = table then
          match dmSelect σ other (some [(fk.fk_col, pkv)]) with
          | Except.error e => some e
          | Except.ok rs =>
            if rs.isEmpty then dmFkCheckTable σ other table pkv rest
            else some (DMErr.referencedRow other)
        else dmFkCheckTable σ other table pkv rest) := rfl
    by_cases hrt : fk.ref_table = table
    · obtain ⟨rs, hsel, hiff⟩ := dmSelect_probe σ other tr s pk hWF hdata htab hpk fk.fk_col pkv
      by_cases hrs : rs = []
      · have hred : dmFkCheckTable σ other table pkv (fk :: rest) =
            dmFkCheckTable σ other table pkv rest := by
          rw [hstep, if_pos hrt, hsel]
          show (if rs.isEmpty then dmFkCheckTable σ other table pkv rest
                else some (DMErr.referencedRow other)) = _
          rw [if_pos (List.isEmpty_iff.mpr hrs)]
        rw [hred]
        refine ⟨?_, ih.2⟩
        rw [ih.1, List.forall_mem_cons]
        constructor
        · intro hall
          exact ⟨fun _ => hiff.mp hrs, hall⟩
        · intro hall
          exact hall.2
      · have hred : dmFkCheckTable σ other table pkv (fk :: rest) =
            some (DMErr.referencedRow other) := by
          rw [hstep, if_pos hrt, hsel]
          show (if rs.isEmpty then dmFkCheckTable σ other table pkv rest
                else some (DMErr.referencedRow other)) = _
          rw [if_neg (fun he => hrs (List.isEmpty_iff.mp he))]
        rw [hred]
        refine ⟨?_, Or.inr rfl⟩
        constructor
        · intro h
          simp at h
        · intro hall
          exact absurd (hiff.mpr (fun kr hkr => hall fk (List.mem_cons_self _ _) hrt kr hkr))
            hrs
    · have hred : dmFkCheckTable σ other table pkv (fk :: rest) =
          dmFkCheckTable σ other table pkv rest := by
        rw [hstep, if_neg hrt]
      rw [hred]
      refine ⟨?_, ih.2⟩
      rw [ih.1, List.forall_mem_cons]
      constructor
      · intro hall
        exact ⟨fun hc => absurd hc hrt, hall⟩
      · intro hall
        exact hall.2

/-- The outer FK scan of delete on a well-formed store: none exactly when no
candidate table references the key; otherwise a referenced-row error. -/
theorem dmFkScan_spec (σ : DMState) (table : String) (pkv : Value) (hWF : dmWF σ) :
    ∀ ts : List (String × TableSchema), (∀ p ∈ ts, p ∈ σ.tables) →
      (dmFkScan σ table pkv ts = none ↔ ¬ dmReferencedIn σ table pkv ts) ∧
      (dmFkScan σ table pkv ts = none ∨
        ∃ o, dmFkScan σ table pkv ts = some (DMErr.referencedRow o)) := by
  intro ts
  induction ts with
  | nil =>
    intro _
    exact ⟨by simp [dmFkScan, dmReferencedIn], Or.inl rfl⟩
  | cons p rest ih =>
    intro hsub
    obtain ⟨other, osch⟩ := p
    obtain ⟨ih1, ih2⟩ := ih (fun q hq => hsub q (List.mem_cons_of_mem _ hq))
    have hstep : dmFkScan σ table pkv ((other, osch) :: rest) =
        (if other = table then dmFkScan σ table pkv rest
         else
           match dmFkCheckTable σ other table pkv osch.foreign_keys with
           | some e => some e
           | none => dmFkScan σ table pkv rest) := rfl
    have hrefcons : dmReferencedIn σ table pkv ((other, osch) :: rest) ↔
        ((other ≠ table ∧ ∃ fk ∈ osch.foreign_keys, fk.ref_table = table ∧
          ∃ tr, dictGet σ.data other = some tr ∧
            ∃ kr ∈ tr, recGet kr.2 fk.fk_col = some pkv) ∨
          dmReferencedIn σ table pkv rest) := by
      unfold dmReferencedIn
      rw [List.exists_mem_cons_iff]
    by_cases heq : other = table
    · have hred : dmFkScan σ table pkv ((other, osch) :: rest) =
          dmFkScan σ table pkv rest := by
        rw [hstep, if_pos heq]
      rw [hred]
      refine ⟨?_, ih2⟩
      rw [ih1, hrefcons]
      constructor
      · intro hnr hor
        rcases hor with hor | hor
        · exact hor.1 heq
        · exact hnr hor
      · intro hnr hr
        exact hnr (Or.inr hr)
    · have hmem := hsub (other, osch) (List.mem_cons_self _ _)
      have htab : dictGet σ.tables other = some osch := dictGet_of_mem_nodup hWF.2.1 hmem
      obtain ⟨pk, hpk⟩ := Option.isSome_iff_exists.mp (hWF.2.2.1 (other, osch) hmem)
      obtain ⟨tr, hdata⟩ := Option.isSome_iff_exists.mp
        (show (dictGet σ.data other).isSome = true by
          rw [dictGet_isSome_iff, ← hWF.1]
          exact List.mem_map_of_mem Prod.fst hmem)
      obtain ⟨hciff, hcshape⟩ := dmFkCheckTable_spec σ other table pkv tr osch pk hWF
        hdata htab hpk osch.foreign_keys
      rcases hcshape with hc | hc
      · have hred : dmFkScan σ table pkv ((other, osch) :: rest) =
            dmFkScan σ table pkv rest := by
          rw [hstep, if_neg heq, hc]
        rw [hred]
        refine ⟨?_, ih2⟩
        rw [ih1, hrefcons]
        have hnone := hciff.mp hc
        constructor
        · intro hnr hor
          rcases hor with hor | hor
          · obtain ⟨fk, hfk, hrt, tr2, hdata2, kr, hkr, hgv⟩ := hor.2
            have htr2 : tr2 = tr := by
              rw [hdata2] at hdata
              exact Option.some_inj.mp hdata
            subst htr2
            exact hnone fk hfk hrt kr hkr hgv
          · exact hnr hor
        · intro hnr hr
          exact hnr (Or.inr hr)
      · have hred : dmFkScan σ table pkv ((other, osch) :: rest) =
            some (DMErr.referencedRow other) := by
          rw [hstep, if_neg heq, hc]
        rw [hred]
        refine ⟨?_, Or.inr ⟨other, rfl⟩⟩
        constructor
        · intro h
          simp at h
        · intro hnr
          exfalso
          apply hnr
          rw [hrefcons]
          by_cases hall : ∀ fk ∈ osch.foreign_keys, fk.ref_table = table →
              ∀ kr ∈ tr, recGet kr.2 fk.fk_col ≠ some pkv
          · rw [hciff.mpr hall] at hc
            simp at hc
          · push_neg at hall
            obtain ⟨fk, hfk, hrt, kr, hkr, hgv⟩ := hall
            exact Or.inl ⟨heq, fk, hfk, hrt, tr, hdata, kr, hkr, hgv⟩

theorem mockDelete_gone (t : MockTree) (k : Value) : dictGet (mockDelete t k) k = none := by
  unfold mockDelete
  induction t with
  | nil => rfl
  | cons p rest ih =>
    rw [List.filter_cons]
    by_cases hpk2 : p.1 = k
    · rw [if_neg (by simp [hpk2])]
      exact ih
    · rw [if_pos (by simp [hpk2])]
      unfold dictGet
      rw [if_neg hpk2]
      exact ih

/-- C5: delete on a well-formed store.  If any other table holds a row whose
declared referencing column equals the key, delete fails with the
referenced-row protection error and the state is untouched; otherwise a
missing key fails with the not-found error (state untouched), and a present
key is removed from the table's tree — afterwards the key no longer
resolves. -/
theorem C5_delete_referential (σ : DMState) (table : String) (pkv : Value)
    (s : TableSchema) (tree : MockTree)
    (hWF : dmWF σ)
    (htab : dictGet σ.tables table = some s)
    (hdata : dictGet σ.data table = some tree) :
    (dmReferenced σ table pkv →
      ∃ other, dmDelete σ table pkv = (σ, some (DMErr.referencedRow other))) ∧
    (¬ dmReferenced σ table pkv →
      (dictGet tree pkv = none →
        dmDelete σ table pkv = (σ, some DMErr.notFoundForDelete)) ∧
      ∀ rec, dictGet tree pkv = some rec →
        dmDelete σ table pkv =
          ({ σ with data := dictSet σ.data table (mockDelete tree pkv) }, none) ∧
        dictGet (mockDelete tree pkv) pkv = none) := by
  obtain ⟨hsiff, hshape⟩ := dmFkScan_spec σ table pkv hWF σ.tables (fun p hp => hp)
  constructor
  · intro href
    rcases hshape with hs | ⟨o, hs⟩
    · exact absurd href (hsiff.mp hs)
    · refine ⟨o, ?_⟩
      simp only [dmDelete, htab, hs]
  · intro hnref
    have hs : dmFkScan σ table pkv σ.tables = none := hsiff.mpr hnref
    constructor
    · intro hmiss
      simp only [dmDelete, htab, hs, hdata, hmiss]
      rw [if_neg (by simp)]
    · intro rec hhit
      refine ⟨?_, mockDelete_gone tree pkv⟩
      simp only [dmDelete, htab, hs, hdata]
      rw [if_pos (by rw [hhit]; rfl)]

/-- Parent/child example store for the delete witness: table p holds row
{id: 1}; table c holds row {id: 7, pid: 1} with pid referencing p(id). -/
def exParentSchema : TableSchema := ⟨"p", [⟨"id", "int", false⟩], some "id", []⟩

def exChildSchema : TableSchema :=
  ⟨"c", [⟨"id", "int", false⟩, ⟨"pid", "int", true⟩], some "id", [⟨"pid", "p", "id"⟩]⟩

def exDM5 : DMState :=
  ⟨[("p", exParentSchema), ("c", exChildSchema)],
   [("p", [(Value.int 1, [("id", some (Value.int 1))])]),
    ("c", [(Value.int 7, [("id", some (Value.int 7)), ("pid", some (Value.int 1))])])]⟩

theorem exDM5_ref : dmReferenced exDM5 "p" (Value.int 1) :=
  ⟨("c", exChildSchema), by decide, by decide, ⟨"pid", "p", "id"⟩, by decide, rfl,
    [(Value.int 7, [("id", some (Value.int 7)), ("pid", some (Value.int 1))])], by decide,
    (Value.int 7, [("id", some (Value.int 7)), ("pid", some (Value.int 1))]), by decide,
    by decide⟩

theorem exDM5_noref_c : ¬ dmReferenced exDM5 "c" (Value.int 9) := by
  rintro ⟨p, hp, hne, fk, hfk, hrt, tr, hdt, kr, hkr, hgv⟩
  simp only [exDM5, List.mem_cons, List.not_mem_nil, or_false] at hp
  rcases hp with rfl | rfl
  · simp [exParentSchema] at hfk
  · exact hne rfl

theorem C5_witness :
    (∃ other, dmDelete exDM5 "p" (Value.int 1) = (exDM5, some (DMErr.referencedRow other))) ∧
    dmDelete exDM5 "c" (Value.int 9) = (exDM5, some DMErr.notFoundForDelete) :=
  ⟨(C5_delete_referential exDM5 "p" (Value.int 1) exParentSchema
      [(Value.int 1, [("id", some (Value.int 1))])] (by unfold dmWF; decide)
      (by decide) (by decide)).1 exDM5_ref,
   ((C5_delete_referential exDM5 "c" (Value.int 9) exChildSchema
      [(Value.int 7, [("id", some (Value.int 7)), ("pid", some (Value.int 1))])]
      (by unfold dmWF; decide) (by decide) (by decide)).2 exDM5_noref_c).1 (by decide)⟩

theorem dictSet_new {κ α : Type} [DecidableEq κ] (l : List (κ × α)) (k : κ) (v : α)
    (h : k ∉ l.map Prod.fst) : dictSet l k v = l ++ [(k, v)] := by
  induction l with
  | nil => rfl
  | cons p rest ih =>
    rw [List.map_cons, List.mem_cons] at h
    push_neg at h
    unfold dictSet
    rw [if_neg (fun he => h.1 he.symm), List.cons_append, ih h.2]

theorem tdInv_nil : tdInv ⟨[], []⟩ :=
  ⟨rfl, List.nodup_nil, fun n tree h => by simp [dictGet] at h⟩

/-- create_table preserves the manager invariant. -/
theorem tdCreate_inv (σ : TDState) (s : TableSchema) (hinv : tdInv σ) :
    tdInv (tdCreateTable σ s).1 := by
  obtain ⟨hkeys, hnd, htrees⟩ := hinv
  unfold tdCreateTable
  by_cases hex : (dictGet σ.tables s.name).isSome = true
  · rw [if_pos hex]
    exact ⟨hkeys, hnd, htrees⟩
  · obtain ⟨t0, hnew, hinv0, hc0, hord0⟩ := new_inv Record 50 (by omega)
    rw [if_neg hex, hnew]
    have hfT : s.name ∉ σ.tables.map Prod.fst := by
      rw [← dictGet_isSome_iff]
      exact fun hc => hex hc
    have hfD : s.name ∉ σ.data.map Prod.fst := by
      rw [← hkeys]
      exact hfT
    show tdInv ⟨dictSet σ.tables s.name s, dictSet σ.data s.name t0⟩
    refine ⟨?_, ?_, ?_⟩
    · rw [dictSet_new _ _ _ hfT, dictSet_new _ _ _ hfD, List.map_append, List.map_append,
        hkeys]
      simp
    · rw [dictSet_new _ _ _ hfD, List.map_append]
      rw [List.nodup_append]
      refine ⟨hkeys ▸ hnd, List.nodup_singleton _, ?_⟩
      intro a ha hb
      rw [List.map_cons, List.map_nil, List.mem_singleton] at hb
      subst hb
      exact hfD ha
    · intro n tree htr
      by_cases hn : n = s.name
      · subst hn
        rw [dictGet_set_self] at htr
        obtain rfl : t0 = tree := Option.some_inj.mp htr
        refine ⟨hinv0, hord0, ?_⟩
        intro k r hk
        rw [hc0] at hk
        simp at hk
      · rw [dictGet_set_ne _ _ _ _ hn] at htr
        obtain ⟨h1, h2, h3⟩ := htrees n tree htr
        refine ⟨h1, h2, ?_⟩
        intro k r hk
        obtain ⟨s2, pk2, hs2, hpk2, hr2⟩ := h3 k r hk
        exact ⟨s2, pk2, by rw [dictGet_set_ne _ _ _ _ hn]; exact hs2, hpk2, hr2⟩

/-- insert preserves the manager invariant, whether it fails or succeeds. -/
theorem tdInsert_inv_pres (σ : TDState) (tbl : String) (r : Record) (hinv : tdInv σ) :
    tdInv ((tdInsert σ tbl r).1) := by
  cases hsch : dictGet σ.tables tbl with
  | none =>
    rw [show tdInsert σ tbl r = (σ, some DMErr.tableNotFound) from by
      simp only [tdInsert, hsch]]
    exact hinv
  | some schema =>
    cases hpkv : (match schema.pk_name with
                  | none => none
                  | some pk => recGet r pk) with
    | none =>
      rw [show tdInsert σ tbl r = (σ, some DMErr.nullPrimaryKey) from by
        simp only [tdInsert, hsch, hpkv]]
      exact hinv
    | some pkv =>
      cases hdt : dictGet σ.data tbl with
      | none =>
        rw [show tdInsert σ tbl r = (σ, some DMErr.keyError) from by
          simp only [tdInsert, hsch, hpkv, hdt]]
        exact hinv
      | some tree =>
        cases pkv with
        | float q =>
          rw [show tdInsert σ tbl r = (σ, some DMErr.unmodeledKey) from by
            simp only [tdInsert, hsch, hpkv, hdt]]
          exact hinv
        | str s2 =>
          rw [show tdInsert σ tbl r = (σ, some DMErr.unmodeledKey) from by
            simp only [tdInsert, hsch, hpkv, hdt]]
          exact hinv
        | bool b =>
          rw [show tdInsert σ tbl r = (σ, some DMErr.unmodeledKey) from by
            simp only [tdInsert, hsch, hpkv, hdt]]
          exact hinv
        | int k =>
          cases hse : tree.search k with
          | none =>
            rw [show tdInsert σ tbl r = (σ, some DMErr.arenaFault) from by
              simp only [tdInsert, hsch, hpkv, hdt, hse]]
            exact hinv
          | some so =>
            cases so with
            | some old =>
              rw [show tdInsert σ tbl r = (σ, some DMErr.duplicatePrimaryKey) from by
                simp only [tdInsert, hsch, hpkv, hdt, hse]]
              exact hinv
            | none =>
              cases hfk : tdCheckFKs σ schema.foreign_keys r with
              | some e =>
                rw [show tdInsert σ tbl r = (σ, some e) from by
                  simp only [tdInsert, hsch, hpkv, hdt, hse, hfk]]
                exact hinv
              | none =>
                cases hins : tree.insert k r with
                | none =>
                  rw [show tdInsert σ tbl r = (σ, some DMErr.arenaFault) from by
                    simp only [tdInsert, hsch, hpkv, hdt, hse, hfk, hins]]
                  exact hinv
                | some tree2 =>
                  rw [show tdInsert σ tbl r =
                      ({ σ with data := dictSet σ.data tbl tree2 }, none) from by
                    simp only [tdInsert, hsch, hpkv, hdt, hse, hfk, hins]]
                  obtain ⟨hkeys, hnd, htrees⟩ := hinv
                  obtain ⟨hti, hto, hcoh⟩ := htrees tbl tree hdt
                  obtain ⟨pk0, hpk0, hget0⟩ : ∃ pk0, schema.pk_name = some pk0 ∧
                      recGet r pk0 = some (Value.int k) := by
                    cases hpk2 : schema.pk_name with
                    | none =>
                      rw [hpk2] at hpkv
                      simp at hpkv
                    | some pk0 =>
                      rw [hpk2] at hpkv
                      exact ⟨pk0, rfl, hpkv⟩
                  obtain ⟨t', hins', hinv', hc', hord'⟩ := insert_inv tree k r hti
                  obtain rfl : t' = tree2 := by
                    rw [hins] at hins'
                    exact (Option.some_inj.mp hins').symm
                  have hmemk : tbl ∈ σ.data.map Prod.fst := by
                    rw [← dictGet_isSome_iff, hdt]
                    rfl
                  show tdInv ⟨σ.tables, dictSet σ.data tbl t'⟩
                  refine ⟨?_, ?_, ?_⟩
                  · rw [dictSet_map_fst_mem _ _ _ hmemk]
                    exact hkeys
                  · rw [dictSet_map_fst_mem _ _ _ hmemk]
                    exact hnd
                  · intro n tr2 htr2
                    by_cases hn : n = tbl
                    · subst hn
                      rw [dictGet_set_self] at htr2
                      obtain rfl : t' = tr2 := Option.some_inj.mp htr2
                      refine ⟨hinv', by rw [hord', hto], ?_⟩
                      intro k2 r2 hk2
                      rw [hc'] at hk2
                      rcases mem_assocUpsert hk2 with hk2 | hk2
                      · obtain ⟨h1, h2⟩ := Prod.ext_iff.mp hk2
                        have h1b : k2 = k := h1
                        have h2b : r2 = r := h2
                        subst h1b
                        subst h2b
                        exact ⟨schema, pk0, hsch, hpk0, hget0⟩
                      · exact hcoh k2 r2 hk2
                    · rw [dictGet_set_ne _ _ _ _ hn] at htr2
                      exact htrees n tr2 htr2

theorem tdApply_inv (σ : TDState) (op : TDOp) (hinv : tdInv σ) : tdInv (tdApply σ op) := by
  cases op with
  | create s => exact tdCreate_inv σ s hinv
  | insert tbl r => exact tdInsert_inv_pres σ tbl r hinv

/-- Every store the command sequence builds is well-formed. -/
theorem buildTD_inv (ops : List TDOp) : tdInv (buildTD ops) := by
  unfold buildTD
  have hgen : ∀ (l : List TDOp) (σ : TDState), tdInv σ → tdInv (l.foldl tdApply σ) := by
    intro l
    induction l with
    | nil => exact fun σ h => h
    | cons op rest ih =>
      intro σ h
      rw [List.foldl_cons]
      exact ih _ (tdApply_inv σ op h)
  exact hgen ops ⟨[], []⟩ tdInv_nil

/-- The replay loop over key-coherent records behaves like the insert fold. -/
theorem replay_spec (pk : String) :
    ∀ (pairs : List (Int × Record)) (t : BPlusTree Record), treeInv t →
    (∀ p ∈ pairs, recGet p.2 pk = some (Value.int p.1)) →
    ∃ t2, replayFor (some pk) t (pairs.map Prod.snd) = some t2 ∧ treeInv t2 ∧
      contents t2 = pairs.foldl (fun acc p => assocUpsert acc p.1 p.2) (contents t) ∧
      t2.order = t.order := by
  intro pairs
  induction pairs with
  | nil =>
    intro t ht _
    exact ⟨t, rfl, ht, rfl, rfl⟩
  | cons p rest ih =>
    intro t ht hcoh
    obtain ⟨t1, hins, hinv1, hc1, hord1⟩ := insert_inv t p.1 p.2 ht
    obtain ⟨t2, hrep, hinv2, hc2, hord2⟩ := ih t1 hinv1
      (fun q hq => hcoh q (List.mem_cons_of_mem _ hq))
    refine ⟨t2, ?_, hinv2, ?_, by rw [hord2, hord1]⟩
    · show replayFor (some pk) t (p.2 :: rest.map Prod.snd) = some t2
      simp only [replayFor, hcoh p (List.mem_cons_self _ _), hins]
      exact hrep
    · rw [List.foldl_cons, hc2, hc1]

/-- saveTables on a row of invariant trees writes each table's contents. -/
theorem saveTables_go (l : List (String × BPlusTree Record))
    (hl : ∀ nd ∈ l, treeInv nd.2) :
    saveTables l = some (l.map (fun nd => (nd.1, (contents nd.2).map Prod.snd))) := by
  induction l with
  | nil => rfl
  | cons nd rest ih =>
    obtain ⟨n, t⟩ := nd
    have hinv := hl (n, t) (List.mem_cons_self _ _)
    have hget := get_all_spec t hinv
    show saveTables ((n, t) :: rest) = _
    unfold saveTables
    rw [hget, ih (fun q hq => hl q (List.mem_cons_of_mem _ hq))]
    rfl

/-- Two lists of pairs that are a permutation of each other and both sorted
strictly by first component are equal. -/
theorem perm_sorted_fst_eq {V : Type} (l₁ l₂ : List (Int × V)) (hp : l₁.Perm l₂)
    (h₁ : List.Sorted (· < ·) (l₁.map Prod.fst))
    (h₂ : List.Sorted (· < ·) (l₂.map Prod.fst)) : l₁ = l₂ := by
  haveI : IsAntisymm (Int × V) (fun p q => p.1 < q.1) :=
    ⟨fun a b h1 h2 => absurd (lt_trans h1 h2) (lt_irrefl _)⟩
  refine @List.eq_of_perm_of_sorted (Int × V) (fun p q => p.1 < q.1) _ l₁ l₂ hp ?_ ?_
  · exact List.pairwise_map.mp h₁
  · exact List.pairwise_map.mp h₂

/-- Keys sorted strictly ascending are pairwise distinct. -/
theorem sorted_fst_nodup {V : Type} (l : List (Int × V))
    (h : List.Sorted (· < ·) (l.map Prod.fst)) : (l.map Prod.fst).Nodup :=
  h.imp (fun hlt => ne_of_lt hlt)

/-- The load loop: replaying each saved table through a fresh tree yields,
table by table, trees with exactly the original contents (the physical
shape may differ), appended to the accumulator in metadata order. -/
theorem tdLoadGo_spec (σ : TDState) (hinv : tdInv σ)
    (files : List (String × List Record))
    (hfiles : ∀ n tree, dictGet σ.data n = some tree →
      dictGet files n = some ((contents tree).map Prod.snd)) :
    ∀ ms : List (String × TableSchema), (∀ p ∈ ms, p ∈ σ.tables) →
      (ms.map Prod.fst).Nodup →
    ∀ σacc : TDState,
      (∀ p ∈ ms, p.1 ∉ σacc.tables.map Prod.fst ∧ p.1 ∉ σacc.data.map Prod.fst) →
      ∃ σ2, tdLoadGo files ms σacc = some σ2 ∧
        σ2.tables = σacc.tables ++ ms ∧
        ∃ ds : List (String × BPlusTree Record), σ2.data = σacc.data ++ ds ∧
          ds.map Prod.fst = ms.map Prod.fst ∧
          ∀ p ∈ ds, ∃ t, dictGet σ.data p.1 = some t ∧ treeInv p.2 ∧
            p.2.order = 50 ∧ contents p.2 = contents t := by
  intro ms
  induction ms with
  | nil =>
    intro _ _ σacc _
    exact ⟨σacc, rfl, by simp, [], by simp, rfl, by simp⟩
  | cons m rest ih =>
    intro hsub hndms σacc hfresh
    obtain ⟨name, schema⟩ := m
    have hmem : (name, schema) ∈ σ.tables := hsub _ (List.mem_cons_self _ _)
    obtain ⟨hkeys, hndD, htrees⟩ := hinv
    have hndT : (σ.tables.map Prod.fst).Nodup := by
      rw [hkeys]
      exact hndD
    have htablook : dictGet σ.tables name = some schema := dictGet_of_mem_nodup hndT hmem
    obtain ⟨tree, hdatalook⟩ := Option.isSome_iff_exists.mp
      (show (dictGet σ.data name).isSome = true by
        rw [dictGet_isSome_iff, ← hkeys]
        exact List.mem_map_of_mem Prod.fst hmem)
    obtain ⟨hti, hto, hcoh⟩ := htrees name tree hdatalook
    have hfile := hfiles name tree hdatalook
    obtain ⟨t0, hnew, hinv0, hc0, hord0⟩ := new_inv Record 50 (by omega)
    have hstep : tdLoadGo files ((name, schema) :: rest) σacc =
        (match replayFor schema.pk_name t0 ((contents tree).map Prod.snd) with
         | none => none
         | some t1 =>
           tdLoadGo files rest
             { tables := dictSet σacc.tables name schema,
               data := dictSet σacc.data name t1 }) := by
      simp only [tdLoadGo, hnew, hfile]
    obtain ⟨t1, hrep, hinv1, hord1, hceq⟩ :
        ∃ t1, replayFor schema.pk_name t0 ((contents tree).map Prod.snd) = some t1 ∧
          treeInv t1 ∧ t1.order = 50 ∧ contents t1 = contents tree := by
      cases hpk : schema.pk_name with
      | none =>
        have hempty : contents tree = [] := by
          cases hcc : contents tree with
          | nil => rfl
          | cons q qs =>
            obtain ⟨s2, pk2, hs2, hpk2, hr2⟩ := hcoh q.1 q.2 (by rw [hcc]; exact List.mem_cons_self _ _)
            rw [htablook] at hs2
            obtain rfl : s2 = schema := (Option.some_inj.mp hs2).symm
            rw [hpk] at hpk2
            simp at hpk2
        rw [hempty]
        exact ⟨t0, rfl, hinv0, hord0, by rw [hc0]⟩
      | some pk =>
        have hpairscoh : ∀ p ∈ contents tree, recGet p.2 pk = some (Value.int p.1) := by
          intro p hp
          obtain ⟨s2, pk2, hs2, hpk2, hr2⟩ := hcoh p.1 p.2 hp
          rw [htablook] at hs2
          obtain rfl : s2 = schema := (Option.some_inj.mp hs2).symm
          rw [hpk] at hpk2
          obtain rfl : pk2 = pk := (Option.some_inj.mp hpk2).symm
          exact hr2
        obtain ⟨t2, hrep2, hinv2, hc2, hord2⟩ :=
          replay_spec pk (contents tree) t0 hinv0 hpairscoh
        refine ⟨t2, hrep2, hinv2, by rw [hord2, hord0], ?_⟩
        have hsorted := contents_keys_sorted tree hti
        have hperm : (contents t2).Perm (contents tree) := by
          rw [hc2, hc0]
          have := foldl_assocUpsert_perm (contents tree) [] (by simp)
            (sorted_fst_nodup _ hsorted)
          simpa using this
        exact perm_sorted_fst_eq _ _ hperm (contents_keys_sorted t2 hinv2) hsorted
    rw [List.map_cons, List.nodup_cons] at hndms
    have hfT := (hfresh (name, schema) (List.mem_cons_self _ _)).1
    have hfD := (hfresh (name, schema) (List.mem_cons_self _ _)).2
    obtain ⟨σ2, hgo, htab2, ds, hdata2, hdskeys, hds⟩ :=
      ih (fun q hq => hsub q (List.mem_cons_of_mem _ hq)) hndms.2
        ⟨dictSet σacc.tables name schema, dictSet σacc.data name t1⟩
        (by
          intro q hq
          have hqa := hfresh q (List.mem_cons_of_mem _ hq)
          have hqname : q.1 ≠ name := by
            intro he
            apply hndms.1
            rw [← he]
            show q.1 ∈ List.map Prod.fst rest
            exact List.mem_map_of_mem Prod.fst hq
          constructor
          · show q.1 ∉ (dictSet σacc.tables name schema).map Prod.fst
            rw [dictSet_new _ _ _ hfT, List.map_append]
            intro hc
            rcases List.mem_append.mp hc with hc | hc
            · exact hqa.1 hc
            · rw [List.map_cons, List.map_nil, List.mem_singleton] at hc
              exact hqname hc
          · show q.1 ∉ (dictSet σacc.data name t1).map Prod.fst
            rw [dictSet_new _ _ _ hfD, List.map_append]
            intro hc
            rcases List.mem_append.mp hc with hc | hc
            · exact hqa.2 hc
            · rw [List.map_cons, List.map_nil, List.mem_singleton] at hc
              exact hqname hc)
    refine ⟨σ2, ?_, ?_, (name, t1) :: ds, ?_, ?_, ?_⟩
    · rw [hstep, hrep]
      exact hgo
    · rw [htab2]
      show (dictSet σacc.tables name schema) ++ rest = _
      rw [dictSet_new _ _ _ hfT, List.append_assoc]
      rfl
    · rw [hdata2]
      show (dictSet σacc.data name t1) ++ ds = _
      rw [dictSet_new _ _ _ hfD, List.append_assoc]
      rfl
    · rw [List.map_cons, List.map_cons, hdskeys]
    · intro p hp
      rcases List.mem_cons.mp hp with rfl | hp
      · exact ⟨tree, hdatalook, hinv1, hord1, hceq⟩
      · exact hds p hp

/-- C7: for every store built by a command sequence, save followed by load
into a fresh manager succeeds and yields a store answering every
no-filter select exactly as the original does — the same records for every
existing table (here even in the same order), and the same table-not-found
error for absent tables — although the reloaded trees' physical shape may
differ, since load replays each saved record through the raw tree insert
keyed by its primary-key value. -/
theorem C7_save_load_round_trip (ops : List TDOp) :
    ∃ snap σ2, tdSave (buildTD ops) = some snap ∧ tdLoad snap = some σ2 ∧
      ∀ tbl, tdSelect σ2 tbl none = tdSelect (buildTD ops) tbl none := by
  obtain ⟨hkeys, hndD, htrees⟩ := buildTD_inv ops
  have hsave : saveTables (buildTD ops).data =
      some ((buildTD ops).data.map (fun nd => (nd.1, (contents nd.2).map Prod.snd))) :=
    saveTables_go (buildTD ops).data
      (fun nd hnd => (htrees nd.1 nd.2 (dictGet_of_mem_nodup hndD hnd)).1)
  have hfskeys : ((buildTD ops).data.map
      (fun nd => (nd.1, (contents nd.2).map Prod.snd))).map Prod.fst =
      (buildTD ops).data.map Prod.fst := by
    rw [List.map_map]
    exact List.map_congr_left (fun a _ => rfl)
  have hfiles : ∀ n tree, dictGet (buildTD ops).data n = some tree →
      dictGet ((buildTD ops).data.map (fun nd => (nd.1, (contents nd.2).map Prod.snd))) n =
        some ((contents tree).map Prod.snd) := by
    intro n tree h
    have hm2 : (n, (contents tree).map Prod.snd) ∈
        (buildTD ops).data.map (fun nd => (nd.1, (contents nd.2).map Prod.snd)) :=
      List.mem_map_of_mem _ (dictGet_mem h)
    exact dictGet_of_mem_nodup (by rw [hfskeys]; exact hndD) hm2
  have hndT : ((buildTD ops).tables.map Prod.fst).Nodup := by
    rw [hkeys]
    exact hndD
  obtain ⟨σ2, hgo, htab2, ds, hdata2, hdskeys, hds⟩ :=
    tdLoadGo_spec (buildTD ops) (buildTD_inv ops)
      ((buildTD ops).data.map (fun nd => (nd.1, (contents nd.2).map Prod.snd))) hfiles
      (buildTD ops).tables (fun p hp => hp) hndT ⟨[], []⟩ (by intro p hp; simp)
  refine ⟨⟨(buildTD ops).tables,
    (buildTD ops).data.map (fun nd => (nd.1, (contents nd.2).map Prod.snd))⟩, σ2, ?_, ?_, ?_⟩
  · unfold tdSave
    rw [hsave]
    rfl
  · show tdLoadGo ((buildTD ops).data.map (fun nd => (nd.1, (contents nd.2).map Prod.snd)))
      (buildTD ops).tables ⟨[], []⟩ = some σ2
    exact hgo
  · intro tbl
    have htab2b : σ2.tables = (buildTD ops).tables := by
      rw [htab2]
      simp
    have hdata2b : σ2.data = ds := by
      rw [hdata2]
      simp
    cases hdg : dictGet (buildTD ops).data tbl with
    | none =>
      have hds_none : dictGet ds tbl = none := by
        cases hcase : dictGet ds tbl with
        | none => rfl
        | some x =>
          exfalso
          have h1 : tbl ∈ ds.map Prod.fst := by
            rw [← dictGet_isSome_iff, hcase]
            rfl
          rw [hdskeys, hkeys, ← dictGet_isSome_iff, hdg] at h1
          simp at h1
      simp only [tdSelect, hdata2b, hds_none, hdg]
    | some tree =>
      obtain ⟨t1, hdst1⟩ : ∃ t1, dictGet ds tbl = some t1 := by
        apply Option.isSome_iff_exists.mp
        rw [dictGet_isSome_iff, hdskeys, hkeys, ← dictGet_isSome_iff, hdg]
        rfl
      obtain ⟨t, hdt, hinv1, hord1, hceq⟩ := hds (tbl, t1) (dictGet_mem hdst1)
      obtain rfl : t = tree := by
        rw [hdg] at hdt
        exact (Option.some_inj.mp hdt).symm
      have htreeinv := (htrees tbl t hdg).1
      have hga1 := get_all_spec t1 hinv1
      have hga := get_all_spec t htreeinv
      simp only [tdSelect, hdata2b, hdst1, hdg, htab2b]
      cases htb : dictGet (buildTD ops).tables tbl with
      | none => rfl
      | some s =>
        rw [hga1, hga, hceq]

end TreeDb
